import Mathlib

/-!
Verification of `arch/arm/mm/init.c`.

A shallow embedding of the interval-reconciliation code of the ARM early
memory bootstrap (`find_limits`, `arm_bootmem_init`, `arm_bootmem_free`,
`arm_adjust_dma_zone`, `free_memmap`, `free_unused_memmap`,
`free_highpages`), of the ramdisk parsers, `arm_memblock_init`,
`arm_memblock_steal`, `bootmem_init`, `mem_init` as calls on the variables of
the file, and of `poison_init_mem`, together with theorems about them.

Conventions.
* Page frame numbers and `unsigned long` values are natural numbers below
  `ULONG_SIZE = 2 ^ 32`; every C operation that can wrap is reduced modulo
  `ULONG_SIZE` explicitly.
* A memblock region is represented by the pair of frame numbers that the
  `memblock_region_*_base_pfn` / `memblock_region_*_end_pfn` helpers return for
  it, a bank by the pair `bank_pfn_start` / `bank_pfn_end` and its `highmem`
  flag.
* `for_each_memblock` and `for_each_bank` walk their table in index order, so a
  table is a list.
* Calls to external primitives are recorded as an output trace.
-/

namespace ArmInit

/-! ## Data model -/

/-- Number of values of an `unsigned long` on 32-bit ARM. -/
def ULONG_SIZE : Nat := 2 ^ 32

/-- Unsigned machine subtraction `a - b` on `unsigned long`. -/
def usub (a b : Nat) : Nat := (a + (ULONG_SIZE - b % ULONG_SIZE)) % ULONG_SIZE

/-- Unsigned machine addition `a + b` on `unsigned long`. -/
def uadd (a b : Nat) : Nat := (a + b) % ULONG_SIZE

/-- Frame view of one `struct memblock_region`: `start_pfn` is what
`memblock_region_*_base_pfn` returns and `end_pfn` what
`memblock_region_*_end_pfn` returns; the region stands for the half-open frame
range from `start_pfn` up to `end_pfn`. -/
structure Interval where
  start_pfn : Nat
  end_pfn : Nat
deriving DecidableEq, Repr

/-- Frame `f` lies in the half-open range of the interval. -/
def Interval.contains (r : Interval) (f : Nat) : Prop :=
  r.start_pfn ≤ f ∧ f < r.end_pfn

instance (r : Interval) (f : Nat) : Decidable (r.contains f) := by
  unfold Interval.contains; infer_instance

/-- Frame `f` lies in some interval of the table. -/
def covered (tbl : List Interval) (f : Nat) : Prop := ∃ r ∈ tbl, r.contains f

instance (tbl : List Interval) (f : Nat) : Decidable (covered tbl f) := by
  unfold covered; infer_instance

/-- Every interval of the table has `start_pfn ≤ end_pfn`. -/
def wellFormed (tbl : List Interval) : Prop := ∀ r ∈ tbl, r.start_pfn ≤ r.end_pfn

instance (tbl : List Interval) : Decidable (wellFormed tbl) := by
  unfold wellFormed; infer_instance

/-- Every interval of the table holds at least one frame. -/
def nonEmptyIntervals (tbl : List Interval) : Prop := ∀ r ∈ tbl, r.start_pfn < r.end_pfn

instance (tbl : List Interval) : Decidable (nonEmptyIntervals tbl) := by
  unfold nonEmptyIntervals; infer_instance

/-- The table is in ascending order without overlap: each interval ends at or
before the start of every later one. -/
def ascending (tbl : List Interval) : Prop :=
  tbl.Pairwise (fun a b => a.end_pfn ≤ b.start_pfn)

instance (tbl : List Interval) : Decidable (ascending tbl) := by
  unfold ascending; infer_instance

/-- The two intervals share no frame: their intersection, which runs from the
larger start to the smaller end, is empty. -/
def Interval.disjoint (a b : Interval) : Prop :=
  min a.end_pfn b.end_pfn ≤ max a.start_pfn b.start_pfn

instance (a b : Interval) : Decidable (a.disjoint b) := by
  unfold Interval.disjoint; infer_instance

/-- No frame lies in two different entries of the table. -/
def pairwiseDisjoint (tbl : List Interval) : Prop := tbl.Pairwise Interval.disjoint

instance (tbl : List Interval) : Decidable (pairwiseDisjoint tbl) := by
  unfold pairwiseDisjoint; infer_instance

/-! ## `free_highpages` (CONFIG_HIGHMEM) -/

/-- The loop of `free_area_high(pfn, end)`: the frames handed to
`free_highmem_page`, in call order. -/
def free_area_high (pfn end_pfn : Nat) : List Nat := List.range' pfn (end_pfn - pfn)

/-- Inner `for_each_memblock(reserved, res)` loop of `free_highpages` for one
memory region ending at `end_pfn`, entered with cursor `start`.  Returns the
`free_area_high` calls made by the loop and the cursor on loop exit. -/
def free_highpages_reserved (end_pfn : Nat) :
    List Interval → Nat → List (Nat × Nat) × Nat
  | [], start => ([], start)
  | res :: rest, start =>
    if res.end_pfn < start then
      free_highpages_reserved end_pfn rest start
    else
      let res_start := if res.start_pfn < start then start else res.start_pfn
      let res_start := if res_start > end_pfn then end_pfn else res_start
      let res_end := if res.end_pfn > end_pfn then end_pfn else res.end_pfn
      let calls := if res_start ≠ start then [(start, res_start)] else []
      if res_end = end_pfn then
        (calls, res_end)
      else
        let r := free_highpages_reserved end_pfn rest res_end
        (calls ++ r.1, r.2)

/-- Body of the outer `for_each_memblock(memory, mem)` loop of
`free_highpages`: the `free_area_high` calls made for one memory region. -/
def free_highpages_region (max_low : Nat) (reserved : List Interval)
    (mem : Interval) : List (Nat × Nat) :=
  if mem.end_pfn ≤ max_low then
    []
  else
    let start := if mem.start_pfn < max_low then max_low else mem.start_pfn
    let r := free_highpages_reserved mem.end_pfn reserved start
    r.1 ++ (if r.2 < mem.end_pfn then [(r.2, mem.end_pfn)] else [])

/-- The `free_area_high(start, end)` calls of `free_highpages`, in order. -/
def free_highpages_calls (max_low : Nat) (memory reserved : List Interval) :
    List (Nat × Nat) :=
  memory.flatMap (free_highpages_region max_low reserved)

/-- The frames that `free_highpages` passes to `free_highmem_page`, in call
order. -/
def free_highpages (max_low : Nat) (memory reserved : List Interval) : List Nat :=
  (free_highpages_calls max_low memory reserved).flatMap
    (fun c => free_area_high c.1 c.2)

/-- Frame `f` lies in one of the recorded `free_area_high` ranges. -/
def inCalls (calls : List (Nat × Nat)) (f : Nat) : Prop :=
  ∃ c ∈ calls, c.1 ≤ f ∧ f < c.2

/-! ## `arm_bootmem_init` -/

/-- Modelled from the spec: the bootstrap bitmap allocator state (`bootmem_data`
of `mm/bootmem.c`, which is not among the sources).  It covers the frames from
`node_min_pfn` up to `node_low_pfn`, one bit per frame; `bit f = true` means
frame `f` is reserved, `false` means free. -/
structure BootmemData where
  node_min_pfn : Nat
  node_low_pfn : Nat
  bit : Nat → Bool

/-- Modelled from the spec: `init_bootmem_node(pgdat, freepfn, startpfn, endpfn)`
sizes the bitmap to the frames from `startpfn` up to `endpfn` and marks every
frame reserved. -/
def init_bootmem_node (start_pfn end_pfn : Nat) : BootmemData :=
  { node_min_pfn := start_pfn, node_low_pfn := end_pfn, bit := fun _ => true }

/-- Modelled from the spec: `free_bootmem(__pfn_to_phys(start), (end - start) <<
PAGE_SHIFT)` clears (marks free) the bits of the frames from `start` up to
`end` that the bitmap covers. -/
def free_bootmem (bd : BootmemData) (start end_pfn : Nat) : BootmemData :=
  { bd with bit := fun f =>
      if bd.node_min_pfn ≤ f ∧ f < bd.node_low_pfn ∧ start ≤ f ∧ f < end_pfn then false
      else bd.bit f }

/-- Modelled from the spec: `reserve_bootmem(__pfn_to_phys(start), (end - start)
<< PAGE_SHIFT, BOOTMEM_DEFAULT)` sets (marks reserved) the bits of the frames
from `start` up to `end` that the bitmap covers. -/
def reserve_bootmem (bd : BootmemData) (start end_pfn : Nat) : BootmemData :=
  { bd with bit := fun f =>
      if bd.node_min_pfn ≤ f ∧ f < bd.node_low_pfn ∧ start ≤ f ∧ f < end_pfn then true
      else bd.bit f }

/-- First `for_each_memblock` loop of `arm_bootmem_init` ("Free the lowmem
regions from memblock into bootmem"): clip `end` to `end_pfn`, leave the loop at
the first region with `start >= end`, otherwise `free_bootmem` the range. -/
def arm_bootmem_init_memory (end_pfn : Nat) : List Interval → BootmemData → BootmemData
  | [], bd => bd
  | reg :: rest, bd =>
    let start := reg.start_pfn
    let end_ := if reg.end_pfn ≥ end_pfn then end_pfn else reg.end_pfn
    if start ≥ end_ then
      bd
    else
      arm_bootmem_init_memory end_pfn rest (free_bootmem bd start end_)

/-- Second `for_each_memblock` loop of `arm_bootmem_init` ("Reserve the lowmem
memblock reserved regions in bootmem"): clip `end` to `end_pfn`, leave the loop
at the first region with `start >= end`, otherwise `reserve_bootmem` the
range. -/
def arm_bootmem_init_reserved (end_pfn : Nat) : List Interval → BootmemData → BootmemData
  | [], bd => bd
  | reg :: rest, bd =>
    let start := reg.start_pfn
    let end_ := if reg.end_pfn ≥ end_pfn then end_pfn else reg.end_pfn
    if start ≥ end_ then
      bd
    else
      arm_bootmem_init_reserved end_pfn rest (reserve_bootmem bd start end_)

/-- The function `arm_bootmem_init(start_pfn, end_pfn)`: the bitmap after
`init_bootmem_node` and the two loops.  `memory` and `reserved` are the
memblock tables as the loops see them (the bitmap's own pages, obtained from
`memblock_alloc_base`, are already part of `reserved`). -/
def arm_bootmem_init (start_pfn end_pfn : Nat) (memory reserved : List Interval) :
    BootmemData :=
  let bd := init_bootmem_node start_pfn end_pfn
  let bd := arm_bootmem_init_memory end_pfn memory bd
  arm_bootmem_init_reserved end_pfn reserved bd

/-- Frame `f` is covered by the bitmap and marked free. -/
def BootmemData.isFree (bd : BootmemData) (f : Nat) : Prop :=
  bd.node_min_pfn ≤ f ∧ f < bd.node_low_pfn ∧ bd.bit f = false

instance (bd : BootmemData) (f : Nat) : Decidable (bd.isFree f) := by
  unfold BootmemData.isFree; infer_instance

/-- Frame `f` is covered by the bitmap and marked reserved. -/
def BootmemData.isReserved (bd : BootmemData) (f : Nat) : Prop :=
  bd.node_min_pfn ≤ f ∧ f < bd.node_low_pfn ∧ bd.bit f = true

instance (bd : BootmemData) (f : Nat) : Decidable (bd.isReserved f) := by
  unfold BootmemData.isReserved; infer_instance

/-- The frames of the bitmap's range, in ascending order. -/
def BootmemData.frames (bd : BootmemData) : List Nat :=
  List.range' bd.node_min_pfn (bd.node_low_pfn - bd.node_min_pfn)

/-- Number of frames the bitmap marks free. -/
def BootmemData.freeCount (bd : BootmemData) : Nat :=
  (bd.frames.filter (fun f => !bd.bit f)).length

/-- Number of frames the bitmap marks reserved. -/
def BootmemData.reservedCount (bd : BootmemData) : Nat :=
  (bd.frames.filter (fun f => bd.bit f)).length

/-- The table is sorted ascending by start frame. -/
def sortedByStart (tbl : List Interval) : Prop :=
  tbl.Pairwise (fun a b => a.start_pfn ≤ b.start_pfn)

instance (tbl : List Interval) : Decidable (sortedByStart tbl) := by
  unfold sortedByStart; infer_instance

/-! ## `arm_adjust_dma_zone` and `arm_bootmem_free` -/

/-- Build configuration deciding the layout of `enum zone_type`
(`include/linux/mmzone.h`, not among the sources). -/
structure ZoneConfig where
  CONFIG_ZONE_DMA : Bool
  CONFIG_HIGHMEM : Bool
deriving DecidableEq, Repr

/-- Index `ZONE_DMA` (present when `CONFIG_ZONE_DMA` is set): the first
enumerator. -/
def ZONE_DMA : Nat := 0

/-- Index `ZONE_NORMAL`: it follows `ZONE_DMA` when that zone exists and is the
first enumerator otherwise. -/
def ZONE_NORMAL (cfg : ZoneConfig) : Nat := if cfg.CONFIG_ZONE_DMA then 1 else 0

/-- Index `ZONE_HIGHMEM` (present when `CONFIG_HIGHMEM` is set): it follows
`ZONE_NORMAL`. -/
def ZONE_HIGHMEM (cfg : ZoneConfig) : Nat := ZONE_NORMAL cfg + 1

/-- Index `ZONE_MOVABLE`: the enumerator after the last of the zones above. -/
def ZONE_MOVABLE (cfg : ZoneConfig) : Nat :=
  if cfg.CONFIG_HIGHMEM then ZONE_HIGHMEM cfg + 1 else ZONE_NORMAL cfg + 1

/-- Length `MAX_NR_ZONES` of the zone arrays. -/
def MAX_NR_ZONES (cfg : ZoneConfig) : Nat := ZONE_MOVABLE cfg + 1

/-- Page size exponent on ARM. -/
def PAGE_SHIFT : Nat := 12

/-- Assignment `a[i] = v` on an array of `unsigned long` seen as a map from
index to value. -/
def store (a : Nat → Nat) (i v : Nat) : Nat → Nat := fun j => if j = i then v else a j

/-- The function `arm_adjust_dma_zone(size, hole, dma_size)`, compiled (and
called) only under `CONFIG_ZONE_DMA`, where `ZONE_DMA = 0` and
`ZONE_NORMAL = 1`; returns the arrays `size` and `hole` as it leaves them. -/
def arm_adjust_dma_zone (cfg : ZoneConfig) (size hole : Nat → Nat) (dma_size : Nat) :
    (Nat → Nat) × (Nat → Nat) :=
  if size 0 ≤ dma_size then
    (size, hole)
  else
    let size := store size (ZONE_NORMAL cfg) (usub (size 0) dma_size)
    let size := store size ZONE_DMA dma_size
    let hole := store hole (ZONE_NORMAL cfg) (hole 0)
    let hole := store hole ZONE_DMA 0
    (size, hole)

/-- The hole loop of `arm_bootmem_free`
(`for_each_memblock(memory, reg)` over `zhole_size`). -/
def arm_bootmem_free_holes (cfg : ZoneConfig) (max_low : Nat) :
    List Interval → (Nat → Nat) → (Nat → Nat)
  | [], zhole_size => zhole_size
  | reg :: rest, zhole_size =>
    let start := reg.start_pfn
    let end_ := reg.end_pfn
    let zhole_size :=
      if start < max_low then
        let low_end := min end_ max_low
        store zhole_size 0 (usub (zhole_size 0) (usub low_end start))
      else zhole_size
    let zhole_size :=
      if cfg.CONFIG_HIGHMEM = true ∧ end_ > max_low then
        let high_start := max start max_low
        store zhole_size (ZONE_HIGHMEM cfg)
          (usub (zhole_size (ZONE_HIGHMEM cfg)) (usub end_ high_start))
      else zhole_size
    arm_bootmem_free_holes cfg max_low rest zhole_size

/-- One pass of the hole loop body over region `reg`. -/
def holesStep (cfg : ZoneConfig) (max_low : Nat) (reg : Interval) (zh : Nat → Nat) :
    Nat → Nat :=
  arm_bootmem_free_holes cfg max_low [reg] zh

/-- Arguments with which `arm_bootmem_free` calls
`free_area_init_node(0, zone_size, min, zhole_size)`. -/
structure ZoneSet where
  zone_size : Nat → Nat
  zhole_size : Nat → Nat
  node_start_pfn : Nat

/-- The function `arm_bootmem_free(min, max_low, max_high)`.  `arm_dma_zone_size`
is the global of that name (bytes; only read under `CONFIG_ZONE_DMA`) and
`memory` the memblock memory table. -/
def arm_bootmem_free (cfg : ZoneConfig) (arm_dma_zone_size : Nat)
    (min_pfn max_low max_high : Nat) (memory : List Interval) : ZoneSet :=
  let zone_size : Nat → Nat := fun _ => 0
  let zone_size := store zone_size 0 (usub max_low min_pfn)
  let zone_size :=
    if cfg.CONFIG_HIGHMEM then store zone_size (ZONE_HIGHMEM cfg) (usub max_high max_low)
    else zone_size
  let zhole_size := zone_size
  let zhole_size := arm_bootmem_free_holes cfg max_low memory zhole_size
  let adjusted :=
    if cfg.CONFIG_ZONE_DMA = true ∧ arm_dma_zone_size ≠ 0 then
      arm_adjust_dma_zone cfg zone_size zhole_size (arm_dma_zone_size >>> PAGE_SHIFT)
    else (zone_size, zhole_size)
  { zone_size := adjusted.1, zhole_size := adjusted.2, node_start_pfn := min_pfn }

/-- Sum of the first `MAX_NR_ZONES` entries of a zone array. -/
def zoneSum (cfg : ZoneConfig) (a : Nat → Nat) : Nat :=
  ((List.range (MAX_NR_ZONES cfg)).map a).sum

/-- Number of frames `f` with `lo ≤ f < hi` that lie in some interval of the
table. -/
def coveredCount (tbl : List Interval) (lo hi : Nat) : Nat :=
  (List.range' lo (hi - lo)).countP (fun f => decide (covered tbl f))

/-- Number of frames `f` with `lo ≤ f < hi` that lie in no interval of the
table. -/
def uncoveredCount (tbl : List Interval) (lo hi : Nat) : Nat :=
  (List.range' lo (hi - lo)).countP (fun f => decide (¬ covered tbl f))

/-- Every interval of the table is well formed and lies between `lo` and
`hi`. -/
def containedIn (tbl : List Interval) (lo hi : Nat) : Prop :=
  ∀ r ∈ tbl, lo ≤ r.start_pfn ∧ r.start_pfn ≤ r.end_pfn ∧ r.end_pfn ≤ hi

instance (tbl : List Interval) (lo hi : Nat) : Decidable (containedIn tbl lo hi) := by
  unfold containedIn; infer_instance

/-! ## `find_limits` -/

/-- Modelled from the spec: one `struct membank` (`asm/setup.h`, not among the
sources) seen through the macros `bank_pfn_start` and `bank_pfn_end`, with its
`highmem` flag: the spec's `MemoryBank` with `start_frame`, `end_frame` and
`is_high_memory`. -/
structure membank where
  pfn_start : Nat
  pfn_end : Nat
  highmem : Bool
deriving DecidableEq, Repr

/-- The scan `for_each_bank(i, mi) if (mi->bank[i].highmem) break;` of
`find_limits`: the value of `i` when the loop is left, entered at index `i` with
the banks from that index on. -/
def find_limits_scan : List membank → Nat → Nat
  | [], i => i
  | b :: rest, i => if b.highmem then i else find_limits_scan rest (i + 1)

/-- The function `find_limits(&min, &max_low, &max_high)` over the bank table
`meminfo.bank[0 .. nr_banks)`; returns `(min, max_low, max_high)`.  A read of
`bank[0]`, `bank[i - 1]` or `bank[nr_banks - 1]` outside the table (in
particular `bank[-1]` when the scan leaves `i = 0`) yields `none`. -/
def find_limits (bank : List membank) : Option (Nat × Nat × Nat) :=
  match bank[0]? with
  | none => none
  | some first =>
    let i := find_limits_scan bank 0
    if i = 0 then
      none
    else
      match bank[i - 1]?, bank[bank.length - 1]? with
      | some low, some last => some (first.pfn_start, low.pfn_end, last.pfn_end)
      | _, _ => none

/-- Every bank has `pfn_start ≤ pfn_end`. -/
def banksWellFormed (bank : List membank) : Prop := ∀ b ∈ bank, b.pfn_start ≤ b.pfn_end

instance (bank : List membank) : Decidable (banksWellFormed bank) := by
  unfold banksWellFormed; infer_instance

/-- Invariant I1: the bank table is sorted ascending by start frame. -/
def banksSortedByStart (bank : List membank) : Prop :=
  bank.Pairwise (fun a b => a.pfn_start ≤ b.pfn_start)

instance (bank : List membank) : Decidable (banksSortedByStart bank) := by
  unfold banksSortedByStart; infer_instance

/-- The end frames of the banks ascend along the table. -/
def banksSortedByEnd (bank : List membank) : Prop :=
  bank.Pairwise (fun a b => a.pfn_end ≤ b.pfn_end)

instance (bank : List membank) : Decidable (banksSortedByEnd bank) := by
  unfold banksSortedByEnd; infer_instance

/-- The banks are in ascending address order without overlap: each bank ends
at or before the start of every later one. -/
def banksAscending (bank : List membank) : Prop :=
  bank.Pairwise (fun a b => a.pfn_end ≤ b.pfn_start)

instance (bank : List membank) : Decidable (banksAscending bank) := by
  unfold banksAscending; infer_instance

/-- Frame `f` belongs to the bank. -/
def membank.contains (b : membank) (f : Nat) : Prop := b.pfn_start ≤ f ∧ f < b.pfn_end

instance (b : membank) (f : Nat) : Decidable (b.contains f) := by
  unfold membank.contains; infer_instance

/-! ## `free_memmap` and `free_unused_memmap` -/

/-- Modelled from the spec: `ALIGN(x, a)` of `linux/kernel.h` (not among the
sources) rounds `x` up to the boundary `a` in `unsigned long` arithmetic (for
the powers of two it is used with, the mask formula `(x + (a - 1)) & ~(a - 1)`
computes this). -/
def ALIGN (x a : Nat) : Nat := (uadd x (a - 1)) / a * a

/-- Modelled from the spec: `round_down(x, a)` of `linux/kernel.h` rounds `x`
down to the boundary `a` (`x & ~(a - 1)` for a power of two). -/
def round_down (x a : Nat) : Nat := x / a * a

/-- Modelled from the spec: `IS_ALIGNED(x, a)` of `linux/kernel.h`: `x` is on
the boundary `a` (`(x & (a - 1)) == 0` for a power of two). -/
def IS_ALIGNED (x a : Nat) : Prop := x % a = 0

instance (x a : Nat) : Decidable (IS_ALIGNED x a) := by
  unfold IS_ALIGNED; infer_instance

/-- Size of a page in bytes. -/
def PAGE_SIZE : Nat := 2 ^ PAGE_SHIFT

/-- The macro `PAGE_ALIGN(addr)`, that is `ALIGN(addr, PAGE_SIZE)`. -/
def PAGE_ALIGN (addr : Nat) : Nat := ALIGN addr PAGE_SIZE

/-- The function `free_memmap(start_pfn, end_pfn)`: the list of
`free_bootmem(addr, size)` calls it makes, as pairs `(addr, size)`.
`memmap_pa pfn` stands for `__pa(pfn_to_page(pfn - 1) + 1)`, the physical
address at which the descriptor of frame `pfn` starts (`pfn_to_page` and `__pa`
are not among the sources); physical addresses are 32 bits wide. -/
def free_memmap (memmap_pa : Nat → Nat) (start_pfn end_pfn : Nat) : List (Nat × Nat) :=
  let start_pg := memmap_pa start_pfn
  let end_pg := memmap_pa end_pfn
  let pg := PAGE_ALIGN start_pg
  let pgend := round_down end_pg PAGE_SIZE
  if pg < pgend then [(pg, usub pgend pg)] else []

/-- Build configuration read by `free_unused_memmap`: whether
`CONFIG_SPARSEMEM` is set, and the exponents behind
`MAX_ORDER_NR_PAGES = 1 << (MAX_ORDER - 1)` and
`PAGES_PER_SECTION = 1 << PFN_SECTION_SHIFT` (`linux/mmzone.h`, not among the
sources). -/
structure MemmapConfig where
  CONFIG_SPARSEMEM : Bool
  MAX_ORDER : Nat
  PFN_SECTION_SHIFT : Nat
deriving DecidableEq, Repr

/-- The constant `MAX_ORDER_NR_PAGES`. -/
def MAX_ORDER_NR_PAGES (cfg : MemmapConfig) : Nat := 2 ^ (cfg.MAX_ORDER - 1)

/-- The constant `PAGES_PER_SECTION`. -/
def PAGES_PER_SECTION (cfg : MemmapConfig) : Nat := 2 ^ cfg.PFN_SECTION_SHIFT

/-- The `for_each_bank` loop of `free_unused_memmap`, entered with
`prev_bank_end`: the `free_memmap(start_pfn, end_pfn)` calls it makes, in
order, and `prev_bank_end` on loop exit. -/
def free_unused_memmap_banks (cfg : MemmapConfig) :
    List membank → Nat → List (Nat × Nat) × Nat
  | [], prev_bank_end => ([], prev_bank_end)
  | bank :: rest, prev_bank_end =>
    let bank_start := bank.pfn_start
    let bank_start :=
      if cfg.CONFIG_SPARSEMEM then
        min bank_start (ALIGN prev_bank_end (PAGES_PER_SECTION cfg))
      else
        round_down bank_start (MAX_ORDER_NR_PAGES cfg)
    let calls :=
      if prev_bank_end ≠ 0 ∧ prev_bank_end < bank_start then [(prev_bank_end, bank_start)]
      else []
    let prev_bank_end := ALIGN bank.pfn_end (MAX_ORDER_NR_PAGES cfg)
    let r := free_unused_memmap_banks cfg rest prev_bank_end
    (calls ++ r.1, r.2)

/-- The function `free_unused_memmap(mi)`: the frame ranges
`(start_pfn, end_pfn)` it passes to `free_memmap`, in call order. -/
def free_unused_memmap (cfg : MemmapConfig) (bank : List membank) : List (Nat × Nat) :=
  let r := free_unused_memmap_banks cfg bank 0
  let prev_bank_end := r.2
  r.1 ++
    (if cfg.CONFIG_SPARSEMEM = true ∧ ¬ IS_ALIGNED prev_bank_end (PAGES_PER_SECTION cfg) then
      [(prev_bank_end, ALIGN prev_bank_end (PAGES_PER_SECTION cfg))]
    else [])

/-! ## Module variables, memblock primitives and platform collaborators -/

/-- The memblock primitives of `mm/memblock.c` and `linux/memblock.h` (not among
the sources) that this file calls, taken as parameters over an abstract table
state `σ` holding the "memory" and the "reserved" table.
`memblock_alloc_base` yields `none` where the kernel primitive panics;
`memory_regions` and `reserved_regions` are `for_each_memblock(memory, reg)` and
`for_each_memblock(reserved, reg)` seen through the
`memblock_region_*_base_pfn` / `memblock_region_*_end_pfn` helpers. -/
structure MemblockOps (σ : Type) where
  memblock_add : σ → Nat → Nat → σ
  memblock_reserve : σ → Nat → Nat → σ
  memblock_free : σ → Nat → Nat → σ
  memblock_remove : σ → Nat → Nat → σ
  memblock_is_region_memory : σ → Nat → Nat → Bool
  memblock_is_region_reserved : σ → Nat → Nat → Bool
  memblock_alloc_base : σ → Nat → Nat → Nat → Option (Nat × σ)
  memblock_allow_resize : σ → σ
  memory_regions : σ → List Interval
  reserved_regions : σ → List Interval

/-- The fields of `struct machine_desc` (`asm/mach/arch.h`, not among the
sources) that this file reads: `dma_zone_size` and the optional `reserve`
callback. -/
structure machine_desc (σ : Type) where
  dma_zone_size : Nat
  reserve : Option (σ → σ)

/-- Constants, build options and external functions this file depends on and
that are not among the sources: address conversion macros, the kernel image
region registered with memblock (`__pa(_stext)` and `_end - _stext`, or the
`_sdata` pair under `CONFIG_XIP_KERNEL`), `arm_lowmem_limit`,
`MEMBLOCK_ALLOC_ANYWHERE`, `L1_CACHE_BYTES`, `bootmem_bootmap_pages`, and the
reservation hooks `arm_mm_memblock_reserve`, `arm_dt_memblock_reserve`,
`dma_contiguous_reserve`; `sparse_init` stands for `arm_memory_present()`
followed by `sparse_init()`, which allocate from the bootstrap bitmap. -/
structure Platform (σ : Type) where
  CONFIG_BLK_DEV_INITRD : Bool
  zone : ZoneConfig
  memmap : MemmapConfig
  virt_to_phys : Nat → Nat
  phys_to_virt : Nat → Nat
  PHYS_OFFSET : Nat
  PHYS_PFN_OFFSET : Nat
  arm_lowmem_limit : Nat
  MEMBLOCK_ALLOC_ANYWHERE : Nat
  L1_CACHE_BYTES : Nat
  kernel_base : Nat
  kernel_size : Nat
  bootmem_bootmap_pages : Nat → Nat
  arm_mm_memblock_reserve : σ → σ
  arm_dt_memblock_reserve : σ → σ
  dma_contiguous_reserve : Nat → σ → σ
  sparse_init : BootmemData → BootmemData

/-- The variables this file writes: its own `phys_initrd_start`,
`phys_initrd_size`, `arm_dma_zone_size`, `arm_dma_limit`,
`arm_memblock_steal_permitted` and `keep_initrd`, the memblock tables, the
globals `initrd_start`, `initrd_end`, `max_low_pfn` and `max_pfn`, the bootstrap
bitmap and the zone arrays handed to `free_area_init_node`, and the frames and
descriptor ranges released so far by `mem_init`. -/
structure InitGlobals (σ : Type) where
  phys_initrd_start : Nat
  phys_initrd_size : Nat
  arm_dma_zone_size : Nat
  arm_dma_limit : Nat
  arm_memblock_steal_permitted : Bool
  keep_initrd : Bool
  memblock : σ
  initrd_start : Nat
  initrd_end : Nat
  max_low_pfn : Nat
  max_pfn : Nat
  bootmem : Option BootmemData
  zones : Option ZoneSet
  freed_memmap : List (Nat × Nat)
  freed_highpages : List Nat

/-- The variables as the initialisers of the file leave them at boot:
`phys_initrd_start = 0`, `phys_initrd_size = 0`,
`arm_memblock_steal_permitted = true`, everything else zero or absent, over the
memblock tables `mb`. -/
def InitGlobals.boot {σ : Type} (mb : σ) : InitGlobals σ :=
  { phys_initrd_start := 0, phys_initrd_size := 0, arm_dma_zone_size := 0,
    arm_dma_limit := 0, arm_memblock_steal_permitted := true, keep_initrd := false,
    memblock := mb, initrd_start := 0, initrd_end := 0, max_low_pfn := 0, max_pfn := 0,
    bootmem := none, zones := none, freed_memmap := [], freed_highpages := [] }

/-- How a call into the file ends: it returns `ret` in state `st`, it stops at
a `BUG_ON` in state `st`, it stops in a fatal allocation failure, or it reads
outside the bank table (undefined behaviour). -/
inductive Outcome (σ α : Type) where
  | ok (ret : α) (st : InitGlobals σ)
  | bug (st : InitGlobals σ)
  | fatal (st : InitGlobals σ)
  | undefined (st : InitGlobals σ)

/-! ## Ramdisk location: `early_initrd`, `parse_tag_initrd`, `parse_tag_initrd2`,
`early_init_dt_setup_initrd_arch` -/

/-- The function `early_initrd(p)`.  `start` is `memparse(p, &endp)`, `comma`
says whether `*endp == ','` and `size` is `memparse(endp + 1, NULL)`
(`memparse` is not among the sources); the values are stored in 32-bit
variables. -/
def early_initrd {σ : Type} (st : InitGlobals σ) (start : Nat) (comma : Bool) (size : Nat) :
    InitGlobals σ :=
  if comma then
    { st with phys_initrd_start := start % ULONG_SIZE, phys_initrd_size := size % ULONG_SIZE }
  else
    st

/-- The function `parse_tag_initrd(tag)` with `tag->u.initrd.start` and
`tag->u.initrd.size`. -/
def parse_tag_initrd {σ : Type} (pf : Platform σ) (st : InitGlobals σ)
    (tag_start tag_size : Nat) : InitGlobals σ :=
  { st with phys_initrd_start := pf.virt_to_phys tag_start % ULONG_SIZE,
            phys_initrd_size := tag_size % ULONG_SIZE }

/-- The function `parse_tag_initrd2(tag)` with `tag->u.initrd.start` and
`tag->u.initrd.size`. -/
def parse_tag_initrd2 {σ : Type} (st : InitGlobals σ) (tag_start tag_size : Nat) :
    InitGlobals σ :=
  { st with phys_initrd_start := tag_start % ULONG_SIZE,
            phys_initrd_size := tag_size % ULONG_SIZE }

/-- The function `early_init_dt_setup_initrd_arch(start, end)`
(`CONFIG_OF_FLATTREE`). -/
def early_init_dt_setup_initrd_arch {σ : Type} (st : InitGlobals σ) (start end_ : Nat) :
    InitGlobals σ :=
  { st with phys_initrd_start := start % ULONG_SIZE, phys_initrd_size := usub end_ start }

/-! ## `setup_dma_zone`, `arm_memblock_steal`, `arm_memblock_init` -/

/-- The function `setup_dma_zone(mdesc)`. -/
def setup_dma_zone {σ : Type} (pf : Platform σ) (st : InitGlobals σ) (mdesc : machine_desc σ) :
    InitGlobals σ :=
  if pf.zone.CONFIG_ZONE_DMA then
    if mdesc.dma_zone_size ≠ 0 then
      { st with arm_dma_zone_size := mdesc.dma_zone_size,
                arm_dma_limit := usub (uadd pf.PHYS_OFFSET mdesc.dma_zone_size) 1 }
    else
      { st with arm_dma_limit := 0xffffffff }
  else
    st

/-- The function `arm_memblock_steal(size, align)`; on return `ret` is
`phys`. -/
def arm_memblock_steal {σ : Type} (ops : MemblockOps σ) (pf : Platform σ)
    (st : InitGlobals σ) (size align : Nat) : Outcome σ Nat :=
  if st.arm_memblock_steal_permitted = false then
    Outcome.bug st
  else
    match ops.memblock_alloc_base st.memblock size align pf.MEMBLOCK_ALLOC_ANYWHERE with
    | none => Outcome.fatal st
    | some (phys, mb) =>
      let mb := ops.memblock_free mb phys size
      let mb := ops.memblock_remove mb phys size
      Outcome.ok phys { st with memblock := mb }

/-- First part of `arm_memblock_init(mi, mdesc)`: `memblock_add` of every bank
(`mi` lists `bank[i].start` and `bank[i].size`) and `memblock_reserve` of the
kernel image. -/
def arm_memblock_init_banks {σ : Type} (ops : MemblockOps σ) (pf : Platform σ)
    (st : InitGlobals σ) (mi : List (Nat × Nat)) : InitGlobals σ :=
  let mb := mi.foldl (fun mb bank => ops.memblock_add mb bank.1 bank.2) st.memblock
  let mb := ops.memblock_reserve mb pf.kernel_base pf.kernel_size
  { st with memblock := mb }

/-- The `CONFIG_BLK_DEV_INITRD` block of `arm_memblock_init`: the two checks of
the ramdisk region and its reservation (the `pr_err` messages are console
output and not modelled). -/
def arm_memblock_init_initrd {σ : Type} (ops : MemblockOps σ) (pf : Platform σ)
    (st : InitGlobals σ) : InitGlobals σ :=
  let st :=
    if st.phys_initrd_size ≠ 0 ∧
        ops.memblock_is_region_memory st.memblock st.phys_initrd_start
          st.phys_initrd_size = false then
      { st with phys_initrd_start := 0, phys_initrd_size := 0 }
    else st
  let st :=
    if st.phys_initrd_size ≠ 0 ∧
        ops.memblock_is_region_reserved st.memblock st.phys_initrd_start
          st.phys_initrd_size = true then
      { st with phys_initrd_start := 0, phys_initrd_size := 0 }
    else st
  if st.phys_initrd_size ≠ 0 then
    { st with
        memblock := ops.memblock_reserve st.memblock st.phys_initrd_start st.phys_initrd_size,
        initrd_start := pf.phys_to_virt st.phys_initrd_start,
        initrd_end := uadd (pf.phys_to_virt st.phys_initrd_start) st.phys_initrd_size }
  else st

/-- The reservations `arm_memblock_init` makes after the ramdisk block, on the
memblock tables: `arm_mm_memblock_reserve`, `arm_dt_memblock_reserve`, the
platform's `mdesc->reserve` when set, `dma_contiguous_reserve(min(arm_dma_limit,
arm_lowmem_limit))` and `memblock_allow_resize`. -/
def arm_memblock_init_reservations {σ : Type} (ops : MemblockOps σ) (pf : Platform σ)
    (mdesc : machine_desc σ) (arm_dma_limit : Nat) (mb : σ) : σ :=
  let mb := pf.arm_mm_memblock_reserve mb
  let mb := pf.arm_dt_memblock_reserve mb
  let mb := match mdesc.reserve with
    | some reserve => reserve mb
    | none => mb
  let mb := pf.dma_contiguous_reserve (min arm_dma_limit pf.arm_lowmem_limit) mb
  ops.memblock_allow_resize mb

/-- The function `arm_memblock_init(mi, mdesc)` (`memblock_dump_all` only
prints). -/
def arm_memblock_init {σ : Type} (ops : MemblockOps σ) (pf : Platform σ)
    (st : InitGlobals σ) (mi : List (Nat × Nat)) (mdesc : machine_desc σ) : InitGlobals σ :=
  let st := arm_memblock_init_banks ops pf st mi
  let st := if pf.CONFIG_BLK_DEV_INITRD then arm_memblock_init_initrd ops pf st else st
  let mb := arm_memblock_init_reservations ops pf mdesc st.arm_dma_limit st.memblock
  { st with memblock := mb, arm_memblock_steal_permitted := false }

/-! ## `bootmem_init`, `mem_init` and the calls into the file -/

/-- The macro `__pfn_to_phys(pfn)` on a 32-bit physical address. -/
def pfn_to_phys (pfn : Nat) : Nat := (pfn * PAGE_SIZE) % ULONG_SIZE

/-- The function `bootmem_init()` on the bank table `meminfo`, with the body of
`arm_bootmem_init` including its `memblock_alloc_base` of the bitmap pages.
The call ends `undefined` when `find_limits` reads outside the bank table and
`fatal` when the bitmap cannot be allocated. -/
def bootmem_init {σ : Type} (ops : MemblockOps σ) (pf : Platform σ)
    (st : InitGlobals σ) (meminfo : List membank) : Outcome σ Unit :=
  match find_limits meminfo with
  | none => Outcome.undefined st
  | some (min_pfn, max_low, max_high) =>
    let boot_pages := pf.bootmem_bootmap_pages (usub max_low min_pfn)
    match ops.memblock_alloc_base st.memblock ((boot_pages * PAGE_SIZE) % ULONG_SIZE)
        pf.L1_CACHE_BYTES (pfn_to_phys max_low) with
    | none => Outcome.fatal st
    | some (_, mb) =>
      let bd := arm_bootmem_init min_pfn max_low (ops.memory_regions mb)
        (ops.reserved_regions mb)
      let bd := pf.sparse_init bd
      let zs := arm_bootmem_free pf.zone st.arm_dma_zone_size min_pfn max_low max_high
        (ops.memory_regions mb)
      Outcome.ok ()
        { st with memblock := mb, bootmem := some bd, zones := some zs,
                  max_low_pfn := usub max_low pf.PHYS_PFN_OFFSET,
                  max_pfn := usub max_high pf.PHYS_PFN_OFFSET }

/-- The function `mem_init()` on the bank table `meminfo`, as far as the
variables of `InitGlobals` go: the descriptor ranges `free_unused_memmap` frees,
the handing over of the bitmap by `free_all_bootmem`, and the frames
`free_highpages` releases with `max_low = max_low_pfn + PHYS_PFN_OFFSET`
(`max_mapnr` and the printed layout are not modelled). -/
def mem_init {σ : Type} (ops : MemblockOps σ) (pf : Platform σ)
    (st : InitGlobals σ) (meminfo : List membank) : InitGlobals σ :=
  let memmap := free_unused_memmap pf.memmap meminfo
  let high :=
    if pf.zone.CONFIG_HIGHMEM then
      free_highpages (uadd st.max_low_pfn pf.PHYS_PFN_OFFSET)
        (ops.memory_regions st.memblock) (ops.reserved_regions st.memblock)
    else []
  { st with bootmem := none, freed_memmap := st.freed_memmap ++ memmap,
            freed_highpages := st.freed_highpages ++ high }

/-- A call of one of the functions of the file, with its arguments (for the
parsers the values they read, for `bootmem_init` and `mem_init` the bank table
`meminfo` at the time of the call). -/
inductive Call (σ : Type) where
  | early_initrd (start : Nat) (comma : Bool) (size : Nat)
  | parse_tag_initrd (tag_start tag_size : Nat)
  | parse_tag_initrd2 (tag_start tag_size : Nat)
  | early_init_dt_setup_initrd_arch (start end_ : Nat)
  | show_mem (filter : Nat)
  | setup_dma_zone (mdesc : machine_desc σ)
  | pfn_valid (pfn : Nat)
  | arm_memblock_steal (size align : Nat)
  | arm_memblock_init (mi : List (Nat × Nat)) (mdesc : machine_desc σ)
  | bootmem_init (meminfo : List membank)
  | mem_init (meminfo : List membank)
  | free_initmem
  | free_initrd_mem (start end_ : Nat)
  | keepinitrd_setup

/-- Effect of one call on the variables of the file.  `show_mem`, `pfn_valid`,
`free_initmem` and `free_initrd_mem` write none of them. -/
def exec {σ : Type} (ops : MemblockOps σ) (pf : Platform σ) (st : InitGlobals σ) :
    Call σ → Outcome σ Unit
  | Call.early_initrd start comma size => Outcome.ok () (early_initrd st start comma size)
  | Call.parse_tag_initrd tag_start tag_size =>
    Outcome.ok () (parse_tag_initrd pf st tag_start tag_size)
  | Call.parse_tag_initrd2 tag_start tag_size =>
    Outcome.ok () (parse_tag_initrd2 st tag_start tag_size)
  | Call.early_init_dt_setup_initrd_arch start end_ =>
    Outcome.ok () (early_init_dt_setup_initrd_arch st start end_)
  | Call.show_mem _ => Outcome.ok () st
  | Call.setup_dma_zone mdesc => Outcome.ok () (setup_dma_zone pf st mdesc)
  | Call.pfn_valid _ => Outcome.ok () st
  | Call.arm_memblock_steal size align =>
    match arm_memblock_steal ops pf st size align with
    | Outcome.ok _ st => Outcome.ok () st
    | Outcome.bug st => Outcome.bug st
    | Outcome.fatal st => Outcome.fatal st
    | Outcome.undefined st => Outcome.undefined st
  | Call.arm_memblock_init mi mdesc => Outcome.ok () (arm_memblock_init ops pf st mi mdesc)
  | Call.bootmem_init meminfo => bootmem_init ops pf st meminfo
  | Call.mem_init meminfo => Outcome.ok () (mem_init ops pf st meminfo)
  | Call.free_initmem => Outcome.ok () st
  | Call.free_initrd_mem _ _ => Outcome.ok () st
  | Call.keepinitrd_setup => Outcome.ok () { st with keep_initrd := true }

/-- A sequence of calls, made one after the other from state `st`; it stops at
the first call that does not return. -/
def run {σ : Type} (ops : MemblockOps σ) (pf : Platform σ) :
    InitGlobals σ → List (Call σ) → Outcome σ Unit
  | st, [] => Outcome.ok () st
  | st, c :: rest =>
    match exec ops pf st c with
    | Outcome.ok _ st => run ops pf st rest
    | Outcome.bug st => Outcome.bug st
    | Outcome.fatal st => Outcome.fatal st
    | Outcome.undefined st => Outcome.undefined st

/-- The pair a ramdisk source supplies when it succeeds: `early_initrd` succeeds
when the comma is found, the two tag handlers and the device-tree handler
always do.  Other calls are no ramdisk source. -/
def Call.initrd_value {σ : Type} (pf : Platform σ) : Call σ → Option (Nat × Nat)
  | Call.early_initrd start comma size =>
    if comma then some (start % ULONG_SIZE, size % ULONG_SIZE) else none
  | Call.parse_tag_initrd tag_start tag_size =>
    some (pf.virt_to_phys tag_start % ULONG_SIZE, tag_size % ULONG_SIZE)
  | Call.parse_tag_initrd2 tag_start tag_size =>
    some (tag_start % ULONG_SIZE, tag_size % ULONG_SIZE)
  | Call.early_init_dt_setup_initrd_arch start end_ =>
    some (start % ULONG_SIZE, usub end_ start)
  | _ => none

/-- The call is one of the four ramdisk sources. -/
def Call.is_initrd_source {σ : Type} : Call σ → Bool
  | Call.early_initrd _ _ _ => true
  | Call.parse_tag_initrd _ _ => true
  | Call.parse_tag_initrd2 _ _ => true
  | Call.early_init_dt_setup_initrd_arch _ _ => true
  | _ => false

/-! ## Interval tables after the spec -/

/-- Modelled from the spec: one interval of an Interval Table in bytes, as
`struct memblock_region` (`linux/memblock.h`, not among the sources) keeps it:
the bytes from `base` up to `base + size`. -/
structure memblock_region where
  base : Nat
  size : Nat
deriving DecidableEq, Repr

/-- Modelled from the spec: the two Interval Tables of `struct memblock`, the
"memory present" set and the "reserved" set, each ordered and without
overlapping or touching entries. -/
structure memblock where
  memory : List memblock_region
  reserved : List memblock_region
deriving DecidableEq, Repr

/-- Modelled from the spec: `insert(start, end)` on an Interval Table merges the
new interval with any overlapping or adjacent existing interval and keeps the
table ordered. -/
def memblock_add_region : List memblock_region → Nat → Nat → List memblock_region
  | [], base, size => [⟨base, size⟩]
  | r :: rest, base, size =>
    if base + size < r.base then
      ⟨base, size⟩ :: r :: rest
    else if r.base + r.size < base then
      r :: memblock_add_region rest base size
    else
      memblock_add_region rest (min base r.base)
        (max (base + size) (r.base + r.size) - min base r.base)

/-- Modelled from the spec: `remove(start, end)` on an Interval Table clips or
deletes the overlapping intervals. -/
def memblock_remove_region (tbl : List memblock_region) (base size : Nat) :
    List memblock_region :=
  tbl.flatMap (fun r =>
    (if r.base < min (r.base + r.size) base then
      [(⟨r.base, min (r.base + r.size) base - r.base⟩ : memblock_region)] else []) ++
    (if max r.base (base + size) < r.base + r.size then
      [(⟨max r.base (base + size), r.base + r.size - max r.base (base + size)⟩ :
        memblock_region)] else []))

/-- Modelled from the spec: the query `contains_fully(start, end)`: some
interval of the table holds the whole range. -/
def memblock_contains_fully (tbl : List memblock_region) (base size : Nat) : Bool :=
  tbl.any (fun r => decide (r.base ≤ base ∧ base + size ≤ r.base + r.size))

/-- Modelled from the spec: the query `overlaps(start, end)`: some interval of
the table shares a byte with the range. -/
def memblock_overlaps (tbl : List memblock_region) (base size : Nat) : Bool :=
  tbl.any (fun r => decide (base < r.base + r.size ∧ r.base < base + size))

/-- Modelled from the spec: the primitive "allocate N bytes aligned to A below
physical limit L": the range must lie in present memory, below the limit, and
overlap no reserved interval; it is then reserved.  The spec fixes no placement
policy; the lowest fitting address is taken.  `none` when nothing fits. -/
def memblock_alloc_lowest (mb : memblock) (size align max_addr : Nat) :
    Option (Nat × memblock) :=
  let candidates :=
    (mb.memory.map (fun r => r.base) ++ mb.reserved.map (fun r => r.base + r.size)).map
      (fun a => (a + (align - 1)) / align * align)
  let fitting := candidates.filter (fun a =>
    memblock_contains_fully mb.memory a size && !memblock_overlaps mb.reserved a size &&
      decide (a + size ≤ max_addr))
  match fitting with
  | [] => none
  | a :: rest =>
    let phys := rest.foldl min a
    some (phys, { mb with reserved := memblock_add_region mb.reserved phys size })

/-- Modelled from the spec: the memblock primitives over the two Interval
Tables.  The frame view of a memory interval holds the frames that lie wholly
inside it, the frame view of a reserved interval the frames it touches. -/
def specMemblockOps : MemblockOps memblock :=
  { memblock_add := fun mb base size =>
      { mb with memory := memblock_add_region mb.memory base size }
    memblock_reserve := fun mb base size =>
      { mb with reserved := memblock_add_region mb.reserved base size }
    memblock_free := fun mb base size =>
      { mb with reserved := memblock_remove_region mb.reserved base size }
    memblock_remove := fun mb base size =>
      { mb with memory := memblock_remove_region mb.memory base size }
    memblock_is_region_memory := fun mb base size =>
      memblock_contains_fully mb.memory base size
    memblock_is_region_reserved := fun mb base size =>
      memblock_overlaps mb.reserved base size
    memblock_alloc_base := memblock_alloc_lowest
    memblock_allow_resize := fun mb => mb
    memory_regions := fun mb => mb.memory.map (fun r =>
      ⟨(r.base + (PAGE_SIZE - 1)) / PAGE_SIZE, (r.base + r.size) / PAGE_SIZE⟩)
    reserved_regions := fun mb => mb.reserved.map (fun r =>
      ⟨r.base / PAGE_SIZE, (r.base + r.size + (PAGE_SIZE - 1)) / PAGE_SIZE⟩) }

/-- A platform for worked examples: RAM at physical address 0, kernel mapped at
`0xC0000000`, a kernel image of 4 MiB at `0x8000`, initial page tables at
`0x4000` reserved by `arm_mm_memblock_reserve`, no device tree and no
contiguous-DMA reservation. -/
def examplePlatform : Platform memblock :=
  { CONFIG_BLK_DEV_INITRD := true
    zone := ⟨false, true⟩
    memmap := ⟨false, 11, 16⟩
    virt_to_phys := fun x => usub x 0xC0000000
    phys_to_virt := fun x => uadd x 0xC0000000
    PHYS_OFFSET := 0
    PHYS_PFN_OFFSET := 0
    arm_lowmem_limit := 0x30000000
    MEMBLOCK_ALLOC_ANYWHERE := 0xffffffff
    L1_CACHE_BYTES := 64
    kernel_base := 0x8000
    kernel_size := 0x400000
    bootmem_bootmap_pages := fun pages => ((pages + 7) / 8 + (PAGE_SIZE - 1)) / PAGE_SIZE
    arm_mm_memblock_reserve := fun mb =>
      { mb with reserved := memblock_add_region mb.reserved 0x4000 0x4000 }
    arm_dt_memblock_reserve := fun mb => mb
    dma_contiguous_reserve := fun _ mb => mb
    sparse_init := fun bd => bd }

/-- A machine description without DMA zone and without a `reserve` callback. -/
def exampleMachine : machine_desc memblock := { dma_zone_size := 0, reserve := none }

/-- The state in which a call ended, whichever way it ended. -/
def Outcome.state {σ α : Type} : Outcome σ α → InitGlobals σ
  | Outcome.ok _ st => st
  | Outcome.bug st => st
  | Outcome.fatal st => st
  | Outcome.undefined st => st

/-- The call returned normally. -/
def Outcome.returned {σ α : Type} : Outcome σ α → Bool
  | Outcome.ok _ _ => true
  | _ => false

/-- The call stopped at a `BUG_ON`. -/
def Outcome.isBug {σ α : Type} : Outcome σ α → Bool
  | Outcome.bug _ => true
  | _ => false

/-- The pair `(phys_initrd_start, phys_initrd_size)` recorded in a state. -/
def InitGlobals.initrd {σ : Type} (st : InitGlobals σ) : Nat × Nat :=
  (st.phys_initrd_start, st.phys_initrd_size)

/-! ## Further views of the code used by the later theorems -/

/-- The `reserve_bootmem` calls that the second loop of `arm_bootmem_init`
makes, as frame ranges `(start, end)` in call order. -/
def arm_bootmem_init_reserved_calls (end_pfn : Nat) : List Interval → List (Nat × Nat)
  | [] => []
  | reg :: rest =>
    let start := reg.start_pfn
    let end_ := if reg.end_pfn ≥ end_pfn then end_pfn else reg.end_pfn
    if start ≥ end_ then
      []
    else
      (start, end_) :: arm_bootmem_init_reserved_calls end_pfn rest

/-- The index `i - 1` (a C `int`) at which `find_limits` reads the bank
preceding the first high-memory bank. -/
def find_limits_low_index (bank : List membank) : Int :=
  (find_limits_scan bank 0 : Int) - 1

/-- The consecutive pairs `(prev, cur)` of the bank table, in bank order. -/
def consecutiveBanks (bank : List membank) : List (membank × membank) :=
  bank.zip bank.tail

/-- The flat-array gap of a consecutive bank pair as the specification words
it: from the end frame of `prev` rounded up to `MAX_ORDER_NR_PAGES` to the start
frame of `cur` rounded down to `MAX_ORDER_NR_PAGES`, present when the rounded
end is non-zero and strictly below the rounded start. -/
def flat_gap (cfg : MemmapConfig) (prev cur : membank) : Option (Nat × Nat) :=
  if ALIGN prev.pfn_end (MAX_ORDER_NR_PAGES cfg) ≠ 0 ∧
      ALIGN prev.pfn_end (MAX_ORDER_NR_PAGES cfg) <
        round_down cur.pfn_start (MAX_ORDER_NR_PAGES cfg) then
    some (ALIGN prev.pfn_end (MAX_ORDER_NR_PAGES cfg),
      round_down cur.pfn_start (MAX_ORDER_NR_PAGES cfg))
  else none

/-- The flat-array gaps of a bank table, in bank order. -/
def flat_gaps (cfg : MemmapConfig) (bank : List membank) : List (Nat × Nat) :=
  (consecutiveBanks bank).filterMap (fun p => flat_gap cfg p.1 p.2)

/-- The sparse gap of a consecutive bank pair as claim C16 words it: from the
end frame of `prev` rounded up to the section boundary to the start frame of
`cur` rounded down to the section boundary, present when that range is not
empty. -/
def sparse_gap_section_rounded (cfg : MemmapConfig) (prev cur : membank) :
    Option (Nat × Nat) :=
  if ALIGN prev.pfn_end (PAGES_PER_SECTION cfg) <
      round_down cur.pfn_start (PAGES_PER_SECTION cfg) then
    some (ALIGN prev.pfn_end (PAGES_PER_SECTION cfg),
      round_down cur.pfn_start (PAGES_PER_SECTION cfg))
  else none

/-- The ranges that claim C16 says are released under sparse section tracking:
the section-rounded gap of each consecutive bank pair, and after the last bank
the range from its section-rounded end to the next section boundary when that
rounded end is not section-aligned. -/
def sparse_gaps_section_rounded (cfg : MemmapConfig) (bank : List membank) :
    List (Nat × Nat) :=
  (consecutiveBanks bank).filterMap (fun p => sparse_gap_section_rounded cfg p.1 p.2) ++
    (match bank.getLast? with
    | none => []
    | some last =>
      if ¬ IS_ALIGNED (ALIGN last.pfn_end (PAGES_PER_SECTION cfg)) (PAGES_PER_SECTION cfg) then
        [(ALIGN last.pfn_end (PAGES_PER_SECTION cfg),
          ALIGN (ALIGN last.pfn_end (PAGES_PER_SECTION cfg)) (PAGES_PER_SECTION cfg))]
      else [])

/-- The sparse gap of a consecutive bank pair: from the end frame of `prev`
rounded up to `MAX_ORDER_NR_PAGES` to the smaller of the start frame of `cur`
and that rounded end rounded up to the section boundary, present when the
rounded end is non-zero and the range is not empty. -/
def sparse_gap (cfg : MemmapConfig) (prev cur : membank) : Option (Nat × Nat) :=
  if ALIGN prev.pfn_end (MAX_ORDER_NR_PAGES cfg) ≠ 0 ∧
      ALIGN prev.pfn_end (MAX_ORDER_NR_PAGES cfg) <
        min cur.pfn_start
          (ALIGN (ALIGN prev.pfn_end (MAX_ORDER_NR_PAGES cfg)) (PAGES_PER_SECTION cfg)) then
    some (ALIGN prev.pfn_end (MAX_ORDER_NR_PAGES cfg),
      min cur.pfn_start
        (ALIGN (ALIGN prev.pfn_end (MAX_ORDER_NR_PAGES cfg)) (PAGES_PER_SECTION cfg)))
  else none

/-- The range released after the last bank under sparse section tracking: from
the end frame of the last bank rounded up to `MAX_ORDER_NR_PAGES` to the next
section boundary, present when that rounded end is not section-aligned. -/
def sparse_trailing (cfg : MemmapConfig) (bank : List membank) : List (Nat × Nat) :=
  match bank.getLast? with
  | none => []
  | some last =>
    if ¬ IS_ALIGNED (ALIGN last.pfn_end (MAX_ORDER_NR_PAGES cfg)) (PAGES_PER_SECTION cfg) then
      [(ALIGN last.pfn_end (MAX_ORDER_NR_PAGES cfg),
        ALIGN (ALIGN last.pfn_end (MAX_ORDER_NR_PAGES cfg)) (PAGES_PER_SECTION cfg))]
    else []

/-- The frames released through a list of `free_area_high` calls, in call
order. -/
def framesOf (calls : List (Nat × Nat)) : List Nat :=
  calls.flatMap (fun c => free_area_high c.1 c.2)

/-! ## `poison_init_mem` -/

/-- The poison word stored by `poison_init_mem`. -/
def POISON : Nat := 0xe7fddef0

/-- The loop of `poison_init_mem`: `mem` maps the byte address of a 32-bit word
to its value, `p` is the cursor, `count` the 32-bit `size_t` counter and
`stores` the addresses written so far.  At most `fuel` iterations are run;
`none` means the loop has not ended by then. -/
def poison_init_mem_loop : Nat → (Nat → Nat) → Nat → Nat → List Nat →
    Option ((Nat → Nat) × List Nat)
  | 0, mem, _, count, stores => if count = 0 then some (mem, stores) else none
  | fuel + 1, mem, p, count, stores =>
    if count = 0 then
      some (mem, stores)
    else
      poison_init_mem_loop fuel (store mem p POISON) (uadd p 4) (usub count 4) (stores ++ [p])

/-- The function `poison_init_mem(s, count)`: the memory it leaves and the
addresses it stored to, one per iteration, in order. -/
def poison_init_mem (fuel : Nat) (mem : Nat → Nat) (s count : Nat) :
    Option ((Nat → Nat) × List Nat) :=
  poison_init_mem_loop fuel mem s count []

/-- The addresses of the `n` consecutive 32-bit words starting at `s`. -/
def wordAddresses (s n : Nat) : List Nat := (List.range n).map (fun k => uadd s (4 * k))

/-- The function `arm_bootmem_init(start_pfn, end_pfn)` from its first
statement, on the memblock tables `mb`: `boot_pages`, the `memblock_alloc_base`
of the bitmap pages below `__pfn_to_phys(end_pfn)`, then `init_bootmem_node` and
the two loops over the tables as the allocation leaves them.  Returns the
bitmap and the memblock tables; `none` when the allocation fails
(`memblock_alloc_base` does not return then). -/
def arm_bootmem_init_alloc {σ : Type} (ops : MemblockOps σ) (pf : Platform σ) (mb : σ)
    (start_pfn end_pfn : Nat) : Option (BootmemData × σ) :=
  let boot_pages := pf.bootmem_bootmap_pages (usub end_pfn start_pfn)
  match ops.memblock_alloc_base mb ((boot_pages * PAGE_SIZE) % ULONG_SIZE)
      pf.L1_CACHE_BYTES (pfn_to_phys end_pfn) with
  | none => none
  | some (_, mb) =>
    some (arm_bootmem_init start_pfn end_pfn (ops.memory_regions mb)
      (ops.reserved_regions mb), mb)

/-! ## The handoff of the low/high boundary from `bootmem_init` to `mem_init` -/

/-- The frame number `max_pfn + PHYS_PFN_OFFSET` whose page descriptor
`mem_init` takes for `max_mapnr = pfn_to_page(max_pfn + PHYS_PFN_OFFSET) -
mem_map`. -/
def mem_init_max_mapnr_pfn {σ : Type} (pf : Platform σ) (st : InitGlobals σ) : Nat :=
  uadd st.max_pfn pf.PHYS_PFN_OFFSET

/-- The call is a call of `bootmem_init`, the one function of the file that
writes `max_low_pfn` and `max_pfn`. -/
def Call.is_bootmem_init {σ : Type} : Call σ → Bool
  | Call.bootmem_init _ => true
  | _ => false

/-- Every frame number of the bank table is a value of `unsigned long`. -/
def banksFitWord (bank : List membank) : Prop :=
  ∀ b ∈ bank, b.pfn_start < ULONG_SIZE ∧ b.pfn_end < ULONG_SIZE

instance (bank : List membank) : Decidable (banksFitWord bank) := by
  unfold banksFitWord; infer_instance

/-- The example platform with RAM at physical address `0x80000000`, so that
`PHYS_PFN_OFFSET` is `0x80000`. -/
def examplePlatformHighRam : Platform memblock :=
  { examplePlatform with PHYS_OFFSET := 0x80000000, PHYS_PFN_OFFSET := 0x80000 }

/-! ## Lemmas on `free_highpages` -/

theorem mem_free_area_high (pfn end_pfn f : Nat) :
    f ∈ free_area_high pfn end_pfn ↔ pfn ≤ f ∧ f < end_pfn := by
  unfold free_area_high
  rw [List.mem_range'_1]
  omega

theorem inCalls_nil (f : Nat) : ¬ inCalls [] f := by
  simp [inCalls]

theorem inCalls_append (a b : List (Nat × Nat)) (f : Nat) :
    inCalls (a ++ b) f ↔ inCalls a f ∨ inCalls b f := by
  simp only [inCalls, List.mem_append]
  constructor
  · rintro ⟨c, hc | hc, h⟩
    · exact Or.inl ⟨c, hc, h⟩
    · exact Or.inr ⟨c, hc, h⟩
  · rintro (⟨c, hc, h⟩ | ⟨c, hc, h⟩)
    · exact ⟨c, Or.inl hc, h⟩
    · exact ⟨c, Or.inr hc, h⟩

theorem inCalls_single (a b f : Nat) : inCalls [(a, b)] f ↔ a ≤ f ∧ f < b := by
  simp [inCalls]

theorem covered_cons (r : Interval) (rs : List Interval) (f : Nat) :
    covered (r :: rs) f ↔ r.contains f ∨ covered rs f := by
  simp [covered]

theorem not_covered_nil (f : Nat) : ¬ covered [] f := by
  simp [covered]

theorem res_start_clamp (a s : Nat) : (if a < s then s else a) = max a s := by
  split_ifs <;> omega

theorem res_end_clamp (b e : Nat) : (if b > e then e else b) = min b e := by
  split_ifs <;> omega

theorem inCalls_gap (start x f : Nat) (_h : start ≤ x) :
    inCalls (if x ≠ start then [(start, x)] else []) f ↔ start ≤ f ∧ f < x := by
  split_ifs with hx
  · exact inCalls_single start x f
  · have := inCalls_nil f
    have hx : x = start := not_not.mp hx
    constructor
    · intro h; exact absurd h this
    · intro h; omega

/-- Interval subtraction performed by the reserved loop: together with the
final "free anything which remains" call, the loop releases exactly the frames
of the cursor range that no reserved interval holds. -/
theorem free_highpages_reserved_spec (end_pfn : Nat) (reserved : List Interval) :
    ∀ start, start ≤ end_pfn → wellFormed reserved → ascending reserved →
      (free_highpages_reserved end_pfn reserved start).2 ≤ end_pfn ∧
      ∀ f, (inCalls (free_highpages_reserved end_pfn reserved start).1 f ∨
            ((free_highpages_reserved end_pfn reserved start).2 ≤ f ∧ f < end_pfn)) ↔
          (start ≤ f ∧ f < end_pfn ∧ ¬ covered reserved f) := by
  induction reserved with
  | nil =>
    intro start hs _ _
    refine ⟨hs, fun f => ?_⟩
    simp only [free_highpages_reserved]
    have := inCalls_nil f
    have := not_covered_nil f
    tauto
  | cons r rest ih =>
    intro start hs hwf hasc
    have hwf_r : r.start_pfn ≤ r.end_pfn := hwf r (List.mem_cons_self _ _)
    have hwf_rest : wellFormed rest := fun x hx => hwf x (List.mem_cons_of_mem _ hx)
    have hasc_rest : ascending rest := (List.pairwise_cons.mp hasc).2
    have hlater : ∀ x ∈ rest, r.end_pfn ≤ x.start_pfn := (List.pairwise_cons.mp hasc).1
    have hrest_ge : ∀ f, covered rest f → r.end_pfn ≤ f := by
      rintro f ⟨x, hx, hxs, _⟩
      exact le_trans (hlater x hx) hxs
    simp only [free_highpages_reserved, res_start_clamp, res_end_clamp]
    by_cases h1 : r.end_pfn < start
    · rw [if_pos h1]
      obtain ⟨ihle, ihf⟩ := ih start hs hwf_rest hasc_rest
      refine ⟨ihle, fun f => ?_⟩
      rw [ihf f, covered_cons]
      simp only [Interval.contains]
      constructor
      · rintro ⟨a, b, c⟩
        exact ⟨a, b, fun h => h.elim (fun h => by omega) c⟩
      · rintro ⟨a, b, c⟩
        exact ⟨a, b, fun h => c (Or.inr h)⟩
    · rw [if_neg h1]
      have hge : start ≤ min (max r.start_pfn start) end_pfn := by omega
      by_cases h2 : min r.end_pfn end_pfn = end_pfn
      · rw [if_pos h2]
        refine ⟨le_of_eq h2, fun f => ?_⟩
        rw [covered_cons]
        have hg := inCalls_gap start (min (max r.start_pfn start) end_pfn) f hge
        simp only [Interval.contains]
        simp only [] at hg ⊢
        rw [hg]
        constructor
        · intro h
          refine ⟨by omega, by omega, fun hc => ?_⟩
          rcases hc with hc | hc
          · omega
          · have := hrest_ge f hc
            omega
        · intro h
          by_cases hf : r.start_pfn ≤ f ∧ f < r.end_pfn
          · exact absurd (Or.inl hf) h.2.2
          · omega
      · rw [if_neg h2]
        have hs2 : min r.end_pfn end_pfn ≤ end_pfn := by omega
        obtain ⟨ihle, ihf⟩ := ih (min r.end_pfn end_pfn) hs2 hwf_rest hasc_rest
        refine ⟨ihle, fun f => ?_⟩
        have hg := inCalls_gap start (min (max r.start_pfn start) end_pfn) f hge
        simp only [] at hg ⊢
        rw [inCalls_append, or_assoc, ihf f, hg, covered_cons]
        simp only [Interval.contains]
        constructor
        · rintro (h | h)
          · refine ⟨by omega, by omega, fun hc => ?_⟩
            rcases hc with hc | hc
            · omega
            · have := hrest_ge f hc
              omega
          · refine ⟨by omega, by omega, fun hc => ?_⟩
            rcases hc with hc | hc
            · omega
            · exact h.2.2 hc
        · intro h
          by_cases hf : r.start_pfn ≤ f ∧ f < r.end_pfn
          · exact absurd (Or.inl hf) h.2.2
          · by_cases hlt : f < min (max r.start_pfn start) end_pfn
            · exact Or.inl ⟨h.1, hlt⟩
            · exact Or.inr ⟨by omega, h.2.1, fun hc => h.2.2 (Or.inr hc)⟩

/-- Entered with the cursor beyond the end of the memory region (which only a
region with `end_pfn < start_pfn` can cause), the reserved loop releases no
frame and leaves the cursor at or beyond the end. -/
theorem free_highpages_reserved_inverted (end_pfn : Nat) (reserved : List Interval) :
    ∀ start, end_pfn < start →
      end_pfn ≤ (free_highpages_reserved end_pfn reserved start).2 ∧
      ∀ f, ¬ inCalls (free_highpages_reserved end_pfn reserved start).1 f := by
  induction reserved with
  | nil =>
    intro start hs
    exact ⟨le_of_lt hs, fun f => inCalls_nil f⟩
  | cons r rest ih =>
    intro start hs
    simp only [free_highpages_reserved, res_start_clamp, res_end_clamp]
    by_cases h1 : r.end_pfn < start
    · rw [if_pos h1]
      exact ih start hs
    · rw [if_neg h1]
      have h2 : min r.end_pfn end_pfn = end_pfn := by omega
      rw [if_pos h2]
      refine ⟨by omega, fun f => ?_⟩
      have hx : min (max r.start_pfn start) end_pfn = end_pfn := by omega
      simp only [hx]
      split_ifs
      · rw [inCalls_single]; omega
      · exact inCalls_nil f

/-- One memory region: the frames released for it are its frames at or above
`max_low` that no reserved interval holds. -/
theorem free_highpages_region_spec (max_low : Nat) (reserved : List Interval)
    (mem : Interval) (hwf : wellFormed reserved) (hasc : ascending reserved) (f : Nat) :
    inCalls (free_highpages_region max_low reserved mem) f ↔
      (mem.contains f ∧ max_low ≤ f) ∧ ¬ covered reserved f := by
  unfold free_highpages_region
  simp only [res_start_clamp, Interval.contains]
  by_cases h0 : mem.end_pfn ≤ max_low
  · rw [if_pos h0]
    have := inCalls_nil f
    constructor
    · intro h; exact absurd h this
    · intro h; omega
  · rw [if_neg h0, inCalls_append]
    by_cases hs : max mem.start_pfn max_low ≤ mem.end_pfn
    · obtain ⟨_, hf⟩ := free_highpages_reserved_spec mem.end_pfn reserved
        (max mem.start_pfn max_low) hs hwf hasc
      have hf := hf f
      have htail : inCalls (if (free_highpages_reserved mem.end_pfn reserved
            (max mem.start_pfn max_low)).2 < mem.end_pfn
          then [((free_highpages_reserved mem.end_pfn reserved
            (max mem.start_pfn max_low)).2, mem.end_pfn)] else []) f ↔
          ((free_highpages_reserved mem.end_pfn reserved
            (max mem.start_pfn max_low)).2 ≤ f ∧ f < mem.end_pfn) := by
        split_ifs with ht
        · exact inCalls_single _ _ f
        · have := inCalls_nil f
          constructor
          · intro h; exact absurd h this
          · intro h; omega
      rw [htail, hf]
      constructor
      · rintro ⟨a, b, c⟩
        exact ⟨⟨⟨by omega, b⟩, by omega⟩, c⟩
      · rintro ⟨⟨⟨a, b⟩, c⟩, d⟩
        exact ⟨by omega, b, d⟩
    · have hs : mem.end_pfn < max mem.start_pfn max_low := by omega
      obtain ⟨hle, hno⟩ := free_highpages_reserved_inverted mem.end_pfn reserved
        (max mem.start_pfn max_low) hs
      constructor
      · rintro (h | h)
        · exact absurd h (hno f)
        · rw [if_neg (by omega)] at h
          exact absurd h (inCalls_nil f)
      · rintro ⟨⟨⟨a, b⟩, c⟩, _⟩
        omega

theorem mem_free_highpages (max_low : Nat) (memory reserved : List Interval) (f : Nat) :
    f ∈ free_highpages max_low memory reserved ↔
      ∃ mem ∈ memory, inCalls (free_highpages_region max_low reserved mem) f := by
  unfold free_highpages free_highpages_calls inCalls
  simp only [List.mem_flatMap, mem_free_area_high]
  constructor
  · rintro ⟨c, ⟨m, hm, hc⟩, h⟩
    exact ⟨m, hm, c, hc, h⟩
  · rintro ⟨m, hm, c, hc, h⟩
    exact ⟨c, ⟨m, hm, hc⟩, h⟩

/-! ## Theorems on `free_highpages` -/

/-- C1: for every `max_low`, every present-memory table and every reserved
table in ascending order with non-overlapping (well-formed) entries, a frame
is passed to `free_highmem_page` by `free_highpages` exactly when it lies in
some memory interval, is at or above `max_low`, and lies in no reserved
interval.  (Holds for every memory table, pairwise disjoint or not.) -/
theorem free_highpages_releases_exactly (max_low : Nat) (memory reserved : List Interval)
    (hwf : wellFormed reserved) (hasc : ascending reserved) (f : Nat) :
    f ∈ free_highpages max_low memory reserved ↔
      (covered memory f ∧ max_low ≤ f) ∧ ¬ covered reserved f := by
  rw [mem_free_highpages]
  constructor
  · rintro ⟨m, hm, h⟩
    obtain ⟨⟨h1, h2⟩, h3⟩ := (free_highpages_region_spec max_low reserved m hwf hasc f).mp h
    exact ⟨⟨⟨m, hm, h1⟩, h2⟩, h3⟩
  · rintro ⟨⟨⟨m, hm, h1⟩, h2⟩, h3⟩
    exact ⟨m, hm, (free_highpages_region_spec max_low reserved m hwf hasc f).mpr ⟨⟨h1, h2⟩, h3⟩⟩

/-- Scenario C: memory 0..120 with `max_low = 50` and reserved 70..80 releases
exactly the frames 50..69 and 80..119; frame 75 is an instance of C1. -/
theorem free_highpages_releases_exactly_witness :
    wellFormed [⟨70, 80⟩] ∧ ascending [⟨70, 80⟩] ∧
    free_highpages 50 [⟨0, 120⟩] [⟨70, 80⟩] = List.range' 50 20 ++ List.range' 80 40 ∧
    (75 ∈ free_highpages 50 [⟨0, 120⟩] [⟨70, 80⟩] ↔
      (covered [⟨0, 120⟩] 75 ∧ 50 ≤ 75) ∧ ¬ covered [⟨70, 80⟩] 75) :=
  ⟨by decide, by decide, by decide,
   free_highpages_releases_exactly 50 [⟨0, 120⟩] [⟨70, 80⟩] (by decide) (by decide) 75⟩

/-! ## Lemmas on `arm_bootmem_init` -/

theorem arm_bootmem_init_memory_range (e : Nat) (tbl : List Interval) :
    ∀ bd, (arm_bootmem_init_memory e tbl bd).node_min_pfn = bd.node_min_pfn ∧
      (arm_bootmem_init_memory e tbl bd).node_low_pfn = bd.node_low_pfn := by
  induction tbl with
  | nil => intro bd; exact ⟨rfl, rfl⟩
  | cons r rest ih =>
    intro bd
    simp only [arm_bootmem_init_memory]
    split_ifs <;> first | exact ⟨rfl, rfl⟩ | exact ih _

theorem arm_bootmem_init_reserved_range (e : Nat) (tbl : List Interval) :
    ∀ bd, (arm_bootmem_init_reserved e tbl bd).node_min_pfn = bd.node_min_pfn ∧
      (arm_bootmem_init_reserved e tbl bd).node_low_pfn = bd.node_low_pfn := by
  induction tbl with
  | nil => intro bd; exact ⟨rfl, rfl⟩
  | cons r rest ih =>
    intro bd
    simp only [arm_bootmem_init_reserved]
    split_ifs <;> first | exact ⟨rfl, rfl⟩ | exact ih _

/-- In a table of non-empty intervals sorted by start frame, once an interval
starts at or beyond `e` no frame below `e` is covered from there on. -/
theorem not_covered_of_start_ge (e : Nat) (r : Interval) (rest : List Interval)
    (hsort : sortedByStart (r :: rest)) (hge : e ≤ r.start_pfn) (f : Nat) (hf : f < e) :
    ¬ covered (r :: rest) f := by
  rintro ⟨x, hx, hxs, _⟩
  rcases List.mem_cons.mp hx with rfl | hx
  · omega
  · have := (List.pairwise_cons.mp hsort).1 x hx
    omega

/-- The memory loop only ever clears bits, and only of covered frames below
`e` inside the bitmap. -/
theorem arm_bootmem_init_memory_sound (e : Nat) (tbl : List Interval) :
    ∀ bd f, (arm_bootmem_init_memory e tbl bd).bit f = false →
      bd.bit f = false ∨
        (bd.node_min_pfn ≤ f ∧ f < bd.node_low_pfn ∧ covered tbl f ∧ f < e) := by
  induction tbl with
  | nil => intro bd f h; exact Or.inl h
  | cons r rest ih =>
    intro bd f h
    simp only [arm_bootmem_init_memory] at h
    split_ifs at h with h1 h2 h2
    · exact Or.inl h
    · rcases ih _ f h with h | ⟨a, b, c, d⟩
      · simp only [free_bootmem] at h
        split_ifs at h with h3
        · exact Or.inr ⟨h3.1, h3.2.1, (covered_cons r rest f).mpr
            (Or.inl ⟨h3.2.2.1, by omega⟩), by omega⟩
        · exact Or.inl h
      · exact Or.inr ⟨a, b, (covered_cons r rest f).mpr (Or.inr c), d⟩
    · exact Or.inl h
    · rcases ih _ f h with h | ⟨a, b, c, d⟩
      · simp only [free_bootmem] at h
        split_ifs at h with h3
        · exact Or.inr ⟨h3.1, h3.2.1, (covered_cons r rest f).mpr
            (Or.inl ⟨h3.2.2.1, h3.2.2.2⟩), by omega⟩
        · exact Or.inl h
      · exact Or.inr ⟨a, b, (covered_cons r rest f).mpr (Or.inr c), d⟩

/-- On a table of non-empty intervals sorted by start frame the memory loop
clears the bit of every covered frame below `e` inside the bitmap, and keeps
cleared bits cleared. -/
theorem arm_bootmem_init_memory_complete (e : Nat) (tbl : List Interval) :
    ∀ bd f, nonEmptyIntervals tbl → sortedByStart tbl →
      (bd.bit f = false ∨
        (bd.node_min_pfn ≤ f ∧ f < bd.node_low_pfn ∧ covered tbl f ∧ f < e)) →
      (arm_bootmem_init_memory e tbl bd).bit f = false := by
  induction tbl with
  | nil =>
    intro bd f _ _ h
    rcases h with h | ⟨_, _, c, _⟩
    · exact h
    · exact absurd c (not_covered_nil f)
  | cons r rest ih =>
    intro bd f hne hsort h
    have hr : r.start_pfn < r.end_pfn := hne r (List.mem_cons_self _ _)
    have hne2 : nonEmptyIntervals rest := fun x hx => hne x (List.mem_cons_of_mem _ hx)
    have hsort2 : sortedByStart rest := (List.pairwise_cons.mp hsort).2
    simp only [arm_bootmem_init_memory]
    split_ifs with h1 h2 h2
    · rcases h with h | ⟨_, _, c, d⟩
      · exact h
      · exact absurd c (not_covered_of_start_ge e r rest hsort h2 f d)
    · apply ih _ f hne2 hsort2
      rcases h with h | ⟨a, b, c, d⟩
      · left; simp only [free_bootmem]; split_ifs <;> simp [h]
      · rcases (covered_cons r rest f).mp c with ⟨c1, c2⟩ | c
        · left; simp only [free_bootmem]; rw [if_pos ⟨a, b, c1, d⟩]
        · right; exact ⟨a, b, c, d⟩
    · omega
    · apply ih _ f hne2 hsort2
      rcases h with h | ⟨a, b, c, d⟩
      · left; simp only [free_bootmem]; split_ifs <;> simp [h]
      · rcases (covered_cons r rest f).mp c with ⟨c1, c2⟩ | c
        · left; simp only [free_bootmem]; rw [if_pos ⟨a, b, c1, c2⟩]
        · right; exact ⟨a, b, c, d⟩

/-- The reserved loop only ever sets bits, and only of covered frames below
`e` inside the bitmap. -/
theorem arm_bootmem_init_reserved_sound (e : Nat) (tbl : List Interval) :
    ∀ bd f, (arm_bootmem_init_reserved e tbl bd).bit f = true →
      bd.bit f = true ∨
        (bd.node_min_pfn ≤ f ∧ f < bd.node_low_pfn ∧ covered tbl f ∧ f < e) := by
  induction tbl with
  | nil => intro bd f h; exact Or.inl h
  | cons r rest ih =>
    intro bd f h
    simp only [arm_bootmem_init_reserved] at h
    split_ifs at h with h1 h2 h2
    · exact Or.inl h
    · rcases ih _ f h with h | ⟨a, b, c, d⟩
      · simp only [reserve_bootmem] at h
        split_ifs at h with h3
        · exact Or.inr ⟨h3.1, h3.2.1, (covered_cons r rest f).mpr
            (Or.inl ⟨h3.2.2.1, by omega⟩), by omega⟩
        · exact Or.inl h
      · exact Or.inr ⟨a, b, (covered_cons r rest f).mpr (Or.inr c), d⟩
    · exact Or.inl h
    · rcases ih _ f h with h | ⟨a, b, c, d⟩
      · simp only [reserve_bootmem] at h
        split_ifs at h with h3
        · exact Or.inr ⟨h3.1, h3.2.1, (covered_cons r rest f).mpr
            (Or.inl ⟨h3.2.2.1, h3.2.2.2⟩), by omega⟩
        · exact Or.inl h
      · exact Or.inr ⟨a, b, (covered_cons r rest f).mpr (Or.inr c), d⟩

/-- On a table of non-empty intervals sorted by start frame the reserved loop
sets the bit of every covered frame below `e` inside the bitmap, and keeps set
bits set. -/
theorem arm_bootmem_init_reserved_complete (e : Nat) (tbl : List Interval) :
    ∀ bd f, nonEmptyIntervals tbl → sortedByStart tbl →
      (bd.bit f = true ∨
        (bd.node_min_pfn ≤ f ∧ f < bd.node_low_pfn ∧ covered tbl f ∧ f < e)) →
      (arm_bootmem_init_reserved e tbl bd).bit f = true := by
  induction tbl with
  | nil =>
    intro bd f _ _ h
    rcases h with h | ⟨_, _, c, _⟩
    · exact h
    · exact absurd c (not_covered_nil f)
  | cons r rest ih =>
    intro bd f hne hsort h
    have hr : r.start_pfn < r.end_pfn := hne r (List.mem_cons_self _ _)
    have hne2 : nonEmptyIntervals rest := fun x hx => hne x (List.mem_cons_of_mem _ hx)
    have hsort2 : sortedByStart rest := (List.pairwise_cons.mp hsort).2
    simp only [arm_bootmem_init_reserved]
    split_ifs with h1 h2 h2
    · rcases h with h | ⟨_, _, c, d⟩
      · exact h
      · exact absurd c (not_covered_of_start_ge e r rest hsort h2 f d)
    · apply ih _ f hne2 hsort2
      rcases h with h | ⟨a, b, c, d⟩
      · left; simp only [reserve_bootmem]; split_ifs <;> simp [h]
      · rcases (covered_cons r rest f).mp c with ⟨c1, c2⟩ | c
        · left; simp only [reserve_bootmem]; rw [if_pos ⟨a, b, c1, d⟩]
        · right; exact ⟨a, b, c, d⟩
    · omega
    · apply ih _ f hne2 hsort2
      rcases h with h | ⟨a, b, c, d⟩
      · left; simp only [reserve_bootmem]; split_ifs <;> simp [h]
      · rcases (covered_cons r rest f).mp c with ⟨c1, c2⟩ | c
        · left; simp only [reserve_bootmem]; rw [if_pos ⟨a, b, c1, c2⟩]
        · right; exact ⟨a, b, c, d⟩

theorem arm_bootmem_init_range (lo hi : Nat) (memory reserved : List Interval) :
    (arm_bootmem_init lo hi memory reserved).node_min_pfn = lo ∧
      (arm_bootmem_init lo hi memory reserved).node_low_pfn = hi := by
  unfold arm_bootmem_init
  obtain ⟨a, b⟩ := arm_bootmem_init_reserved_range hi reserved
    (arm_bootmem_init_memory hi memory (init_bootmem_node lo hi))
  obtain ⟨c, d⟩ := arm_bootmem_init_memory_range hi memory (init_bootmem_node lo hi)
  exact ⟨by rw [a, c]; rfl, by rw [b, d]; rfl⟩

/-! ## Theorems on `arm_bootmem_init` -/

/-- The reserved loop relies on the order in which memblock keeps its table:
it is left at the first region that starts at or beyond its clipped end.  On
the list 200..210, 10..20, which is not in ascending order, and on the list
5..5, 10..20, whose first entry is empty, frame 10 would be left free by
`arm_bootmem_init(0, 100)` over memory 0..100.  Neither list is a table the
loop can be given: reserving 200..210 and then 10..20 in the Interval Table
yields the table 10..20, 200..210, on which frame 10 is marked reserved. -/
theorem arm_bootmem_init_reserved_table_order :
    ((arm_bootmem_init 0 100 [⟨0, 100⟩] [⟨200, 210⟩, ⟨10, 20⟩]).isFree 10 ∧
      ¬ sortedByStart [⟨200, 210⟩, ⟨10, 20⟩]) ∧
    ((arm_bootmem_init 0 100 [⟨0, 100⟩] [⟨5, 5⟩, ⟨10, 20⟩]).isFree 10 ∧
      ¬ nonEmptyIntervals [⟨5, 5⟩, ⟨10, 20⟩]) ∧
    specMemblockOps.reserved_regions
      (specMemblockOps.memblock_reserve
        (specMemblockOps.memblock_reserve (⟨[⟨0, 100 * 4096⟩], []⟩ : memblock)
          (200 * 4096) (10 * 4096))
        (10 * 4096) (10 * 4096)) = [⟨10, 20⟩, ⟨200, 210⟩] ∧
    (arm_bootmem_init 0 100 [⟨0, 100⟩] [⟨10, 20⟩, ⟨200, 210⟩]).isReserved 10 := by
  decide

/-- C2: after `arm_bootmem_init(min, max_low)`, every frame `f` with
`min ≤ f < max_low` that lies in some interval of the reserved table is marked
reserved in the bitmap, whatever the present-memory table holds: the reserved
table is applied after the memory table.  The reserved table is a memblock
table, that is, non-empty intervals in ascending order of their start
frames. -/
theorem arm_bootmem_init_reserved_wins (min_pfn max_low : Nat)
    (memory reserved : List Interval)
    (hne : nonEmptyIntervals reserved) (hsort : sortedByStart reserved)
    (f : Nat) (hlo : min_pfn ≤ f) (hhi : f < max_low) (hres : covered reserved f) :
    (arm_bootmem_init min_pfn max_low memory reserved).isReserved f := by
  obtain ⟨hmin, hlow⟩ := arm_bootmem_init_range min_pfn max_low memory reserved
  refine ⟨by rw [hmin]; exact hlo, by rw [hlow]; exact hhi, ?_⟩
  unfold arm_bootmem_init
  apply arm_bootmem_init_reserved_complete max_low reserved _ f hne hsort
  right
  obtain ⟨c, d⟩ := arm_bootmem_init_memory_range max_low memory
    (init_bootmem_node min_pfn max_low)
  refine ⟨?_, ?_, hres, hhi⟩
  · rw [c]; exact hlo
  · rw [d]; exact hhi

/-- Frame 15 lies both in memory 0..100 and in the reserved interval 10..20;
after `arm_bootmem_init(0, 100)` it is marked reserved. -/
theorem arm_bootmem_init_reserved_wins_witness :
    covered [⟨0, 100⟩] 15 ∧ covered [⟨10, 20⟩] 15 ∧
    (arm_bootmem_init 0 100 [⟨0, 100⟩] [⟨10, 20⟩]).isReserved 15 :=
  ⟨by decide, by decide,
   arm_bootmem_init_reserved_wins 0 100 [⟨0, 100⟩] [⟨10, 20⟩] (by decide) (by decide)
     15 (by decide) (by decide) (by decide)⟩

/-- C3: after `arm_bootmem_init(min, max_low)` on tables of non-empty intervals
in ascending order, a frame is marked free in the bitmap exactly when it lies
in `min ≤ f < max_low`, in some present-memory interval and in no reserved
interval; every other frame of that range is marked reserved. -/
theorem arm_bootmem_init_free_set (min_pfn max_low : Nat)
    (memory reserved : List Interval)
    (hmne : nonEmptyIntervals memory) (hmsort : sortedByStart memory)
    (hrne : nonEmptyIntervals reserved) (hrsort : sortedByStart reserved) (f : Nat) :
    ((arm_bootmem_init min_pfn max_low memory reserved).isFree f ↔
      (min_pfn ≤ f ∧ f < max_low) ∧ covered memory f ∧ ¬ covered reserved f) ∧
    ((arm_bootmem_init min_pfn max_low memory reserved).isReserved f ↔
      (min_pfn ≤ f ∧ f < max_low) ∧ ¬ (covered memory f ∧ ¬ covered reserved f)) := by
  obtain ⟨hmin, hlow⟩ := arm_bootmem_init_range min_pfn max_low memory reserved
  obtain ⟨c, d⟩ := arm_bootmem_init_memory_range max_low memory
    (init_bootmem_node min_pfn max_low)
  have hc : (init_bootmem_node min_pfn max_low).node_min_pfn = min_pfn := rfl
  have hd : (init_bootmem_node min_pfn max_low).node_low_pfn = max_low := rfl
  have hfree : (arm_bootmem_init min_pfn max_low memory reserved).bit f = false ↔
      ¬ (min_pfn ≤ f ∧ f < max_low ∧ covered reserved f) ∧
        (min_pfn ≤ f ∧ f < max_low ∧ covered memory f) := by
    unfold arm_bootmem_init
    constructor
    · intro h
      constructor
      · rintro ⟨a, b, hres⟩
        have := arm_bootmem_init_reserved_complete max_low reserved
          (arm_bootmem_init_memory max_low memory (init_bootmem_node min_pfn max_low)) f
          hrne hrsort (Or.inr ⟨by rw [c]; exact a, by rw [d]; exact b, hres, b⟩)
        simp only [] at h this
        rw [h] at this
        exact Bool.noConfusion this
      · by_cases hb : (arm_bootmem_init_memory max_low memory
            (init_bootmem_node min_pfn max_low)).bit f = false
        · rcases arm_bootmem_init_memory_sound max_low memory _ f hb with h0 | ⟨a, b, hm, _⟩
          · exact Bool.noConfusion h0
          · exact ⟨a, b, hm⟩
        · have hb : (arm_bootmem_init_memory max_low memory
              (init_bootmem_node min_pfn max_low)).bit f = true := by
            simpa using hb
          have := arm_bootmem_init_reserved_complete max_low reserved
            (arm_bootmem_init_memory max_low memory (init_bootmem_node min_pfn max_low)) f
            hrne hrsort (Or.inl hb)
          simp only [] at h this
          rw [h] at this
          exact Bool.noConfusion this
    · rintro ⟨hnr, a, b, hm⟩
      have hb := arm_bootmem_init_memory_complete max_low memory
        (init_bootmem_node min_pfn max_low) f hmne hmsort (Or.inr ⟨a, b, hm, b⟩)
      by_contra hcon
      have hcon : (arm_bootmem_init_reserved max_low reserved
          (arm_bootmem_init_memory max_low memory
            (init_bootmem_node min_pfn max_low))).bit f = true := by
        simpa using hcon
      rcases arm_bootmem_init_reserved_sound max_low reserved _ f hcon with h0 | ⟨_, _, hr, _⟩
      · rw [hb] at h0
        exact Bool.noConfusion h0
      · exact hnr ⟨a, b, hr⟩
  unfold BootmemData.isFree BootmemData.isReserved
  rw [hmin, hlow]
  constructor
  · rw [hfree]
    constructor
    · rintro ⟨a, b, hnr, _, _, hm⟩
      exact ⟨⟨a, b⟩, hm, fun hr => hnr ⟨a, b, hr⟩⟩
    · rintro ⟨⟨a, b⟩, hm, hnr⟩
      exact ⟨a, b, fun h => hnr h.2.2, a, b, hm⟩
  · have hbit : (arm_bootmem_init min_pfn max_low memory reserved).bit f = true ↔
        ¬ (arm_bootmem_init min_pfn max_low memory reserved).bit f = false := by
      simp
    rw [hbit, hfree]
    constructor
    · rintro ⟨a, b, h⟩
      refine ⟨⟨a, b⟩, fun hh => h ⟨fun h3 => hh.2 h3.2.2, a, b, hh.1⟩⟩
    · rintro ⟨⟨a, b⟩, h⟩
      exact ⟨a, b, fun hh => h ⟨hh.2.2.2, fun hr => hh.1 ⟨a, b, hr⟩⟩⟩

/-- Scenario A: memory 0..100, reserved 10..20, `min = 0`, `max_low = 100`
gives 90 free and 10 reserved frames; frame 10 is an instance of C3. -/
theorem arm_bootmem_init_free_set_witness :
    (arm_bootmem_init 0 100 [⟨0, 100⟩] [⟨10, 20⟩]).freeCount = 90 ∧
    (arm_bootmem_init 0 100 [⟨0, 100⟩] [⟨10, 20⟩]).reservedCount = 10 ∧
    (((arm_bootmem_init 0 100 [⟨0, 100⟩] [⟨10, 20⟩]).isFree 10 ↔
      (0 ≤ 10 ∧ 10 < 100) ∧ covered [⟨0, 100⟩] 10 ∧ ¬ covered [⟨10, 20⟩] 10) ∧
    ((arm_bootmem_init 0 100 [⟨0, 100⟩] [⟨10, 20⟩]).isReserved 10 ↔
      (0 ≤ 10 ∧ 10 < 100) ∧ ¬ (covered [⟨0, 100⟩] 10 ∧ ¬ covered [⟨10, 20⟩] 10))) :=
  ⟨by decide, by decide,
   arm_bootmem_init_free_set 0 100 [⟨0, 100⟩] [⟨10, 20⟩]
     (by decide) (by decide) (by decide) (by decide) 10⟩

/-! ## Lemmas on machine arithmetic and frame counting -/

theorem usub_eq_sub (a b : Nat) (hba : b ≤ a) (ha : a < ULONG_SIZE) : usub a b = a - b := by
  unfold usub
  unfold ULONG_SIZE at *
  omega

theorem usub_telescope (a b c : Nat) :
    (usub b a + usub c b) % ULONG_SIZE = usub c a ∧
    (a ≤ b → b ≤ c → c < ULONG_SIZE → usub b a + usub c b = c - a) := by
  unfold usub ULONG_SIZE
  constructor
  · omega
  · intro h1 h2 h3; omega

theorem usub_lt (a b : Nat) : usub a b < ULONG_SIZE := by
  unfold usub
  exact Nat.mod_lt _ (by unfold ULONG_SIZE; omega)

theorem countP_range_interval (s e : Nat) :
    ∀ n lo, (List.range' lo n).countP (fun f => decide (s ≤ f ∧ f < e)) =
      min e (lo + n) - max s lo := by
  intro n
  induction n with
  | zero => intro lo; simp
  | succ n ih =>
    intro lo
    rw [List.range'_succ, List.countP_cons, ih (lo + 1)]
    by_cases h : s ≤ lo ∧ lo < e
    · simp only [h, and_self, decide_True, if_true]; omega
    · simp only [h, decide_False, if_false]
      have : Bool.false = true ↔ False := by simp
      simp only [this, if_false]
      omega

theorem countP_covered_cons (m : Interval) (ms : List Interval) :
    ∀ l : List Nat, (∀ f ∈ l, ¬ (m.contains f ∧ covered ms f)) →
      l.countP (fun f => decide (covered (m :: ms) f)) =
        l.countP (fun f => decide (m.start_pfn ≤ f ∧ f < m.end_pfn)) +
          l.countP (fun f => decide (covered ms f)) := by
  intro l
  induction l with
  | nil => intro _; simp
  | cons a l ih =>
    intro h
    have ha := h a (List.mem_cons_self _ _)
    have hl := ih (fun f hf => h f (List.mem_cons_of_mem _ hf))
    rw [List.countP_cons, List.countP_cons, List.countP_cons, hl]
    have hc := covered_cons m ms a
    simp only [Interval.contains] at hc ha
    by_cases h1 : m.start_pfn ≤ a ∧ a < m.end_pfn
    · have h2 : ¬ covered ms a := fun h2 => ha ⟨h1, h2⟩
      have h3 : covered (m :: ms) a := hc.mpr (Or.inl h1)
      simp [h1, h2, h3]
      omega
    · by_cases h2 : covered ms a
      · have h3 : covered (m :: ms) a := hc.mpr (Or.inr h2)
        simp [h1, h2, h3]
        omega
      · have h3 : ¬ covered (m :: ms) a := fun h3 => (hc.mp h3).elim h1 h2
        simp [h1, h2, h3]

theorem pairwiseDisjoint_head (m : Interval) (ms : List Interval)
    (h : pairwiseDisjoint (m :: ms)) (f : Nat) : ¬ (m.contains f ∧ covered ms f) := by
  rintro ⟨hm, x, hx, hxf⟩
  have hd := (List.pairwise_cons.mp h).1 x hx
  unfold Interval.disjoint at hd
  unfold Interval.contains at hm hxf
  omega

/-- The predicate `Interval.disjoint` says exactly that no frame lies in both
intervals. -/
theorem Interval.disjoint_iff (a b : Interval) :
    a.disjoint b ↔ ∀ f, ¬ (a.contains f ∧ b.contains f) := by
  unfold Interval.disjoint Interval.contains
  constructor
  · intro h f; omega
  · intro h
    by_contra hc
    exact h (max a.start_pfn b.start_pfn) (by omega)

/-- Splitting off the first interval of a pairwise disjoint table splits the
covered-frame count. -/
theorem coveredCount_cons (m : Interval) (ms : List Interval) (lo hi : Nat)
    (h : pairwiseDisjoint (m :: ms)) :
    coveredCount (m :: ms) lo hi =
      (min m.end_pfn (lo + (hi - lo)) - max m.start_pfn lo) + coveredCount ms lo hi := by
  unfold coveredCount
  rw [countP_covered_cons m ms _ (fun f _ => pairwiseDisjoint_head m ms h f),
    countP_range_interval]

theorem coveredCount_le (tbl : List Interval) (lo hi : Nat) :
    coveredCount tbl lo hi ≤ hi - lo := by
  unfold coveredCount
  have := List.countP_le_length (fun f => decide (covered tbl f))
    (l := List.range' lo (hi - lo))
  simpa using this

theorem coveredCount_nil (lo hi : Nat) : coveredCount [] lo hi = 0 := by
  unfold coveredCount
  rw [List.countP_eq_zero]
  intro f _
  have := not_covered_nil f
  simpa using this

/-! ## Lemmas on `arm_bootmem_free` -/

theorem ZONE_HIGHMEM_ne_zero (cfg : ZoneConfig) : ZONE_HIGHMEM cfg ≠ 0 := by
  unfold ZONE_HIGHMEM; omega

theorem arm_bootmem_free_holes_cons (cfg : ZoneConfig) (max_low : Nat) (reg : Interval)
    (rest : List Interval) (zh : Nat → Nat) :
    arm_bootmem_free_holes cfg max_low (reg :: rest) zh =
      arm_bootmem_free_holes cfg max_low rest (holesStep cfg max_low reg zh) := by
  simp only [holesStep, arm_bootmem_free_holes]

theorem holesStep_spec (cfg : ZoneConfig) (hhigh : cfg.CONFIG_HIGHMEM = true)
    (max_low : Nat) (reg : Interval) (zh : Nat → Nat)
    (hwf : reg.start_pfn ≤ reg.end_pfn) (hU : reg.end_pfn < ULONG_SIZE)
    (hmU : max_low < ULONG_SIZE)
    (h0 : min reg.end_pfn max_low - reg.start_pfn ≤ zh 0) (h0U : zh 0 < ULONG_SIZE)
    (hH : reg.end_pfn - max reg.start_pfn max_low ≤ zh (ZONE_HIGHMEM cfg))
    (hHU : zh (ZONE_HIGHMEM cfg) < ULONG_SIZE) :
    holesStep cfg max_low reg zh 0 = zh 0 - (min reg.end_pfn max_low - reg.start_pfn) ∧
    holesStep cfg max_low reg zh (ZONE_HIGHMEM cfg) =
      zh (ZONE_HIGHMEM cfg) - (reg.end_pfn - max reg.start_pfn max_low) ∧
    ∀ j, j ≠ 0 → j ≠ ZONE_HIGHMEM cfg → holesStep cfg max_low reg zh j = zh j := by
  have hne := ZONE_HIGHMEM_ne_zero cfg
  have hne2 : (0 : Nat) ≠ ZONE_HIGHMEM cfg := fun h => hne h.symm
  simp only [holesStep, arm_bootmem_free_holes, hhigh, true_and]
  refine ⟨?_, ?_, ?_⟩
  · by_cases h1 : reg.start_pfn < max_low
    · have e1 : usub (min reg.end_pfn max_low) reg.start_pfn =
          min reg.end_pfn max_low - reg.start_pfn :=
        usub_eq_sub _ _ (by omega) (by omega)
      by_cases h2 : reg.end_pfn > max_low
      · simp only [h1, h2, if_true, store, if_neg hne2, e1]
        exact usub_eq_sub _ _ h0 h0U
      · simp only [h1, h2, if_true, if_false, store, e1]
        exact usub_eq_sub _ _ h0 h0U
    · by_cases h2 : reg.end_pfn > max_low
      · simp only [h1, h2, if_true, if_false, store, if_neg hne2]
        omega
      · simp only [h1, h2, if_false]
        omega
  · by_cases h2 : reg.end_pfn > max_low
    · have e2 : usub reg.end_pfn (max reg.start_pfn max_low) =
          reg.end_pfn - max reg.start_pfn max_low :=
        usub_eq_sub _ _ (by omega) hU
      by_cases h1 : reg.start_pfn < max_low
      · simp only [h1, h2, if_true, store, if_neg hne, e2]
        exact usub_eq_sub _ _ hH hHU
      · simp only [h1, h2, if_true, if_false, store, e2]
        exact usub_eq_sub _ _ hH hHU
    · by_cases h1 : reg.start_pfn < max_low
      · simp only [h1, h2, if_true, if_false, store, if_neg hne]
        omega
      · simp only [h1, h2, if_false]
        omega
  · intro j hj0 hjH
    by_cases h1 : reg.start_pfn < max_low <;> by_cases h2 : reg.end_pfn > max_low <;>
      simp only [h1, h2, if_true, if_false, store, if_neg hj0, if_neg hjH]

/-- The hole loop subtracts from entry 0 the number of frames of the low range
covered by memory, and from entry `ZONE_HIGHMEM` the number of covered frames
of the high range, without wrapping. -/
theorem arm_bootmem_free_holes_spec (cfg : ZoneConfig) (hhigh : cfg.CONFIG_HIGHMEM = true)
    (min_pfn max_low max_high : Nat) (h1 : min_pfn ≤ max_low) (h2 : max_low ≤ max_high)
    (hU : max_high < ULONG_SIZE) (memory : List Interval) :
    ∀ zh : Nat → Nat, containedIn memory min_pfn max_high → pairwiseDisjoint memory →
      coveredCount memory min_pfn max_low ≤ zh 0 → zh 0 < ULONG_SIZE →
      coveredCount memory max_low max_high ≤ zh (ZONE_HIGHMEM cfg) →
      zh (ZONE_HIGHMEM cfg) < ULONG_SIZE →
      arm_bootmem_free_holes cfg max_low memory zh 0 =
        zh 0 - coveredCount memory min_pfn max_low ∧
      arm_bootmem_free_holes cfg max_low memory zh (ZONE_HIGHMEM cfg) =
        zh (ZONE_HIGHMEM cfg) - coveredCount memory max_low max_high ∧
      ∀ j, j ≠ 0 → j ≠ ZONE_HIGHMEM cfg →
        arm_bootmem_free_holes cfg max_low memory zh j = zh j := by
  induction memory with
  | nil =>
    intro zh _ _ _ _ _ _
    simp only [arm_bootmem_free_holes, coveredCount_nil]
    exact ⟨by omega, by omega, fun _ _ _ => trivial⟩
  | cons reg rest ih =>
    intro zh hin hdis hc0 h0U hcH hHU
    obtain ⟨hr1, hr2, hr3⟩ := hin reg (List.mem_cons_self _ _)
    have hin2 : containedIn rest min_pfn max_high :=
      fun x hx => hin x (List.mem_cons_of_mem _ hx)
    have hdis2 : pairwiseDisjoint rest := (List.pairwise_cons.mp hdis).2
    have el := coveredCount_cons reg rest min_pfn max_low hdis
    have eh := coveredCount_cons reg rest max_low max_high hdis
    have el2 : min reg.end_pfn (min_pfn + (max_low - min_pfn)) - max reg.start_pfn min_pfn =
        min reg.end_pfn max_low - reg.start_pfn := by omega
    have eh2 : min reg.end_pfn (max_low + (max_high - max_low)) - max reg.start_pfn max_low =
        reg.end_pfn - max reg.start_pfn max_low := by omega
    rw [el2] at el
    rw [eh2] at eh
    obtain ⟨s0, sH, sj⟩ := holesStep_spec cfg hhigh max_low reg zh hr2 (by omega) (by omega)
      (by omega) h0U (by omega) hHU
    rw [arm_bootmem_free_holes_cons]
    obtain ⟨i0, iH, ij⟩ := ih (holesStep cfg max_low reg zh) hin2 hdis2
      (by rw [s0]; omega) (by rw [s0]; omega) (by rw [sH]; omega) (by rw [sH]; omega)
    refine ⟨by rw [i0, s0, el]; omega, by rw [iH, sH, eh]; omega, fun j hj0 hjH => ?_⟩
    rw [ij j hj0 hjH, sj j hj0 hjH]

theorem holesStep_low (cfg : ZoneConfig) (max_low : Nat) (reg : Interval) (zh : Nat → Nat)
    (hwf : reg.start_pfn ≤ reg.end_pfn) (hmU : max_low < ULONG_SIZE)
    (h0 : min reg.end_pfn max_low - reg.start_pfn ≤ zh 0) (h0U : zh 0 < ULONG_SIZE) :
    holesStep cfg max_low reg zh 0 = zh 0 - (min reg.end_pfn max_low - reg.start_pfn) := by
  have hne := ZONE_HIGHMEM_ne_zero cfg
  have hne2 : (0 : Nat) ≠ ZONE_HIGHMEM cfg := fun h => hne h.symm
  simp only [holesStep, arm_bootmem_free_holes]
  by_cases h1 : reg.start_pfn < max_low
  · have e1 : usub (min reg.end_pfn max_low) reg.start_pfn =
        min reg.end_pfn max_low - reg.start_pfn := by
      exact usub_eq_sub _ _ (by omega) (by omega)
    by_cases h2 : cfg.CONFIG_HIGHMEM = true ∧ reg.end_pfn > max_low
    · simp only [h1, if_true, if_pos h2, store, if_neg hne2, e1]
      exact usub_eq_sub _ _ h0 h0U
    · simp only [h1, if_true, if_neg h2, store, e1]
      exact usub_eq_sub _ _ h0 h0U
  · by_cases h2 : cfg.CONFIG_HIGHMEM = true ∧ reg.end_pfn > max_low
    · simp only [h1, if_false, if_pos h2, store, if_neg hne2]
      omega
    · simp only [h1, if_false, if_neg h2]
      omega

/-- Entry 0 after the hole loop, for every configuration: the initial value
less the number of frames of the low range covered by memory. -/
theorem arm_bootmem_free_holes_low (cfg : ZoneConfig)
    (min_pfn max_low max_high : Nat) (h1 : min_pfn ≤ max_low) (h2 : max_low ≤ max_high)
    (hU : max_high < ULONG_SIZE) (memory : List Interval) :
    ∀ zh : Nat → Nat, containedIn memory min_pfn max_high → pairwiseDisjoint memory →
      coveredCount memory min_pfn max_low ≤ zh 0 → zh 0 < ULONG_SIZE →
      arm_bootmem_free_holes cfg max_low memory zh 0 =
        zh 0 - coveredCount memory min_pfn max_low := by
  induction memory with
  | nil =>
    intro zh _ _ _ _
    simp only [arm_bootmem_free_holes, coveredCount_nil]
    omega
  | cons reg rest ih =>
    intro zh hin hdis hc0 h0U
    obtain ⟨hr1, hr2, hr3⟩ := hin reg (List.mem_cons_self _ _)
    have hin2 : containedIn rest min_pfn max_high :=
      fun x hx => hin x (List.mem_cons_of_mem _ hx)
    have hdis2 : pairwiseDisjoint rest := (List.pairwise_cons.mp hdis).2
    have el := coveredCount_cons reg rest min_pfn max_low hdis
    have el2 : min reg.end_pfn (min_pfn + (max_low - min_pfn)) - max reg.start_pfn min_pfn =
        min reg.end_pfn max_low - reg.start_pfn := by omega
    rw [el2] at el
    have s0 := holesStep_low cfg max_low reg zh hr2 (by omega) (by omega) h0U
    rw [arm_bootmem_free_holes_cons]
    have i0 := ih (holesStep cfg max_low reg zh) hin2 hdis2
      (by rw [s0]; omega) (by rw [s0]; omega)
    rw [i0, s0, el]; omega

theorem covered_add_uncovered (tbl : List Interval) (lo hi : Nat) :
    coveredCount tbl lo hi + uncoveredCount tbl lo hi = hi - lo := by
  unfold coveredCount uncoveredCount
  have h := List.length_eq_countP_add_countP (fun f => decide (covered tbl f))
    (List.range' lo (hi - lo))
  rw [List.length_range'] at h
  have e : (fun f => decide (¬ covered tbl f)) =
      (fun a => decide ¬ decide (covered tbl a) = true) := by
    funext f; simp
  rw [e]
  exact h.symm

theorem uncoveredCount_split (tbl : List Interval) (lo mid hi : Nat)
    (h1 : lo ≤ mid) (h2 : mid ≤ hi) :
    uncoveredCount tbl lo hi = uncoveredCount tbl lo mid + uncoveredCount tbl mid hi := by
  unfold uncoveredCount
  have h := List.range'_append lo (mid - lo) (hi - mid) 1
  have e1 : lo + 1 * (mid - lo) = mid := by omega
  have e2 : hi - mid + (mid - lo) = hi - lo := by omega
  rw [e1, e2] at h
  rw [← h, List.countP_append]

theorem zoneSum_no_dma_highmem (a : Nat → Nat) :
    zoneSum ⟨false, true⟩ a = a 0 + a 1 + a 2 := by
  simp [zoneSum, MAX_NR_ZONES, ZONE_MOVABLE, ZONE_HIGHMEM, ZONE_NORMAL, List.range_succ]
  omega

theorem zoneSum_dma_highmem (a : Nat → Nat) :
    zoneSum ⟨true, true⟩ a = a 0 + a 1 + a 2 + a 3 := by
  simp [zoneSum, MAX_NR_ZONES, ZONE_MOVABLE, ZONE_HIGHMEM, ZONE_NORMAL, List.range_succ]
  omega

/-! ## Theorems on `arm_bootmem_free` -/

/-- C4: with no bounded-low (DMA) sub-zone configured, for `min ≤ max_low ≤
max_high` and pairwise disjoint present-memory intervals contained in
`min .. max_high`, `arm_bootmem_free` computes for the low zone (entry 0) the
frame count `max_low - min` and for the high zone the frame count
`max_high - max_low`, and each zone's hole count is its frame count minus the
number of frames of its range covered by some memory interval. -/
theorem arm_bootmem_free_hole_counts (cfg : ZoneConfig) (arm_dma_zone_size : Nat)
    (min_pfn max_low max_high : Nat) (memory : List Interval)
    (hhigh : cfg.CONFIG_HIGHMEM = true)
    (hdma : cfg.CONFIG_ZONE_DMA = false ∨ arm_dma_zone_size = 0)
    (h1 : min_pfn ≤ max_low) (h2 : max_low ≤ max_high) (hU : max_high < ULONG_SIZE)
    (hin : containedIn memory min_pfn max_high) (hdis : pairwiseDisjoint memory) :
    (arm_bootmem_free cfg arm_dma_zone_size min_pfn max_low max_high memory).zone_size 0 =
      max_low - min_pfn ∧
    (arm_bootmem_free cfg arm_dma_zone_size min_pfn max_low max_high memory).zone_size
      (ZONE_HIGHMEM cfg) = max_high - max_low ∧
    (arm_bootmem_free cfg arm_dma_zone_size min_pfn max_low max_high memory).zhole_size 0 =
      (max_low - min_pfn) - coveredCount memory min_pfn max_low ∧
    (arm_bootmem_free cfg arm_dma_zone_size min_pfn max_low max_high memory).zhole_size
      (ZONE_HIGHMEM cfg) = (max_high - max_low) - coveredCount memory max_low max_high := by
  have hne := ZONE_HIGHMEM_ne_zero cfg
  have hne2 : (0 : Nat) ≠ ZONE_HIGHMEM cfg := fun h => hne h.symm
  have hno : ¬ (cfg.CONFIG_ZONE_DMA = true ∧ arm_dma_zone_size ≠ 0) := by
    rintro ⟨a, b⟩
    rcases hdma with h | h
    · rw [h] at a; exact Bool.noConfusion a
    · exact b h
  have e0 : usub max_low min_pfn = max_low - min_pfn := usub_eq_sub _ _ h1 (by omega)
  have eH : usub max_high max_low = max_high - max_low := usub_eq_sub _ _ h2 hU
  have hl := coveredCount_le memory min_pfn max_low
  have hh := coveredCount_le memory max_low max_high
  obtain ⟨r0, rH, _⟩ := arm_bootmem_free_holes_spec cfg hhigh min_pfn max_low max_high h1 h2 hU
    memory (store (store (fun _ => 0) 0 (max_low - min_pfn)) (ZONE_HIGHMEM cfg)
      (max_high - max_low)) hin hdis
    (by simp only [store, if_neg hne2, if_true]; exact hl)
    (by simp only [store, if_neg hne2, if_true]; omega)
    (by simp only [store, if_true]; exact hh)
    (by simp only [store, if_true]; omega)
  simp only [arm_bootmem_free, hhigh, if_true, if_neg hno, e0, eH]
  refine ⟨?_, ?_, ?_, ?_⟩
  · simp only [store, if_neg hne2, if_true]
  · simp only [store, if_true]
  · rw [r0]; simp only [store, if_neg hne2, if_true]
  · rw [rH]; simp only [store, if_true]

/-- Scenario B: memory 0..50 and 60..100 with `min = 0` and
`max_low = max_high = 100` gives low-zone frame count 100 and hole count 10. -/
theorem arm_bootmem_free_hole_counts_witness :
    (arm_bootmem_free ⟨false, true⟩ 0 0 100 100 [⟨0, 50⟩, ⟨60, 100⟩]).zhole_size 0 = 10 ∧
    coveredCount [⟨0, 50⟩, ⟨60, 100⟩] 0 100 = 90 ∧
    ((arm_bootmem_free ⟨false, true⟩ 0 0 100 100 [⟨0, 50⟩, ⟨60, 100⟩]).zone_size 0 =
      100 - 0 ∧
    (arm_bootmem_free ⟨false, true⟩ 0 0 100 100 [⟨0, 50⟩, ⟨60, 100⟩]).zone_size
      (ZONE_HIGHMEM ⟨false, true⟩) = 100 - 100 ∧
    (arm_bootmem_free ⟨false, true⟩ 0 0 100 100 [⟨0, 50⟩, ⟨60, 100⟩]).zhole_size 0 =
      (100 - 0) - coveredCount [⟨0, 50⟩, ⟨60, 100⟩] 0 100 ∧
    (arm_bootmem_free ⟨false, true⟩ 0 0 100 100 [⟨0, 50⟩, ⟨60, 100⟩]).zhole_size
      (ZONE_HIGHMEM ⟨false, true⟩) =
        (100 - 100) - coveredCount [⟨0, 50⟩, ⟨60, 100⟩] 100 100) :=
  ⟨by decide, by decide,
   arm_bootmem_free_hole_counts ⟨false, true⟩ 0 0 100 100 [⟨0, 50⟩, ⟨60, 100⟩] rfl
     (Or.inl rfl) (by decide) (by decide) (by decide) (by decide)
     (by decide)⟩

/-- C5 (as stated, for all inputs) fails: `arm_bootmem_free(10, 5, 20)` with
high memory configured and no DMA zone hands over the zone frame counts
`5 - 10 = 4294967291` (wrapped) and `20 - 5 = 15`, whose sum is
`2 ^ 32 + 10`, not `max_high - min = 10`. -/
theorem arm_bootmem_free_zone_sum_counterexample :
    (arm_bootmem_free ⟨false, true⟩ 0 10 5 20 []).zone_size 0 = 4294967291 ∧
    (arm_bootmem_free ⟨false, true⟩ 0 10 5 20 []).zone_size (ZONE_HIGHMEM ⟨false, true⟩) = 15 ∧
    zoneSum ⟨false, true⟩ (arm_bootmem_free ⟨false, true⟩ 0 10 5 20 []).zone_size =
      2 ^ 32 + 10 ∧
    zoneSum ⟨false, true⟩ (arm_bootmem_free ⟨false, true⟩ 0 10 5 20 []).zone_size ≠
      20 - 10 := by
  decide

/-- C5 (amended): with high-memory support configured and for any configured
bounded-low zone size, the sum of the zone frame counts that `arm_bootmem_free`
hands to zone registration equals `max_high - min` when
`min ≤ max_low ≤ max_high`; for arbitrary inputs it equals `max_high - min`
only modulo `2 ^ 32` (the `unsigned long` difference). -/
theorem arm_bootmem_free_zone_sum (cfg : ZoneConfig) (arm_dma_zone_size : Nat)
    (min_pfn max_low max_high : Nat) (memory : List Interval)
    (hhigh : cfg.CONFIG_HIGHMEM = true) :
    zoneSum cfg (arm_bootmem_free cfg arm_dma_zone_size min_pfn max_low max_high
      memory).zone_size % ULONG_SIZE = usub max_high min_pfn ∧
    (min_pfn ≤ max_low → max_low ≤ max_high → max_high < ULONG_SIZE →
      zoneSum cfg (arm_bootmem_free cfg arm_dma_zone_size min_pfn max_low max_high
        memory).zone_size = max_high - min_pfn) := by
  obtain ⟨dma, high⟩ := cfg
  simp only at hhigh
  subst hhigh
  have htel := usub_telescope min_pfn max_low max_high
  cases dma
  · rw [zoneSum_no_dma_highmem]
    simp [arm_bootmem_free, store, ZONE_HIGHMEM, ZONE_NORMAL]
    exact htel
  · rw [zoneSum_dma_highmem]
    have hlt := usub_lt max_low min_pfn
    generalize hd : arm_dma_zone_size >>> PAGE_SHIFT = d
    by_cases hz : arm_dma_zone_size ≠ 0
    · by_cases hle : usub max_low min_pfn ≤ d
      · simp [arm_bootmem_free, arm_adjust_dma_zone, store, ZONE_HIGHMEM, ZONE_NORMAL,
          ZONE_DMA, hz, hle, hd]
        exact htel
      · simp [arm_bootmem_free, arm_adjust_dma_zone, store, ZONE_HIGHMEM, ZONE_NORMAL,
          ZONE_DMA, hz, hle, hd]
        have e := usub_eq_sub (usub max_low min_pfn) d (by omega) hlt
        have e2 : d + usub (usub max_low min_pfn) d = usub max_low min_pfn := by
          rw [e]; omega
        rw [e2]
        exact htel
    · simp [arm_bootmem_free, arm_adjust_dma_zone, store, ZONE_HIGHMEM, ZONE_NORMAL,
          ZONE_DMA, hz, hd]
      exact htel

/-- Frames 0..100 low and 100..150 high with a bounded-low zone of 50 frames:
the three zone frame counts 50, 50 and 50 sum to `150 - 0`. -/
theorem arm_bootmem_free_zone_sum_witness :
    (zoneSum ⟨true, true⟩ (arm_bootmem_free ⟨true, true⟩ (50 * 4096) 0 100 150
      [⟨0, 150⟩]).zone_size % ULONG_SIZE = usub 150 0 ∧
    (0 ≤ 100 → 100 ≤ 150 → 150 < ULONG_SIZE →
      zoneSum ⟨true, true⟩ (arm_bootmem_free ⟨true, true⟩ (50 * 4096) 0 100 150
        [⟨0, 150⟩]).zone_size = 150 - 0)) ∧
    zoneSum ⟨true, true⟩ (arm_bootmem_free ⟨true, true⟩ (50 * 4096) 0 100 150
      [⟨0, 150⟩]).zone_size = 150 :=
  ⟨arm_bootmem_free_zone_sum ⟨true, true⟩ (50 * 4096) 0 100 150 [⟨0, 150⟩] rfl, by decide⟩

/-- C6 (as stated) fails: with a bounded-low zone of 50 frames, `min = 0`,
`max_low = 100` and memory 0..10 and 30..100, all 20 uncovered frames lie in
the bounded-low range 0..50, yet `arm_adjust_dma_zone` leaves the bounded-low
zone with hole count 0 and the remaining low zone with hole count 20. -/
theorem arm_bootmem_free_dma_holes_counterexample :
    uncoveredCount [⟨0, 10⟩, ⟨30, 100⟩] 0 50 = 20 ∧
    uncoveredCount [⟨0, 10⟩, ⟨30, 100⟩] 50 100 = 0 ∧
    (arm_bootmem_free ⟨true, true⟩ (50 * 4096) 0 100 100
      [⟨0, 10⟩, ⟨30, 100⟩]).zhole_size ZONE_DMA = 0 ∧
    (arm_bootmem_free ⟨true, true⟩ (50 * 4096) 0 100 100
      [⟨0, 10⟩, ⟨30, 100⟩]).zhole_size (ZONE_NORMAL ⟨true, true⟩) = 20 := by
  decide

/-- C6 (amended): when a bounded-low (DMA) zone of `d` frames is configured
with `d` below the low-zone frame count, after `arm_adjust_dma_zone` the
bounded-low zone has hole count 0 and the remaining low zone carries the hole
count of the whole low range (the uncovered frames of `min .. max_low`); each
sub-zone's hole count equals the number of uncovered frames of its own
sub-range exactly when no frame of `min .. min + d` is uncovered. -/
theorem arm_bootmem_free_dma_holes (cfg : ZoneConfig) (arm_dma_zone_size : Nat)
    (min_pfn max_low max_high : Nat) (memory : List Interval)
    (hdma : cfg.CONFIG_ZONE_DMA = true) (hnz : arm_dma_zone_size ≠ 0)
    (h1 : min_pfn ≤ max_low) (h2 : max_low ≤ max_high) (hU : max_high < ULONG_SIZE)
    (hin : containedIn memory min_pfn max_high) (hdis : pairwiseDisjoint memory)
    (hd : arm_dma_zone_size >>> PAGE_SHIFT < max_low - min_pfn) :
    (arm_bootmem_free cfg arm_dma_zone_size min_pfn max_low max_high memory).zhole_size
      ZONE_DMA = 0 ∧
    (arm_bootmem_free cfg arm_dma_zone_size min_pfn max_low max_high memory).zhole_size
      (ZONE_NORMAL cfg) = uncoveredCount memory min_pfn max_low ∧
    (((arm_bootmem_free cfg arm_dma_zone_size min_pfn max_low max_high memory).zhole_size
        ZONE_DMA =
          uncoveredCount memory min_pfn (min_pfn + arm_dma_zone_size >>> PAGE_SHIFT) ∧
      (arm_bootmem_free cfg arm_dma_zone_size min_pfn max_low max_high memory).zhole_size
        (ZONE_NORMAL cfg) =
          uncoveredCount memory (min_pfn + arm_dma_zone_size >>> PAGE_SHIFT) max_low) ↔
      uncoveredCount memory min_pfn (min_pfn + arm_dma_zone_size >>> PAGE_SHIFT) = 0) := by
  have hne := ZONE_HIGHMEM_ne_zero cfg
  have hne2 : (0 : Nat) ≠ ZONE_HIGHMEM cfg := fun h => hne h.symm
  have e0 : usub max_low min_pfn = max_low - min_pfn := usub_eq_sub _ _ h1 (by omega)
  have hcl := coveredCount_le memory min_pfn max_low
  have hcu := covered_add_uncovered memory min_pfn max_low
  have hN : ZONE_NORMAL cfg = 1 := by simp [ZONE_NORMAL, hdma]
  have hvals : ∀ d, arm_dma_zone_size >>> PAGE_SHIFT = d → d < max_low - min_pfn →
      (arm_bootmem_free cfg arm_dma_zone_size min_pfn max_low max_high memory).zhole_size
        ZONE_DMA = 0 ∧
      (arm_bootmem_free cfg arm_dma_zone_size min_pfn max_low max_high memory).zhole_size
        (ZONE_NORMAL cfg) = uncoveredCount memory min_pfn max_low := by
    intro d hdd hd
    have key : ∀ zs : Nat → Nat, zs 0 = max_low - min_pfn →
        (arm_adjust_dma_zone cfg zs (arm_bootmem_free_holes cfg max_low memory zs) d).2 =
          store (store (arm_bootmem_free_holes cfg max_low memory zs) (ZONE_NORMAL cfg)
            (uncoveredCount memory min_pfn max_low)) ZONE_DMA 0 := by
      intro zs hzs
      have hk := arm_bootmem_free_holes_low cfg min_pfn max_low max_high h1 h2 hU memory zs
        hin hdis (by rw [hzs]; exact hcl) (by rw [hzs]; omega)
      have hval : arm_bootmem_free_holes cfg max_low memory zs 0 =
          uncoveredCount memory min_pfn max_low := by
        rw [hk, hzs]; omega
      unfold arm_adjust_dma_zone
      rw [if_neg (by rw [hzs]; omega)]
      simp only []
      rw [hval]
    unfold arm_bootmem_free
    simp only [hdd]
    rw [if_pos ⟨hdma, hnz⟩]
    by_cases hh : cfg.CONFIG_HIGHMEM = true
    · simp only [hh, if_true, e0]
      rw [key _ (by simp only [store, if_neg hne2, if_true])]
      simp [store, hN, ZONE_DMA]
    · simp only [hh, e0]
      rw [if_neg (by simp), key _ (by simp only [store, if_true])]
      simp [store, hN, ZONE_DMA]
  obtain ⟨d, hdd⟩ : ∃ d, arm_dma_zone_size >>> PAGE_SHIFT = d := ⟨_, rfl⟩
  rw [hdd] at hd ⊢
  obtain ⟨v0, v1⟩ := hvals d hdd hd
  have hsplit := uncoveredCount_split memory min_pfn (min_pfn + d) max_low
    (by omega) (by omega)
  refine ⟨v0, v1, ?_⟩
  rw [v0, v1]
  constructor
  · intro h; exact h.1.symm
  · intro h; exact ⟨h.symm, by omega⟩

/-- Fully covered low range 0..100 with a bounded-low zone of 50 frames: both
sub-zones have hole count 0, as C6 (amended) predicts. -/
theorem arm_bootmem_free_dma_holes_witness :
    (arm_bootmem_free ⟨true, true⟩ (50 * 4096) 0 100 100 [⟨0, 100⟩]).zhole_size ZONE_DMA = 0 ∧
    (arm_bootmem_free ⟨true, true⟩ (50 * 4096) 0 100 100 [⟨0, 100⟩]).zhole_size
      (ZONE_NORMAL ⟨true, true⟩) = uncoveredCount [⟨0, 100⟩] 0 100 ∧
    (((arm_bootmem_free ⟨true, true⟩ (50 * 4096) 0 100 100 [⟨0, 100⟩]).zhole_size
        ZONE_DMA = uncoveredCount [⟨0, 100⟩] 0 (0 + (50 * 4096) >>> PAGE_SHIFT) ∧
      (arm_bootmem_free ⟨true, true⟩ (50 * 4096) 0 100 100 [⟨0, 100⟩]).zhole_size
        (ZONE_NORMAL ⟨true, true⟩) =
          uncoveredCount [⟨0, 100⟩] (0 + (50 * 4096) >>> PAGE_SHIFT) 100) ↔
      uncoveredCount [⟨0, 100⟩] 0 (0 + (50 * 4096) >>> PAGE_SHIFT) = 0) :=
  arm_bootmem_free_dma_holes ⟨true, true⟩ (50 * 4096) 0 100 100 [⟨0, 100⟩] rfl (by decide)
    (by decide) (by decide) (by decide) (by decide) (by decide) (by decide)

/-! ## Lemmas on `find_limits` -/

/-- The scan leaves `i` one past the bank `b` that immediately precedes the
first high-memory bank (or one past the last bank when none is high memory). -/
theorem find_limits_scan_spec (rest : List membank) :
    ∀ (first : membank) (i : Nat), first.highmem = false →
      ∃ pre b suf, first :: rest = pre ++ b :: suf ∧
        (∀ x ∈ pre, x.highmem = false) ∧ b.highmem = false ∧
        (∀ n, suf.head? = some n → n.highmem = true) ∧
        find_limits_scan (first :: rest) i = i + pre.length + 1 := by
  induction rest with
  | nil =>
    intro first i hf
    refine ⟨[], first, [], rfl, by simp, hf, by simp, ?_⟩
    simp [find_limits_scan, hf]
  | cons c rest ih =>
    intro first i hf
    by_cases hc : c.highmem = true
    · refine ⟨[], first, c :: rest, rfl, by simp, hf, by simp [hc], ?_⟩
      simp [find_limits_scan, hf, hc]
    · have hc : c.highmem = false := by simpa using hc
      obtain ⟨pre, b, suf, hdec, hpre, hb, hsuf, hscan⟩ := ih c (i + 1) hc
      refine ⟨first :: pre, b, suf, by rw [hdec]; rfl, ?_, hb, hsuf, ?_⟩
      · intro x hx
        rcases List.mem_cons.mp hx with rfl | hx
        · exact hf
        · exact hpre x hx
      · have : find_limits_scan (first :: c :: rest) i =
            find_limits_scan (c :: rest) (i + 1) := by
          simp [find_limits_scan, hf]
        rw [this, hscan, List.length_cons]
        omega

/-- Result of `find_limits` in terms of the decomposition of the table around
the bank preceding the first high-memory bank. -/
theorem find_limits_decomp (bank : List membank) (first : membank)
    (hfirst : bank.head? = some first) (hlow : first.highmem = false) :
    ∃ pre b suf last, bank = pre ++ b :: suf ∧
      (∀ x ∈ pre, x.highmem = false) ∧ b.highmem = false ∧
      (∀ n, suf.head? = some n → n.highmem = true) ∧
      bank.getLast? = some last ∧
      find_limits bank = some (first.pfn_start, b.pfn_end, last.pfn_end) := by
  cases bank with
  | nil => simp at hfirst
  | cons f rest =>
    have hf : f = first := by simpa using hfirst
    subst hf
    obtain ⟨pre, b, suf, hdec, hpre, hb, hsuf, hscan⟩ := find_limits_scan_spec rest f 0 hlow
    have hlast : (f :: rest).getLast? = some ((f :: rest).getLast (by simp)) :=
      List.getLast?_eq_getLast _ _
    refine ⟨pre, b, suf, (f :: rest).getLast (by simp), hdec, hpre, hb, hsuf, hlast, ?_⟩
    have hidx : (f :: rest)[pre.length]? = some b := by
      rw [hdec, List.getElem?_append_right (le_refl _)]; simp
    have hlast2 : (f :: rest)[(f :: rest).length - 1]? =
        some ((f :: rest).getLast (by simp)) := by
      rw [← List.getLast?_eq_getElem?]; exact hlast
    unfold find_limits
    simp only [List.getElem?_cons_zero, hscan]
    rw [if_neg (by omega)]
    have e : 0 + pre.length + 1 - 1 = pre.length := by omega
    rw [e, hidx, hlast2]

/-- In a table whose end frames ascend, the last bank ends no earlier than any
bank `b` followed by `suf`. -/
theorem banksSortedByEnd_last (pre : List membank) (b : membank) (suf : List membank)
    (last : membank) (hend : banksSortedByEnd (pre ++ b :: suf))
    (hlast : (pre ++ b :: suf).getLast? = some last) : b.pfn_end ≤ last.pfn_end := by
  have hp : List.Pairwise (fun a c => a.pfn_end ≤ c.pfn_end) (b :: suf) :=
    (List.pairwise_append.mp hend).2.1
  rw [List.getLast?_append, List.getLast?_eq_getLast (b :: suf) (by simp)] at hlast
  simp only [Option.or_some] at hlast
  have hmem : last ∈ b :: suf := by
    have := List.getLast_mem (l := b :: suf) (by simp)
    rw [Option.some.inj hlast] at this
    exact this
  rcases List.mem_cons.mp hmem with h | h
  · rw [h]
  · exact (List.pairwise_cons.mp hp).1 last h

/-- In a table sorted by start frame, the first bank starts no later than any
bank `b` preceded by `pre`. -/
theorem banksSortedByStart_first (pre : List membank) (b : membank) (suf : List membank)
    (first : membank) (hstart : banksSortedByStart (pre ++ b :: suf))
    (hfirst : (pre ++ b :: suf).head? = some first) : first.pfn_start ≤ b.pfn_start := by
  cases pre with
  | nil =>
    have : b = first := by simpa using hfirst
    rw [this]
  | cons p pre =>
    have hp : p = first := by simpa using hfirst
    subst hp
    exact (List.pairwise_cons.mp hstart).1 b (by simp)

/-! ## Theorems on `find_limits` -/

/-- C7: for every non-empty bank table whose first bank is not high memory,
`find_limits` returns `min` = start frame of `bank[0]`, `max_low` = end frame
of the bank `b` immediately preceding the first high-memory bank (every bank up
to and including `b` is low, and `b` is followed by a high-memory bank or is the
last bank), and `max_high` = end frame of the last bank. -/
theorem find_limits_returns (bank : List membank) (first : membank)
    (hfirst : bank.head? = some first) (hlow : first.highmem = false) :
    ∃ pre b suf last, bank = pre ++ b :: suf ∧
      (∀ x ∈ pre, x.highmem = false) ∧ b.highmem = false ∧
      (∀ n, suf.head? = some n → n.highmem = true) ∧
      bank.getLast? = some last ∧
      find_limits bank = some (first.pfn_start, b.pfn_end, last.pfn_end) :=
  find_limits_decomp bank first hfirst hlow

/-- Scenario C's banks 0..50 (low) and 50..120 (high): `find_limits` returns
`(0, 50, 120)`. -/
theorem find_limits_returns_witness :
    find_limits [⟨0, 50, false⟩, ⟨50, 120, true⟩] = some (0, 50, 120) ∧
    ∃ pre b suf last, [(⟨0, 50, false⟩ : membank), ⟨50, 120, true⟩] = pre ++ b :: suf ∧
      (∀ x ∈ pre, x.highmem = false) ∧ b.highmem = false ∧
      (∀ n, suf.head? = some n → n.highmem = true) ∧
      [(⟨0, 50, false⟩ : membank), ⟨50, 120, true⟩].getLast? = some last ∧
      find_limits [⟨0, 50, false⟩, ⟨50, 120, true⟩] =
        some ((⟨0, 50, false⟩ : membank).pfn_start, b.pfn_end, last.pfn_end) :=
  ⟨by decide,
   find_limits_returns [⟨0, 50, false⟩, ⟨50, 120, true⟩] ⟨0, 50, false⟩ rfl rfl⟩

/-- C8 (as stated) fails: the table with banks 0..100 (low) and 50..60 (high)
is non-empty, sorted ascending by start frame and starts with a low bank, yet
`find_limits` returns `max_low = 100 > max_high = 60`. -/
theorem find_limits_ordered_counterexample :
    banksSortedByStart [⟨0, 100, false⟩, ⟨50, 60, true⟩] ∧
    banksWellFormed [⟨0, 100, false⟩, ⟨50, 60, true⟩] ∧
    find_limits [⟨0, 100, false⟩, ⟨50, 60, true⟩] = some (0, 100, 60) ∧
    ¬ (100 ≤ 60) := by
  decide

/-- C8 (amended): for every non-empty bank table of well-formed banks
(`start ≤ end`) that is sorted ascending by start frame (I1) and also by end
frame (as every table of non-overlapping banks is), and whose first bank is not
high memory, `find_limits` returns boundaries with
`min ≤ max_low ≤ max_high`. -/
theorem find_limits_ordered (bank : List membank) (first : membank)
    (hfirst : bank.head? = some first) (hlow : first.highmem = false)
    (hwf : banksWellFormed bank) (hstart : banksSortedByStart bank)
    (hend : banksSortedByEnd bank) :
    ∃ min_pfn max_low max_high, find_limits bank = some (min_pfn, max_low, max_high) ∧
      min_pfn ≤ max_low ∧ max_low ≤ max_high := by
  obtain ⟨pre, b, suf, last, hdec, _, _, _, hlast, hres⟩ :=
    find_limits_decomp bank first hfirst hlow
  refine ⟨first.pfn_start, b.pfn_end, last.pfn_end, hres, ?_, ?_⟩
  · have hb : b.pfn_start ≤ b.pfn_end := hwf b (by rw [hdec]; simp)
    subst hdec
    have := banksSortedByStart_first pre b suf first hstart hfirst
    omega
  · subst hdec
    exact banksSortedByEnd_last pre b suf last hend hlast

/-- Banks 0..50 (low) and 50..120 (high) are well formed and sorted by start
and by end frame; `find_limits` returns `0 ≤ 50 ≤ 120`. -/
theorem find_limits_ordered_witness :
    find_limits [⟨0, 50, false⟩, ⟨50, 120, true⟩] = some (0, 50, 120) ∧
    ∃ min_pfn max_low max_high,
      find_limits [⟨0, 50, false⟩, ⟨50, 120, true⟩] = some (min_pfn, max_low, max_high) ∧
      min_pfn ≤ max_low ∧ max_low ≤ max_high :=
  ⟨by decide,
   find_limits_ordered [⟨0, 50, false⟩, ⟨50, 120, true⟩] ⟨0, 50, false⟩ rfl rfl
     (by decide) (by decide) (by decide)⟩

/-! ## Lemmas on rounding -/

theorem round_down_le (x a : Nat) : round_down x a ≤ x := by
  unfold round_down
  exact Nat.div_mul_le_self x a

theorem ALIGN_lt (x a : Nat) : ALIGN x a < ULONG_SIZE := by
  unfold ALIGN uadd
  have h1 : (x + (a - 1)) % ULONG_SIZE < ULONG_SIZE :=
    Nat.mod_lt _ (by unfold ULONG_SIZE; omega)
  have h2 := Nat.div_mul_le_self ((x + (a - 1)) % ULONG_SIZE) a
  omega

/-- Rounding up either wraps to 0 or does not fall below its argument. -/
theorem ALIGN_zero_or_ge (x a : Nat) (hx : x < ULONG_SIZE) (ha : 0 < a) :
    ALIGN x a = 0 ∨ x ≤ ALIGN x a := by
  unfold ALIGN uadd
  by_cases hy : (x + (a - 1)) % ULONG_SIZE < a
  · left
    rw [Nat.div_eq_of_lt hy, Nat.zero_mul]
  · right
    have hmod : (x + (a - 1)) % ULONG_SIZE = x + (a - 1) := by
      apply Nat.mod_eq_of_lt
      by_contra hwrap
      have hlt : (x + (a - 1)) % ULONG_SIZE < ULONG_SIZE :=
        Nat.mod_lt _ (by unfold ULONG_SIZE; omega)
      by_cases hbig : a ≤ ULONG_SIZE
      · have : (x + (a - 1)) % ULONG_SIZE = x + (a - 1) - ULONG_SIZE := by
          rw [Nat.mod_eq_sub_mod (by omega)]
          exact Nat.mod_eq_of_lt (by omega)
        omega
      · omega
    rw [hmod]
    have h1 := Nat.div_add_mod (x + (a - 1)) a
    have h2 := Nat.mod_lt (x + (a - 1)) ha
    have h3 : (x + (a - 1)) / a * a = a * ((x + (a - 1)) / a) := Nat.mul_comm _ _
    omega

theorem MAX_ORDER_NR_PAGES_pos (cfg : MemmapConfig) : 0 < MAX_ORDER_NR_PAGES cfg := by
  unfold MAX_ORDER_NR_PAGES
  exact Nat.two_pow_pos _

/-! ## Lemmas on `free_unused_memmap` -/

/-- Every call made by the bank loop frees a range that starts at or after the
end of some bank `q` and ends at or before the start of the bank `n` that
follows `q` in the table; on exit `prev_bank_end` is 0 or lies at or after the
end of the last bank. -/
theorem free_unused_memmap_banks_spec (cfg : MemmapConfig) (rest : List membank) :
    ∀ (pre : List membank) (p : membank) (pe : Nat),
      (pe = 0 ∨ p.pfn_end ≤ pe) → (∀ b ∈ rest, b.pfn_end < ULONG_SIZE) →
      (∀ c ∈ (free_unused_memmap_banks cfg rest pe).1,
        ∃ pre' q n suf, pre ++ p :: rest = pre' ++ q :: n :: suf ∧
          q.pfn_end ≤ c.1 ∧ c.1 < c.2 ∧ c.2 ≤ n.pfn_start) ∧
      ((free_unused_memmap_banks cfg rest pe).2 = 0 ∨
        ∃ last, (p :: rest).getLast? = some last ∧
          last.pfn_end ≤ (free_unused_memmap_banks cfg rest pe).2) := by
  induction rest with
  | nil =>
    intro pre p pe hpe _
    simp only [free_unused_memmap_banks]
    refine ⟨fun c hc => by simp at hc, ?_⟩
    rcases hpe with h | h
    · exact Or.inl h
    · exact Or.inr ⟨p, rfl, h⟩
  | cons cur rest ih =>
    intro pre p pe hpe hU
    have hcurU : cur.pfn_end < ULONG_SIZE := hU cur (List.mem_cons_self _ _)
    have hU2 : ∀ b ∈ rest, b.pfn_end < ULONG_SIZE :=
      fun b hb => hU b (List.mem_cons_of_mem _ hb)
    have hal := ALIGN_zero_or_ge cur.pfn_end (MAX_ORDER_NR_PAGES cfg) hcurU
      (MAX_ORDER_NR_PAGES_pos cfg)
    obtain ⟨ihc, ihl⟩ := ih (pre ++ [p]) cur
      (ALIGN cur.pfn_end (MAX_ORDER_NR_PAGES cfg)) hal hU2
    have hstart : (if cfg.CONFIG_SPARSEMEM = true then
          min cur.pfn_start (ALIGN pe (PAGES_PER_SECTION cfg))
        else round_down cur.pfn_start (MAX_ORDER_NR_PAGES cfg)) ≤ cur.pfn_start := by
      split_ifs
      · exact Nat.min_le_left _ _
      · exact round_down_le _ _
    simp only [free_unused_memmap_banks]
    generalize (if cfg.CONFIG_SPARSEMEM = true then
          min cur.pfn_start (ALIGN pe (PAGES_PER_SECTION cfg))
        else round_down cur.pfn_start (MAX_ORDER_NR_PAGES cfg)) = bank_start at hstart ⊢
    constructor
    · intro c hc
      rcases List.mem_append.mp hc with hc | hc
      · by_cases hcond : pe ≠ 0 ∧ pe < bank_start
        · rw [if_pos hcond] at hc
          have hce : c = (pe, bank_start) := by simpa using hc
          refine ⟨pre, p, cur, rest, rfl, ?_, ?_, ?_⟩
          · rw [hce]
            rcases hpe with h | h
            · exact absurd h hcond.1
            · exact h
          · rw [hce]; exact hcond.2
          · rw [hce]; exact hstart
        · rw [if_neg hcond] at hc
          simp at hc
      · obtain ⟨pre', q, n, suf, hdec, h1, h2, h3⟩ := ihc c hc
        refine ⟨pre', q, n, suf, ?_, h1, h2, h3⟩
        rw [← hdec, List.append_assoc]
        rfl
    · rcases ihl with h | ⟨last, hlast, hle⟩
      · exact Or.inl h
      · exact Or.inr ⟨last, by rw [List.getLast?_cons_cons]; exact hlast, hle⟩

/-- A range between the end of bank `q` and the start of its successor `n`
holds no frame of any bank of an ascending table. -/
theorem no_bank_frame_in_gap (pre : List membank) (q n : membank) (suf : List membank)
    (hwf : banksWellFormed (pre ++ q :: n :: suf))
    (hasc : banksAscending (pre ++ q :: n :: suf))
    (a b f : Nat) (hqa : q.pfn_end ≤ a) (hbn : b ≤ n.pfn_start) (haf : a ≤ f) (hfb : f < b) :
    ∀ k ∈ pre ++ q :: n :: suf, ¬ k.contains f := by
  intro k hk
  unfold membank.contains
  have hq : q.pfn_start ≤ q.pfn_end := hwf q (by simp)
  have hn : n.pfn_start ≤ n.pfn_end := hwf n (by simp)
  obtain ⟨_, htail, hcross⟩ := List.pairwise_append.mp hasc
  rcases List.mem_append.mp hk with hk | hk
  · have := hcross k hk q (List.mem_cons_self _ _)
    omega
  · rcases List.mem_cons.mp hk with rfl | hk
    · omega
    · rcases List.mem_cons.mp hk with rfl | hk
      · omega
      · have := (List.pairwise_cons.mp (List.pairwise_cons.mp htail).2).1 k hk
        omega

/-- A range at or after the end of the last bank holds no frame of any bank of
an ascending table. -/
theorem no_bank_frame_after_last (bank : List membank) (last : membank)
    (hwf : banksWellFormed bank) (hasc : banksAscending bank)
    (hlast : bank.getLast? = some last) (a f : Nat) (hla : last.pfn_end ≤ a) (haf : a ≤ f) :
    ∀ k ∈ bank, ¬ k.contains f := by
  intro k hk
  unfold membank.contains
  obtain ⟨ys, hys⟩ := List.getLast?_eq_some_iff.mp hlast
  subst hys
  have hl : last.pfn_start ≤ last.pfn_end := hwf last (by simp)
  obtain ⟨_, _, hcross⟩ := List.pairwise_append.mp hasc
  rcases List.mem_append.mp hk with hk | hk
  · have := hcross k hk last (List.mem_singleton_self _)
    omega
  · have : k = last := by simpa using hk
    rw [this]
    omega

/-! ## Theorems on `free_unused_memmap` and `free_memmap` -/

/-- C9: for every bank table in ascending address order with non-overlapping
(well-formed) banks, in the flat and in the sparse configuration alike, every
frame range that `free_unused_memmap` passes to `free_memmap` starts at or
after the end of a bank and ends at or before the start of the next bank, or
starts at or after the end of the last bank; it contains no frame that belongs
to any bank. -/
theorem free_unused_memmap_safe (cfg : MemmapConfig) (bank : List membank)
    (hU : ∀ b ∈ bank, b.pfn_end < ULONG_SIZE)
    (hwf : banksWellFormed bank) (hasc : banksAscending bank)
    (c : Nat × Nat) (hc : c ∈ free_unused_memmap cfg bank) :
    ((∃ pre q n suf, bank = pre ++ q :: n :: suf ∧ q.pfn_end ≤ c.1 ∧ c.2 ≤ n.pfn_start) ∨
      (∃ last, bank.getLast? = some last ∧ last.pfn_end ≤ c.1)) ∧
    ∀ f, c.1 ≤ f → f < c.2 → ∀ k ∈ bank, ¬ k.contains f := by
  have hpos : ((∃ pre q n suf, bank = pre ++ q :: n :: suf ∧ q.pfn_end ≤ c.1 ∧
        c.2 ≤ n.pfn_start) ∨
      (∃ last, bank.getLast? = some last ∧ last.pfn_end ≤ c.1)) := by
    cases bank with
    | nil =>
      simp [free_unused_memmap, free_unused_memmap_banks, IS_ALIGNED] at hc
    | cons first rest =>
      have hfU : first.pfn_end < ULONG_SIZE := hU first (List.mem_cons_self _ _)
      have hU2 : ∀ b ∈ rest, b.pfn_end < ULONG_SIZE :=
        fun b hb => hU b (List.mem_cons_of_mem _ hb)
      obtain ⟨hcalls, hexit⟩ := free_unused_memmap_banks_spec cfg rest [] first
        (ALIGN first.pfn_end (MAX_ORDER_NR_PAGES cfg))
        (ALIGN_zero_or_ge first.pfn_end (MAX_ORDER_NR_PAGES cfg) hfU
          (MAX_ORDER_NR_PAGES_pos cfg)) hU2
      simp only [free_unused_memmap, free_unused_memmap_banks, ne_eq, not_true_eq_false,
        false_and, if_false, List.nil_append] at hc
      rcases List.mem_append.mp hc with hc | hc
      · obtain ⟨pre, q, n, suf, hdec, h1, _, h3⟩ := hcalls c hc
        exact Or.inl ⟨pre, q, n, suf, hdec, h1, h3⟩
      · right
        by_cases hcond : cfg.CONFIG_SPARSEMEM = true ∧
            ¬ IS_ALIGNED (free_unused_memmap_banks cfg rest
              (ALIGN first.pfn_end (MAX_ORDER_NR_PAGES cfg))).2 (PAGES_PER_SECTION cfg)
        · rw [if_pos hcond] at hc
          have hce : c.1 = (free_unused_memmap_banks cfg rest
              (ALIGN first.pfn_end (MAX_ORDER_NR_PAGES cfg))).2 := by
            have := List.mem_singleton.mp hc
            rw [this]
          rcases hexit with h0 | ⟨last, hlast, hle⟩
          · exfalso
            apply hcond.2
            unfold IS_ALIGNED
            rw [h0]
            exact Nat.zero_mod _
          · exact ⟨last, hlast, by rw [hce]; exact hle⟩
        · rw [if_neg hcond] at hc
          simp at hc
  refine ⟨hpos, fun f haf hfb => ?_⟩
  rcases hpos with ⟨pre, q, n, suf, hdec, h1, h3⟩ | ⟨last, hlast, hle⟩
  · subst hdec
    exact no_bank_frame_in_gap pre q n suf hwf hasc c.1 c.2 f h1 h3 haf hfb
  · exact no_bank_frame_after_last bank last hwf hasc hlast c.1 f hle haf

/-- Scenario B widened to the alignment boundary: banks 0..1000 and 5000..6000
with `MAX_ORDER_NR_PAGES = 1024`.  The flat configuration frees the descriptors
of frames 1024..4096, the sparse one (sections of 65536 frames) those of
1024..5000 and 6144..65536; the flat range is an instance of C9. -/
theorem free_unused_memmap_safe_witness :
    free_unused_memmap ⟨false, 11, 16⟩ [⟨0, 1000, false⟩, ⟨5000, 6000, false⟩] =
      [(1024, 4096)] ∧
    free_unused_memmap ⟨true, 11, 16⟩ [⟨0, 1000, false⟩, ⟨5000, 6000, false⟩] =
      [(1024, 5000), (6144, 65536)] ∧
    (((∃ pre q n suf, [(⟨0, 1000, false⟩ : membank), ⟨5000, 6000, false⟩] =
          pre ++ q :: n :: suf ∧ q.pfn_end ≤ 1024 ∧ 4096 ≤ n.pfn_start) ∨
      (∃ last, [(⟨0, 1000, false⟩ : membank), ⟨5000, 6000, false⟩].getLast? = some last ∧
          last.pfn_end ≤ 1024)) ∧
    ∀ f, 1024 ≤ f → f < 4096 →
      ∀ k ∈ [(⟨0, 1000, false⟩ : membank), ⟨5000, 6000, false⟩], ¬ k.contains f) :=
  ⟨by decide, by decide,
   free_unused_memmap_safe ⟨false, 11, 16⟩ [⟨0, 1000, false⟩, ⟨5000, 6000, false⟩]
     (by decide) (by decide) (by decide) (1024, 4096) (by decide)⟩

/-- C10 (as stated, for every frame range) fails when the descriptor of
`start_pfn` lies in the last page of the 32-bit physical address space:
`PAGE_ALIGN` wraps to 0.  With 32-byte descriptors at `0xffff0000`, the frames
2041..2047 are backed by the 192 bytes from `0xffffff20` up to `0xffffffe0`,
which hold no whole page, yet `free_memmap` calls `free_bootmem(0,
0xfffff000)`, a range that starts far below the descriptor bytes. -/
theorem free_memmap_safe_counterexample :
    (fun pfn => 0xffff0000 + 32 * pfn) 2041 = 0xffffff20 ∧
    (fun pfn => 0xffff0000 + 32 * pfn) 2047 = 0xffffffe0 ∧
    (fun pfn => 0xffff0000 + 32 * pfn) 2047 < ULONG_SIZE ∧
    (fun pfn => 0xffff0000 + 32 * pfn) 2047 / PAGE_SIZE * PAGE_SIZE ≤
      ((fun pfn => 0xffff0000 + 32 * pfn) 2041 + (PAGE_SIZE - 1)) / PAGE_SIZE * PAGE_SIZE ∧
    free_memmap (fun pfn => 0xffff0000 + 32 * pfn) 2041 2047 = [(0, 0xfffff000)] ∧
    ¬ ∀ c ∈ free_memmap (fun pfn => 0xffff0000 + 32 * pfn) 2041 2047,
      (fun pfn => 0xffff0000 + 32 * pfn) 2041 ≤ c.1 ∧
      c.1 + c.2 ≤ (fun pfn => 0xffff0000 + 32 * pfn) 2047 := by
  decide

/-- C10 (amended): for every frame range whose descriptor bytes start at or
below the last page boundary of the 32-bit physical address space (so that
rounding the start up to a page boundary does not wrap), `free_memmap` calls
`free_bootmem` at
most once, and only with a byte range that is non-empty, starts and ends on a
page boundary and lies within the descriptor bytes backing the frame range
(from `memmap_pa start_pfn` up to `memmap_pa end_pfn`); it makes no call
exactly when rounding the start up and the end down to page boundaries leaves
no whole page. -/
theorem free_memmap_safe (memmap_pa : Nat → Nat) (start_pfn end_pfn : Nat)
    (hs : memmap_pa start_pfn + PAGE_SIZE ≤ ULONG_SIZE)
    (he : memmap_pa end_pfn < ULONG_SIZE) :
    (free_memmap memmap_pa start_pfn end_pfn).length ≤ 1 ∧
    (∀ c ∈ free_memmap memmap_pa start_pfn end_pfn,
      0 < c.2 ∧ c.1 % PAGE_SIZE = 0 ∧ (c.1 + c.2) % PAGE_SIZE = 0 ∧
      memmap_pa start_pfn ≤ c.1 ∧ c.1 + c.2 ≤ memmap_pa end_pfn) ∧
    (free_memmap memmap_pa start_pfn end_pfn = [] ↔
      memmap_pa end_pfn / PAGE_SIZE * PAGE_SIZE ≤
        (memmap_pa start_pfn + (PAGE_SIZE - 1)) / PAGE_SIZE * PAGE_SIZE) := by
  unfold free_memmap PAGE_ALIGN ALIGN round_down uadd usub
  simp only []
  generalize memmap_pa start_pfn = s at *
  generalize memmap_pa end_pfn = e at *
  have hP : PAGE_SIZE = 4096 := by decide
  have hUL : ULONG_SIZE = 4294967296 := by decide
  rw [hP, hUL] at hs
  rw [hUL] at he
  rw [hP, hUL]
  by_cases hlt : (s + (4096 - 1)) % 4294967296 / 4096 * 4096 < e / 4096 * 4096
  · rw [if_pos hlt]
    refine ⟨by simp, ?_, ?_⟩
    · intro c hc
      have hce := List.mem_singleton.mp hc
      rw [hce]
      simp only []
      omega
    · constructor
      · intro h; simp at h
      · intro h; omega
  · rw [if_neg hlt]
    refine ⟨by simp, ?_, ?_⟩
    · intro c hc; simp at hc
    · constructor
      · intro _; omega
      · intro _; rfl

/-- A descriptor array at physical address 0x1000000 with 32-byte descriptors:
for frames 1024..4096 `free_memmap` makes the single call
`free_bootmem(0x1008000, 0x18000)`. -/
theorem free_memmap_safe_witness :
    free_memmap (fun pfn => 0x1000000 + 32 * pfn) 1024 4096 = [(0x1008000, 0x18000)] ∧
    ((free_memmap (fun pfn => 0x1000000 + 32 * pfn) 1024 4096).length ≤ 1 ∧
    (∀ c ∈ free_memmap (fun pfn => 0x1000000 + 32 * pfn) 1024 4096,
      0 < c.2 ∧ c.1 % PAGE_SIZE = 0 ∧ (c.1 + c.2) % PAGE_SIZE = 0 ∧
      (fun pfn => 0x1000000 + 32 * pfn) 1024 ≤ c.1 ∧
      c.1 + c.2 ≤ (fun pfn => 0x1000000 + 32 * pfn) 4096) ∧
    (free_memmap (fun pfn => 0x1000000 + 32 * pfn) 1024 4096 = [] ↔
      (fun pfn => 0x1000000 + 32 * pfn) 4096 / PAGE_SIZE * PAGE_SIZE ≤
        ((fun pfn => 0x1000000 + 32 * pfn) 1024 + (PAGE_SIZE - 1)) / PAGE_SIZE *
          PAGE_SIZE)) :=
  ⟨by decide,
   free_memmap_safe (fun pfn => 0x1000000 + 32 * pfn) 1024 4096 (by decide) (by decide)⟩

/-! ## Theorems on `arm_memblock_init` and the module state -/

theorem arm_memblock_init_banks_initrd {σ : Type} (ops : MemblockOps σ) (pf : Platform σ)
    (st : InitGlobals σ) (mi : List (Nat × Nat)) :
    (arm_memblock_init_banks ops pf st mi).phys_initrd_start = st.phys_initrd_start ∧
    (arm_memblock_init_banks ops pf st mi).phys_initrd_size = st.phys_initrd_size ∧
    (arm_memblock_init_banks ops pf st mi).arm_dma_limit = st.arm_dma_limit :=
  ⟨rfl, rfl, rfl⟩

/-- The ramdisk block drops a ramdisk of non-zero size that is not inside
memory or overlaps a reserved region, leaving the tables as they are. -/
theorem arm_memblock_init_initrd_dropped {σ : Type} (ops : MemblockOps σ) (pf : Platform σ)
    (s : InitGlobals σ) (hsize : s.phys_initrd_size ≠ 0)
    (hbad : ops.memblock_is_region_memory s.memblock s.phys_initrd_start
        s.phys_initrd_size = false ∨
      ops.memblock_is_region_reserved s.memblock s.phys_initrd_start
        s.phys_initrd_size = true) :
    arm_memblock_init_initrd ops pf s =
      { s with phys_initrd_start := 0, phys_initrd_size := 0 } := by
  cases hm : ops.memblock_is_region_memory s.memblock s.phys_initrd_start s.phys_initrd_size
  · simp [arm_memblock_init_initrd, hm, hsize]
  · cases hr : ops.memblock_is_region_reserved s.memblock s.phys_initrd_start
        s.phys_initrd_size
    · rw [hm, hr] at hbad
      simp at hbad
    · simp [arm_memblock_init_initrd, hm, hr, hsize]

/-- The ramdisk block reserves a ramdisk of non-zero size that is inside memory
and overlaps no reserved region. -/
theorem arm_memblock_init_initrd_kept {σ : Type} (ops : MemblockOps σ) (pf : Platform σ)
    (s : InitGlobals σ) (hsize : s.phys_initrd_size ≠ 0)
    (hm : ops.memblock_is_region_memory s.memblock s.phys_initrd_start
        s.phys_initrd_size = true)
    (hr : ops.memblock_is_region_reserved s.memblock s.phys_initrd_start
        s.phys_initrd_size = false) :
    arm_memblock_init_initrd ops pf s =
      { s with
        memblock := ops.memblock_reserve s.memblock s.phys_initrd_start s.phys_initrd_size,
        initrd_start := pf.phys_to_virt s.phys_initrd_start,
        initrd_end := uadd (pf.phys_to_virt s.phys_initrd_start) s.phys_initrd_size } := by
  simp [arm_memblock_init_initrd, hm, hr, hsize]

/-- C11: in `arm_memblock_init` with a ramdisk of non-zero size, let `mb` be the
memblock tables after the banks and the kernel image are registered.  If the
ramdisk region is not wholly inside present memory or overlaps a reserved
region of `mb`, then `phys_initrd_start` and `phys_initrd_size` end up 0 and
the tables are `mb` followed by the remaining reservations only (nothing is
reserved for the ramdisk); otherwise the tables are `mb` with exactly
`memblock_reserve(phys_initrd_start, phys_initrd_size)` applied, followed by
the remaining reservations, and the ramdisk location is kept. -/
theorem arm_memblock_init_ramdisk {σ : Type} (ops : MemblockOps σ) (pf : Platform σ)
    (st : InitGlobals σ) (mi : List (Nat × Nat)) (mdesc : machine_desc σ)
    (hcfg : pf.CONFIG_BLK_DEV_INITRD = true) (hsize : st.phys_initrd_size ≠ 0) :
    ((ops.memblock_is_region_memory (arm_memblock_init_banks ops pf st mi).memblock
          st.phys_initrd_start st.phys_initrd_size = false ∨
        ops.memblock_is_region_reserved (arm_memblock_init_banks ops pf st mi).memblock
          st.phys_initrd_start st.phys_initrd_size = true) →
      (arm_memblock_init ops pf st mi mdesc).phys_initrd_start = 0 ∧
      (arm_memblock_init ops pf st mi mdesc).phys_initrd_size = 0 ∧
      (arm_memblock_init ops pf st mi mdesc).memblock =
        arm_memblock_init_reservations ops pf mdesc st.arm_dma_limit
          (arm_memblock_init_banks ops pf st mi).memblock) ∧
    ((ops.memblock_is_region_memory (arm_memblock_init_banks ops pf st mi).memblock
          st.phys_initrd_start st.phys_initrd_size = true ∧
        ops.memblock_is_region_reserved (arm_memblock_init_banks ops pf st mi).memblock
          st.phys_initrd_start st.phys_initrd_size = false) →
      (arm_memblock_init ops pf st mi mdesc).phys_initrd_start = st.phys_initrd_start ∧
      (arm_memblock_init ops pf st mi mdesc).phys_initrd_size = st.phys_initrd_size ∧
      (arm_memblock_init ops pf st mi mdesc).memblock =
        arm_memblock_init_reservations ops pf mdesc st.arm_dma_limit
          (ops.memblock_reserve (arm_memblock_init_banks ops pf st mi).memblock
            st.phys_initrd_start st.phys_initrd_size)) := by
  have hunf : arm_memblock_init ops pf st mi mdesc =
      { arm_memblock_init_initrd ops pf (arm_memblock_init_banks ops pf st mi) with
        memblock := arm_memblock_init_reservations ops pf mdesc
          (arm_memblock_init_initrd ops pf (arm_memblock_init_banks ops pf st mi)).arm_dma_limit
          (arm_memblock_init_initrd ops pf (arm_memblock_init_banks ops pf st mi)).memblock,
        arm_memblock_steal_permitted := false } := by
    simp only [arm_memblock_init, hcfg, if_true]
  rw [hunf]
  constructor
  · intro hbad
    rw [arm_memblock_init_initrd_dropped ops pf (arm_memblock_init_banks ops pf st mi)
      hsize hbad]
    exact ⟨rfl, rfl, rfl⟩
  · rintro ⟨hmem, hres⟩
    rw [arm_memblock_init_initrd_kept ops pf (arm_memblock_init_banks ops pf st mi)
      hsize hmem hres]
    exact ⟨rfl, rfl, rfl⟩

/-- For `phys_initrd_start = 0x400000` and size `0x800000` the ramdisk overlaps
the kernel image reserved at `0x8000`: it is dropped and only the kernel and
page-table reservations remain; at `0x1000000` it is kept and reserved. -/
theorem arm_memblock_init_ramdisk_witness :
    (arm_memblock_init specMemblockOps examplePlatform
      (early_initrd (InitGlobals.boot (⟨[], []⟩ : memblock)) 0x1000000 true 0x800000)
      [(0, 0x10000000)] exampleMachine).memblock =
        ⟨[⟨0, 0x10000000⟩], [⟨0x4000, 0x404000⟩, ⟨0x1000000, 0x800000⟩]⟩ ∧
    (arm_memblock_init specMemblockOps examplePlatform
      (early_initrd (InitGlobals.boot (⟨[], []⟩ : memblock)) 0x400000 true 0x800000)
      [(0, 0x10000000)] exampleMachine).memblock =
        ⟨[⟨0, 0x10000000⟩], [⟨0x4000, 0x404000⟩]⟩ ∧
    ((arm_memblock_init specMemblockOps examplePlatform
        (early_initrd (InitGlobals.boot (⟨[], []⟩ : memblock)) 0x400000 true 0x800000)
        [(0, 0x10000000)] exampleMachine).phys_initrd_start = 0 ∧
      (arm_memblock_init specMemblockOps examplePlatform
        (early_initrd (InitGlobals.boot (⟨[], []⟩ : memblock)) 0x400000 true 0x800000)
        [(0, 0x10000000)] exampleMachine).phys_initrd_size = 0 ∧
      (arm_memblock_init specMemblockOps examplePlatform
        (early_initrd (InitGlobals.boot (⟨[], []⟩ : memblock)) 0x400000 true 0x800000)
        [(0, 0x10000000)] exampleMachine).memblock =
          arm_memblock_init_reservations specMemblockOps examplePlatform exampleMachine
            (early_initrd (InitGlobals.boot (⟨[], []⟩ : memblock)) 0x400000 true 0x800000).arm_dma_limit
            (arm_memblock_init_banks specMemblockOps examplePlatform
              (early_initrd (InitGlobals.boot (⟨[], []⟩ : memblock)) 0x400000 true 0x800000)
              [(0, 0x10000000)]).memblock) :=
  ⟨by decide, by decide,
   (arm_memblock_init_ramdisk specMemblockOps examplePlatform
      (early_initrd (InitGlobals.boot (⟨[], []⟩ : memblock)) 0x400000 true 0x800000)
      [(0, 0x10000000)] exampleMachine rfl (by decide)).1 (Or.inr (by decide))⟩

/-! ## The steal permission -/

/-- No call turns the steal permission back on: from a state where it is off,
every call ends in a state where it is off. -/
theorem exec_keeps_steal_forbidden {σ : Type} (ops : MemblockOps σ) (pf : Platform σ)
    (st : InitGlobals σ) (c : Call σ) (h : st.arm_memblock_steal_permitted = false) :
    (exec ops pf st c).state.arm_memblock_steal_permitted = false := by
  cases c with
  | early_initrd start comma size =>
    simp only [exec, Outcome.state, early_initrd]
    split_ifs <;> exact h
  | parse_tag_initrd a b => exact h
  | parse_tag_initrd2 a b => exact h
  | early_init_dt_setup_initrd_arch a b => exact h
  | show_mem f => exact h
  | setup_dma_zone mdesc =>
    simp only [exec, Outcome.state, setup_dma_zone]
    split_ifs <;> exact h
  | pfn_valid p => exact h
  | arm_memblock_steal size align =>
    simp only [exec, arm_memblock_steal, h, if_true, Outcome.state]
  | arm_memblock_init mi mdesc => rfl
  | bootmem_init meminfo =>
    simp only [exec, bootmem_init]
    split
    · exact h
    · split
      · exact h
      · exact h
  | mem_init meminfo => exact h
  | free_initmem => exact h
  | free_initrd_mem a b => exact h
  | keepinitrd_setup => exact h

theorem run_keeps_steal_forbidden {σ : Type} (ops : MemblockOps σ) (pf : Platform σ)
    (calls : List (Call σ)) :
    ∀ st : InitGlobals σ, st.arm_memblock_steal_permitted = false →
      (run ops pf st calls).state.arm_memblock_steal_permitted = false := by
  induction calls with
  | nil => intro st h; exact h
  | cons c rest ih =>
    intro st h
    have hc := exec_keeps_steal_forbidden ops pf st c h
    simp only [run]
    cases he : exec ops pf st c with
    | ok r st1 =>
      rw [he] at hc
      exact ih st1 hc
    | bug st1 => rw [he] at hc; exact hc
    | fatal st1 => rw [he] at hc; exact hc
    | undefined st1 => rw [he] at hc; exact hc

/-- C12: the steal permission is a one-way switch.  It is on at boot,
`arm_memblock_init` returns with it off, no call of the file turns it on again,
and therefore in every state reached by any sequence of calls after
`arm_memblock_init` has returned it is off and `arm_memblock_steal` stops at
its `BUG_ON` in that very state, the memblock tables untouched. -/
theorem arm_memblock_steal_forbidden_after_init {σ : Type} (ops : MemblockOps σ)
    (pf : Platform σ) :
    (∀ mb : σ, (InitGlobals.boot mb).arm_memblock_steal_permitted = true) ∧
    (∀ st mi mdesc,
      (arm_memblock_init ops pf st mi mdesc).arm_memblock_steal_permitted = false) ∧
    (∀ st c, st.arm_memblock_steal_permitted = false →
      (exec ops pf st c).state.arm_memblock_steal_permitted = false) ∧
    (∀ st mi mdesc calls size align,
      (run ops pf (arm_memblock_init ops pf st mi mdesc)
        calls).state.arm_memblock_steal_permitted = false ∧
      arm_memblock_steal ops pf
        (run ops pf (arm_memblock_init ops pf st mi mdesc) calls).state size align =
        Outcome.bug (run ops pf (arm_memblock_init ops pf st mi mdesc) calls).state) := by
  refine ⟨fun _ => rfl, fun _ _ _ => rfl, exec_keeps_steal_forbidden ops pf, ?_⟩
  intro st mi mdesc calls size align
  have h := run_keeps_steal_forbidden ops pf calls (arm_memblock_init ops pf st mi mdesc) rfl
  refine ⟨h, ?_⟩
  simp only [arm_memblock_steal, h, if_true]

/-- Before `arm_memblock_init` a steal of 4096 bytes succeeds and takes the
lowest page of memory; after `arm_memblock_init`, `bootmem_init` and a late
`early_initrd`, the steal stops at its `BUG_ON` and the permission is off. -/
theorem arm_memblock_steal_forbidden_after_init_witness :
    (arm_memblock_steal specMemblockOps examplePlatform
      (InitGlobals.boot (⟨[⟨0, 0x10000000⟩], []⟩ : memblock)) 4096 4096).returned = true ∧
    (arm_memblock_steal specMemblockOps examplePlatform
      (InitGlobals.boot (⟨[⟨0, 0x10000000⟩], []⟩ : memblock)) 4096 4096).state.memblock =
        ⟨[⟨4096, 0x10000000 - 4096⟩], []⟩ ∧
    (arm_memblock_steal specMemblockOps examplePlatform
      (run specMemblockOps examplePlatform
        (arm_memblock_init specMemblockOps examplePlatform (InitGlobals.boot (⟨[], []⟩ : memblock))
          [(0, 0x10000000)] exampleMachine)
        [Call.bootmem_init [⟨0, 0x10000, false⟩], Call.early_initrd 0x1000000 true 0x800000]).state
      4096 4096).isBug = true ∧
    ((run specMemblockOps examplePlatform
        (arm_memblock_init specMemblockOps examplePlatform (InitGlobals.boot (⟨[], []⟩ : memblock))
          [(0, 0x10000000)] exampleMachine)
        [Call.bootmem_init [⟨0, 0x10000, false⟩],
          Call.early_initrd 0x1000000 true 0x800000]).state.arm_memblock_steal_permitted =
        false ∧
      arm_memblock_steal specMemblockOps examplePlatform
        (run specMemblockOps examplePlatform
          (arm_memblock_init specMemblockOps examplePlatform (InitGlobals.boot (⟨[], []⟩ : memblock))
            [(0, 0x10000000)] exampleMachine)
          [Call.bootmem_init [⟨0, 0x10000, false⟩],
            Call.early_initrd 0x1000000 true 0x800000]).state 4096 4096 =
        Outcome.bug (run specMemblockOps examplePlatform
          (arm_memblock_init specMemblockOps examplePlatform (InitGlobals.boot (⟨[], []⟩ : memblock))
            [(0, 0x10000000)] exampleMachine)
          [Call.bootmem_init [⟨0, 0x10000, false⟩],
            Call.early_initrd 0x1000000 true 0x800000]).state) :=
  ⟨by decide, by decide, by decide,
   (arm_memblock_steal_forbidden_after_init specMemblockOps examplePlatform).2.2.2
     (InitGlobals.boot (⟨[], []⟩ : memblock)) [(0, 0x10000000)] exampleMachine
     [Call.bootmem_init [⟨0, 0x10000, false⟩], Call.early_initrd 0x1000000 true 0x800000]
     4096 4096⟩

/-! ## The ramdisk sources -/

/-- A ramdisk source returns, and records its pair when it succeeds, whatever
was recorded before; when it does not succeed the recorded pair stays. -/
theorem exec_initrd_source {σ : Type} (ops : MemblockOps σ) (pf : Platform σ)
    (st : InitGlobals σ) (c : Call σ) (hc : c.is_initrd_source = true) :
    ∃ st1, exec ops pf st c = Outcome.ok () st1 ∧
      st1.initrd = (c.initrd_value pf).getD st.initrd := by
  cases c with
  | early_initrd start comma size =>
    refine ⟨early_initrd st start comma size, rfl, ?_⟩
    cases comma <;> simp [early_initrd, Call.initrd_value, InitGlobals.initrd]
  | parse_tag_initrd a b => exact ⟨_, rfl, rfl⟩
  | parse_tag_initrd2 a b => exact ⟨_, rfl, rfl⟩
  | early_init_dt_setup_initrd_arch a b => exact ⟨_, rfl, rfl⟩
  | show_mem f => simp [Call.is_initrd_source] at hc
  | setup_dma_zone mdesc => simp [Call.is_initrd_source] at hc
  | pfn_valid p => simp [Call.is_initrd_source] at hc
  | arm_memblock_steal size align => simp [Call.is_initrd_source] at hc
  | arm_memblock_init mi mdesc => simp [Call.is_initrd_source] at hc
  | bootmem_init meminfo => simp [Call.is_initrd_source] at hc
  | mem_init meminfo => simp [Call.is_initrd_source] at hc
  | free_initmem => simp [Call.is_initrd_source] at hc
  | free_initrd_mem a b => simp [Call.is_initrd_source] at hc
  | keepinitrd_setup => simp [Call.is_initrd_source] at hc

/-- C14 (as stated) fails: when the tag handler `parse_tag_initrd2` supplies
`(0x1000000, 0x100000)` and the device-tree handler then supplies the range
`0x2000000 .. 0x2800000`, the recorded pair is the later one,
`(0x2000000, 0x800000)`, not the one of the first source that succeeded. -/
theorem initrd_sources_counterexample :
    (Call.parse_tag_initrd2 0x1000000 0x100000 : Call memblock).initrd_value
      examplePlatform = some (0x1000000, 0x100000) ∧
    (run specMemblockOps examplePlatform (InitGlobals.boot (⟨[], []⟩ : memblock))
      [Call.parse_tag_initrd2 0x1000000 0x100000,
        Call.early_init_dt_setup_initrd_arch 0x2000000 0x2800000]).state.initrd =
      (0x2000000, 0x800000) ∧
    (run specMemblockOps examplePlatform (InitGlobals.boot (⟨[], []⟩ : memblock))
      [Call.parse_tag_initrd2 0x1000000 0x100000,
        Call.early_init_dt_setup_initrd_arch 0x2000000 0x2800000]).state.initrd ≠
      (0x1000000, 0x100000) := by
  decide

/-- C14 (amended): when ramdisk sources (`early_initrd`, `parse_tag_initrd`,
`parse_tag_initrd2`, `early_init_dt_setup_initrd_arch`) supply values in
sequence, every call returns and the recorded pair
`(phys_initrd_start, phys_initrd_size)` is the one of the last source that
succeeded; it is the pair recorded before when none succeeded. -/
theorem initrd_sources_last_wins {σ : Type} (ops : MemblockOps σ) (pf : Platform σ)
    (calls : List (Call σ)) (st : InitGlobals σ)
    (hsrc : ∀ c ∈ calls, c.is_initrd_source = true) :
    (run ops pf st calls).returned = true ∧
    (run ops pf st calls).state.initrd =
      ((calls.filterMap (Call.initrd_value pf)).getLast?).getD st.initrd := by
  induction calls generalizing st with
  | nil => exact ⟨rfl, rfl⟩
  | cons c rest ih =>
    obtain ⟨st1, he, hv⟩ := exec_initrd_source ops pf st c (hsrc c (List.mem_cons_self _ _))
    obtain ⟨ih1, ih2⟩ := ih st1 (fun x hx => hsrc x (List.mem_cons_of_mem _ hx))
    simp only [run, he]
    refine ⟨ih1, ?_⟩
    rw [ih2, hv, List.filterMap_cons]
    cases hval : Call.initrd_value pf c with
    | none => simp
    | some v => simp [List.getLast?_cons]

/-- Command line after tag: `parse_tag_initrd2` supplies `(0x1000000, 0x100000)`,
an `early_initrd` without a comma fails, `early_initrd` with
`0x3000000,0x200000` succeeds: the recorded pair is `(0x3000000, 0x200000)`. -/
theorem initrd_sources_last_wins_witness :
    (run specMemblockOps examplePlatform (InitGlobals.boot (⟨[], []⟩ : memblock))
      [Call.parse_tag_initrd2 0x1000000 0x100000, Call.early_initrd 0x5000000 false 0,
        Call.early_initrd 0x3000000 true 0x200000]).state.initrd = (0x3000000, 0x200000) ∧
    ((run specMemblockOps examplePlatform (InitGlobals.boot (⟨[], []⟩ : memblock))
      [Call.parse_tag_initrd2 0x1000000 0x100000, Call.early_initrd 0x5000000 false 0,
        Call.early_initrd 0x3000000 true 0x200000]).returned = true ∧
    (run specMemblockOps examplePlatform (InitGlobals.boot (⟨[], []⟩ : memblock))
      [Call.parse_tag_initrd2 0x1000000 0x100000, Call.early_initrd 0x5000000 false 0,
        Call.early_initrd 0x3000000 true 0x200000]).state.initrd =
      (([Call.parse_tag_initrd2 0x1000000 0x100000, Call.early_initrd 0x5000000 false 0,
        Call.early_initrd 0x3000000 true 0x200000].filterMap
          (Call.initrd_value examplePlatform)).getLast?).getD
        (InitGlobals.boot (⟨[], []⟩ : memblock)).initrd) :=
  ⟨by decide,
   initrd_sources_last_wins specMemblockOps examplePlatform
     [Call.parse_tag_initrd2 0x1000000 0x100000, Call.early_initrd 0x5000000 false 0,
       Call.early_initrd 0x3000000 true 0x200000]
     (InitGlobals.boot (⟨[], []⟩ : memblock)) (by decide)⟩

/-! ## Reserved intervals beyond the low range -/

/-- The reserved loop of `arm_bootmem_init` is the sequence of its
`reserve_bootmem` calls. -/
theorem arm_bootmem_init_reserved_eq_calls (e : Nat) (tbl : List Interval) :
    ∀ bd, arm_bootmem_init_reserved e tbl bd =
      (arm_bootmem_init_reserved_calls e tbl).foldl
        (fun bd c => reserve_bootmem bd c.1 c.2) bd := by
  induction tbl with
  | nil => intro bd; rfl
  | cons r rest ih =>
    intro bd
    simp only [arm_bootmem_init_reserved, arm_bootmem_init_reserved_calls]
    split_ifs
    · rfl
    · rw [List.foldl_cons]; exact ih _
    · rfl
    · rw [List.foldl_cons]; exact ih _

/-- C13 (as stated) fails: with memory 0..100 (`min = 0`, `max_low = 100`) and
the reserved table 200..210, `arm_bootmem_init(0, 100)` completes normally.
Its `memblock_alloc_base` reserves the page of the bitmap, so the reserved loop
walks the table 0..1, 200..210: it makes the one call `reserve_bootmem` for
0..1, is left at 200..210 without any report, and the bitmap has 99 free frames
and 1 reserved frame.  `bootmem_init` on the bank 0..100 returns normally. -/
theorem arm_bootmem_init_outside_reserved_counterexample :
    (arm_bootmem_init_alloc specMemblockOps examplePlatform
      (⟨[⟨0, 100 * 4096⟩], [⟨200 * 4096, 10 * 4096⟩]⟩ : memblock) 0 100).isSome = true ∧
    (arm_bootmem_init_alloc specMemblockOps examplePlatform
      (⟨[⟨0, 100 * 4096⟩], [⟨200 * 4096, 10 * 4096⟩]⟩ : memblock) 0 100).map
        (fun r => specMemblockOps.reserved_regions r.2) = some [⟨0, 1⟩, ⟨200, 210⟩] ∧
    arm_bootmem_init_reserved_calls 100 [⟨0, 1⟩, ⟨200, 210⟩] = [(0, 1)] ∧
    (arm_bootmem_init_alloc specMemblockOps examplePlatform
      (⟨[⟨0, 100 * 4096⟩], [⟨200 * 4096, 10 * 4096⟩]⟩ : memblock) 0 100).map
        (fun r => (r.1.freeCount, r.1.reservedCount)) = some (99, 1) ∧
    find_limits [⟨0, 100, false⟩] = some (0, 100, 100) ∧
    (bootmem_init specMemblockOps examplePlatform
      (InitGlobals.boot (⟨[⟨0, 100 * 4096⟩], [⟨200 * 4096, 10 * 4096⟩]⟩ : memblock))
      [⟨0, 100, false⟩]).returned = true ∧
    ((bootmem_init specMemblockOps examplePlatform
      (InitGlobals.boot (⟨[⟨0, 100 * 4096⟩], [⟨200 * 4096, 10 * 4096⟩]⟩ : memblock))
      [⟨0, 100, false⟩]).state.bootmem.map
        (fun bd => (bd.freeCount, bd.reservedCount))) = some (99, 1) := by
  decide

/-- Every `reserve_bootmem` call of the reserved loop is for a non-empty frame
range that ends at or below `end_pfn`. -/
theorem arm_bootmem_init_reserved_calls_below (e : Nat) (tbl : List Interval) :
    ∀ c ∈ arm_bootmem_init_reserved_calls e tbl, c.1 < c.2 ∧ c.2 ≤ e := by
  induction tbl with
  | nil => intro c hc; simp [arm_bootmem_init_reserved_calls] at hc
  | cons r rest ih =>
    intro c hc
    simp only [arm_bootmem_init_reserved_calls] at hc
    split_ifs at hc with h1 h2 h2
    · simp at hc
    · rcases List.mem_cons.mp hc with rfl | hc
      · simp only []; omega
      · exact ih c hc
    · simp at hc
    · rcases List.mem_cons.mp hc with rfl | hc
      · simp only []; omega
      · exact ih c hc

/-- The reserved loop is left at the first interval that starts at or beyond
`end_pfn`: the calls made on a table are those made on the part of the table
before that interval. -/
theorem arm_bootmem_init_reserved_calls_outside (e : Nat) (r : Interval)
    (suf : List Interval) (hout : e ≤ r.start_pfn) :
    ∀ pre, arm_bootmem_init_reserved_calls e (pre ++ r :: suf) =
      arm_bootmem_init_reserved_calls e pre := by
  intro pre
  induction pre with
  | nil =>
    simp only [List.nil_append, arm_bootmem_init_reserved_calls]
    split_ifs <;> first | rfl | omega
  | cons q rest ih =>
    simp only [List.cons_append, arm_bootmem_init_reserved_calls]
    split_ifs
    · rfl
    · exact congrArg _ ih
    · rfl
    · exact congrArg _ ih

/-- With the tables that the allocation of the bitmap leaves, `bootmem_init`
continues with the bitmap of `arm_bootmem_init_alloc` and returns. -/
theorem bootmem_init_returns_of_alloc {σ : Type} (ops : MemblockOps σ) (pf : Platform σ)
    (st : InitGlobals σ) (meminfo : List membank) (min_pfn max_low max_high : Nat)
    (bd : BootmemData) (mb1 : σ)
    (hlimits : find_limits meminfo = some (min_pfn, max_low, max_high))
    (halloc : arm_bootmem_init_alloc ops pf st.memblock min_pfn max_low = some (bd, mb1)) :
    (bootmem_init ops pf st meminfo).returned = true ∧
    (bootmem_init ops pf st meminfo).state.bootmem = some (pf.sparse_init bd) := by
  unfold arm_bootmem_init_alloc at halloc
  unfold bootmem_init
  simp only [hlimits]
  cases h : ops.memblock_alloc_base st.memblock
      ((pf.bootmem_bootmap_pages (usub max_low min_pfn) * PAGE_SIZE) % ULONG_SIZE)
      pf.L1_CACHE_BYTES (pfn_to_phys max_low) with
  | none => simp [h] at halloc
  | some r =>
    simp only [h, Option.some.injEq, Prod.mk.injEq] at halloc
    obtain ⟨h1, h2⟩ := halloc
    subst h2
    refine ⟨rfl, ?_⟩
    simp only [Outcome.state]
    rw [h1]

/-- C13 (amended): a reserved interval `r` that starts at or beyond `max_low`
is not rejected; `arm_bootmem_init(min, max_low)` has no error path.  Whenever
the bitmap pages can be allocated and the reserved table then reads
`pre ++ r :: suf`, the function completes normally with the bitmap built from
`pre` alone: the reserved loop is left at `r`, the `reserve_bootmem` calls are
those for `pre`, each for a non-empty range ending at or below `max_low` and
hence below `r`, and `bootmem_init` returns on every bank table with these
limits. -/
theorem arm_bootmem_init_outside_reserved {σ : Type} (ops : MemblockOps σ)
    (pf : Platform σ) (mb mb1 : σ) (min_pfn max_low phys : Nat)
    (pre suf : List Interval) (r : Interval)
    (halloc : ops.memblock_alloc_base mb
      ((pf.bootmem_bootmap_pages (usub max_low min_pfn) * PAGE_SIZE) % ULONG_SIZE)
      pf.L1_CACHE_BYTES (pfn_to_phys max_low) = some (phys, mb1))
    (htbl : ops.reserved_regions mb1 = pre ++ r :: suf)
    (hout : max_low ≤ r.start_pfn) :
    arm_bootmem_init_alloc ops pf mb min_pfn max_low =
      some (arm_bootmem_init min_pfn max_low (ops.memory_regions mb1) pre, mb1) ∧
    arm_bootmem_init_reserved_calls max_low (ops.reserved_regions mb1) =
      arm_bootmem_init_reserved_calls max_low pre ∧
    (∀ c ∈ arm_bootmem_init_reserved_calls max_low (ops.reserved_regions mb1),
      c.1 < c.2 ∧ c.2 ≤ max_low ∧ c.2 ≤ r.start_pfn) ∧
    (∀ (st : InitGlobals σ) (meminfo : List membank) (max_high : Nat),
      st.memblock = mb → find_limits meminfo = some (min_pfn, max_low, max_high) →
      (bootmem_init ops pf st meminfo).returned = true ∧
      (bootmem_init ops pf st meminfo).state.bootmem =
        some (pf.sparse_init
          (arm_bootmem_init min_pfn max_low (ops.memory_regions mb1) pre))) := by
  have hcalls := arm_bootmem_init_reserved_calls_outside max_low r suf hout pre
  have hbd : arm_bootmem_init min_pfn max_low (ops.memory_regions mb1)
      (ops.reserved_regions mb1) =
      arm_bootmem_init min_pfn max_low (ops.memory_regions mb1) pre := by
    unfold arm_bootmem_init
    simp only []
    rw [arm_bootmem_init_reserved_eq_calls, arm_bootmem_init_reserved_eq_calls, htbl, hcalls]
  have hfull : arm_bootmem_init_alloc ops pf mb min_pfn max_low =
      some (arm_bootmem_init min_pfn max_low (ops.memory_regions mb1) pre, mb1) := by
    unfold arm_bootmem_init_alloc
    simp only [halloc, hbd]
  refine ⟨hfull, by rw [htbl]; exact hcalls, ?_, ?_⟩
  · intro c hc
    obtain ⟨h1, h2⟩ := arm_bootmem_init_reserved_calls_below max_low _ c hc
    exact ⟨h1, h2, le_trans h2 hout⟩
  · intro st meminfo max_high hst hlimits
    subst hst
    exact bootmem_init_returns_of_alloc ops pf st meminfo min_pfn max_low max_high _ mb1
      hlimits hfull

/-- Scenario D: memory 0..100, reserved 200..210, `min = 0`, `max_low = 100`.
The allocation of the bitmap reserves frame 0, the table reads 0..1, 200..210,
and the function completes with the bitmap built from 0..1 alone, which has 99
free frames and 1 reserved frame. -/
theorem arm_bootmem_init_outside_reserved_witness :
    (arm_bootmem_init 0 100 [⟨0, 100⟩] [⟨0, 1⟩]).freeCount = 99 ∧
    (arm_bootmem_init 0 100 [⟨0, 100⟩] [⟨0, 1⟩]).reservedCount = 1 ∧
    arm_bootmem_init_alloc specMemblockOps examplePlatform
        (⟨[⟨0, 100 * 4096⟩], [⟨200 * 4096, 10 * 4096⟩]⟩ : memblock) 0 100 =
      some (arm_bootmem_init 0 100
        (specMemblockOps.memory_regions
          (⟨[⟨0, 100 * 4096⟩], [⟨0, 4096⟩, ⟨200 * 4096, 10 * 4096⟩]⟩ : memblock))
        [⟨0, 1⟩],
        (⟨[⟨0, 100 * 4096⟩], [⟨0, 4096⟩, ⟨200 * 4096, 10 * 4096⟩]⟩ : memblock)) ∧
    arm_bootmem_init_reserved_calls 100
        (specMemblockOps.reserved_regions
          (⟨[⟨0, 100 * 4096⟩], [⟨0, 4096⟩, ⟨200 * 4096, 10 * 4096⟩]⟩ : memblock)) =
      arm_bootmem_init_reserved_calls 100 [⟨0, 1⟩] :=
  ⟨by decide, by decide,
   (arm_bootmem_init_outside_reserved specMemblockOps examplePlatform
      (⟨[⟨0, 100 * 4096⟩], [⟨200 * 4096, 10 * 4096⟩]⟩ : memblock)
      (⟨[⟨0, 100 * 4096⟩], [⟨0, 4096⟩, ⟨200 * 4096, 10 * 4096⟩]⟩ : memblock)
      0 100 0 [⟨0, 1⟩] [] ⟨200, 210⟩ (by decide) (by decide) (by decide)).1,
   (arm_bootmem_init_outside_reserved specMemblockOps examplePlatform
      (⟨[⟨0, 100 * 4096⟩], [⟨200 * 4096, 10 * 4096⟩]⟩ : memblock)
      (⟨[⟨0, 100 * 4096⟩], [⟨0, 4096⟩, ⟨200 * 4096, 10 * 4096⟩]⟩ : memblock)
      0 100 0 [⟨0, 1⟩] [] ⟨200, 210⟩ (by decide) (by decide) (by decide)).2.1⟩

/-! ## The calls of `free_unused_memmap`, flat and sparse -/

/-- Flat configuration: entered with the rounded end of bank `p`, the bank
loop makes exactly the gap calls of the consecutive pairs of `p :: rest`. -/
theorem free_unused_memmap_banks_flat (cfg : MemmapConfig)
    (hflat : cfg.CONFIG_SPARSEMEM = false) (rest : List membank) :
    ∀ p : membank,
      (free_unused_memmap_banks cfg rest (ALIGN p.pfn_end (MAX_ORDER_NR_PAGES cfg))).1 =
        ((p :: rest).zip rest).filterMap (fun q => flat_gap cfg q.1 q.2) := by
  induction rest with
  | nil => intro p; rfl
  | cons cur rest ih =>
    intro p
    simp only [free_unused_memmap_banks, hflat, Bool.false_eq_true, if_false,
      List.zip_cons_cons, List.filterMap_cons, ih cur]
    unfold flat_gap
    split_ifs <;> rfl

/-- Sparse configuration: entered with the rounded end of bank `p`, the bank
loop makes exactly the sparse gap calls of the consecutive pairs of
`p :: rest` and leaves `prev_bank_end` at the rounded end of the last bank. -/
theorem free_unused_memmap_banks_sparse (cfg : MemmapConfig)
    (hsparse : cfg.CONFIG_SPARSEMEM = true) (rest : List membank) :
    ∀ p : membank,
      (free_unused_memmap_banks cfg rest (ALIGN p.pfn_end (MAX_ORDER_NR_PAGES cfg))).1 =
        ((p :: rest).zip rest).filterMap (fun q => sparse_gap cfg q.1 q.2) ∧
      ∀ last, (p :: rest).getLast? = some last →
        (free_unused_memmap_banks cfg rest (ALIGN p.pfn_end (MAX_ORDER_NR_PAGES cfg))).2 =
          ALIGN last.pfn_end (MAX_ORDER_NR_PAGES cfg) := by
  induction rest with
  | nil =>
    intro p
    refine ⟨rfl, fun last hlast => ?_⟩
    have : p = last := by simpa using hlast
    rw [← this]
    rfl
  | cons cur rest ih =>
    intro p
    obtain ⟨ih1, ih2⟩ := ih cur
    constructor
    · simp only [free_unused_memmap_banks, hsparse, if_true,
        List.zip_cons_cons, List.filterMap_cons, ih1]
      unfold sparse_gap
      split_ifs <;> rfl
    · intro last hlast
      rw [List.getLast?_cons_cons] at hlast
      simp only [free_unused_memmap_banks]
      exact ih2 last hlast

/-- C15: with a flat descriptor array, `free_unused_memmap` calls `free_memmap`
exactly for the consecutive bank pairs `(prev, cur)` whose rounded-up previous
end `ALIGN(prev.end, MAX_ORDER_NR_PAGES)` is non-zero and strictly below
`round_down(cur.start, MAX_ORDER_NR_PAGES)`, with exactly that frame range, in
bank order; a table of at most one bank gives no call (nothing for the first
bank, nothing after the last).  Holds for every bank table, ordered or not. -/
theorem free_unused_memmap_flat (cfg : MemmapConfig) (bank : List membank)
    (hflat : cfg.CONFIG_SPARSEMEM = false) :
    free_unused_memmap cfg bank = flat_gaps cfg bank ∧
    (bank.length ≤ 1 → free_unused_memmap cfg bank = []) := by
  have hmain : free_unused_memmap cfg bank = flat_gaps cfg bank := by
    cases bank with
    | nil => simp [free_unused_memmap, free_unused_memmap_banks, flat_gaps, consecutiveBanks,
        hflat]
    | cons first rest =>
      have h := free_unused_memmap_banks_flat cfg hflat rest first
      simp only [free_unused_memmap, free_unused_memmap_banks, hflat, Bool.false_eq_true,
        false_and, if_false, List.append_nil, ne_eq, not_true_eq_false, List.nil_append,
        flat_gaps, consecutiveBanks, List.tail_cons]
      exact h
  refine ⟨hmain, fun hlen => ?_⟩
  rw [hmain]
  cases bank with
  | nil => rfl
  | cons first rest =>
    cases rest with
    | nil => rfl
    | cons second rest => simp at hlen

/-- Banks 0..1000, 1010..1020 and 5000..6000 with `MAX_ORDER_NR_PAGES = 1024`:
the first pair has no gap after rounding, the second pair gives the single call
for frames 1024..4096. -/
theorem free_unused_memmap_flat_witness :
    free_unused_memmap ⟨false, 11, 16⟩
      [⟨0, 1000, false⟩, ⟨1010, 1020, false⟩, ⟨5000, 6000, false⟩] = [(1024, 4096)] ∧
    (free_unused_memmap ⟨false, 11, 16⟩
        [⟨0, 1000, false⟩, ⟨1010, 1020, false⟩, ⟨5000, 6000, false⟩] =
      flat_gaps ⟨false, 11, 16⟩
        [⟨0, 1000, false⟩, ⟨1010, 1020, false⟩, ⟨5000, 6000, false⟩] ∧
    ([(⟨0, 1000, false⟩ : membank), ⟨1010, 1020, false⟩, ⟨5000, 6000, false⟩].length ≤ 1 →
      free_unused_memmap ⟨false, 11, 16⟩
        [⟨0, 1000, false⟩, ⟨1010, 1020, false⟩, ⟨5000, 6000, false⟩] = [])) :=
  ⟨by decide,
   free_unused_memmap_flat ⟨false, 11, 16⟩
     [⟨0, 1000, false⟩, ⟨1010, 1020, false⟩, ⟨5000, 6000, false⟩] rfl⟩

/-- C16 (as stated) fails: under sparse section tracking with sections of
65536 frames and `MAX_ORDER_NR_PAGES = 1024`, for banks 0..1000 and 5000..6000
the section-rounded gap (65536 up to 0) is empty and the section-rounded last
end is aligned, so the claim has nothing released; `free_unused_memmap`
releases the descriptors of frames 1024..5000 and 6144..65536. -/
theorem free_unused_memmap_sparse_counterexample :
    sparse_gaps_section_rounded ⟨true, 11, 16⟩
      [⟨0, 1000, false⟩, ⟨5000, 6000, false⟩] = [] ∧
    free_unused_memmap ⟨true, 11, 16⟩ [⟨0, 1000, false⟩, ⟨5000, 6000, false⟩] =
      [(1024, 5000), (6144, 65536)] ∧
    free_unused_memmap ⟨true, 11, 16⟩ [⟨0, 1000, false⟩, ⟨5000, 6000, false⟩] ≠
      sparse_gaps_section_rounded ⟨true, 11, 16⟩
        [⟨0, 1000, false⟩, ⟨5000, 6000, false⟩] := by
  decide

/-- C16 (amended): under sparse section tracking the gap that
`free_unused_memmap` releases before a bank runs from the previous bank's end
frame rounded up to `MAX_ORDER_NR_PAGES` to the smaller of the current bank's
start frame and that rounded end rounded up to the section boundary, released
iff the rounded end is non-zero and the range is non-empty; after the last bank
the range from its end rounded up to `MAX_ORDER_NR_PAGES` to the next section
boundary is released iff that rounded end is not section-aligned.  These are
all the calls, in bank order. -/
theorem free_unused_memmap_sparse (cfg : MemmapConfig) (bank : List membank)
    (hsparse : cfg.CONFIG_SPARSEMEM = true) :
    free_unused_memmap cfg bank =
      (consecutiveBanks bank).filterMap (fun p => sparse_gap cfg p.1 p.2) ++
        sparse_trailing cfg bank := by
  cases bank with
  | nil =>
    simp [free_unused_memmap, free_unused_memmap_banks, consecutiveBanks, sparse_trailing,
      IS_ALIGNED]
  | cons first rest =>
    obtain ⟨h1, h2⟩ := free_unused_memmap_banks_sparse cfg hsparse rest first
    have hlast : (first :: rest).getLast? = some ((first :: rest).getLast (by simp)) :=
      List.getLast?_eq_getLast _ _
    have h2 := h2 _ hlast
    simp only [free_unused_memmap, free_unused_memmap_banks, ne_eq, not_true_eq_false,
      false_and, if_false, List.nil_append, consecutiveBanks, List.tail_cons, h1, h2,
      sparse_trailing, hlast, hsparse, true_and]

/-- Banks 0..1000 and 5000..6000, sections of 65536 frames,
`MAX_ORDER_NR_PAGES = 1024`: the gap 1024..5000 and the trailing range
6144..65536 are released. -/
theorem free_unused_memmap_sparse_witness :
    free_unused_memmap ⟨true, 11, 16⟩ [⟨0, 1000, false⟩, ⟨5000, 6000, false⟩] =
      [(1024, 5000), (6144, 65536)] ∧
    free_unused_memmap ⟨true, 11, 16⟩ [⟨0, 1000, false⟩, ⟨5000, 6000, false⟩] =
      (consecutiveBanks [⟨0, 1000, false⟩, ⟨5000, 6000, false⟩]).filterMap
          (fun p => sparse_gap ⟨true, 11, 16⟩ p.1 p.2) ++
        sparse_trailing ⟨true, 11, 16⟩ [⟨0, 1000, false⟩, ⟨5000, 6000, false⟩] :=
  ⟨by decide,
   free_unused_memmap_sparse ⟨true, 11, 16⟩ [⟨0, 1000, false⟩, ⟨5000, 6000, false⟩] rfl⟩

/-! ## `arm_adjust_dma_zone` on the size array -/

/-- C17: `arm_adjust_dma_zone(size, hole, d)` (compiled under
`CONFIG_ZONE_DMA`): if `size[0] > d`, afterwards the bounded-low zone
`ZONE_DMA` has frame count `d`, the remaining low zone `ZONE_NORMAL` has frame
count `size[0] - d` (old value of `size[0]`), and every other zone size is
unchanged; if `size[0] <= d`, the size and hole arrays are returned
unchanged. -/
theorem arm_adjust_dma_zone_sizes (cfg : ZoneConfig) (size hole : Nat → Nat) (d : Nat)
    (hdma : cfg.CONFIG_ZONE_DMA = true) (hU : size 0 < ULONG_SIZE) :
    (d < size 0 →
      (arm_adjust_dma_zone cfg size hole d).1 ZONE_DMA = d ∧
      (arm_adjust_dma_zone cfg size hole d).1 (ZONE_NORMAL cfg) = size 0 - d ∧
      ∀ j, j ≠ ZONE_DMA → j ≠ ZONE_NORMAL cfg →
        (arm_adjust_dma_zone cfg size hole d).1 j = size j) ∧
    (size 0 ≤ d → arm_adjust_dma_zone cfg size hole d = (size, hole)) := by
  have hN : ZONE_NORMAL cfg = 1 := by simp [ZONE_NORMAL, hdma]
  constructor
  · intro hlt
    have hnle : ¬ size 0 ≤ d := by omega
    have hsub : usub (size 0) d = size 0 - d := usub_eq_sub _ _ (by omega) hU
    unfold arm_adjust_dma_zone
    rw [if_neg hnle]
    simp only [store, hN, ZONE_DMA, hsub]
    refine ⟨by simp, by simp, fun j h0 h1 => ?_⟩
    rw [if_neg h0, if_neg h1]
  · intro hle
    unfold arm_adjust_dma_zone
    rw [if_pos hle]

/-- A low zone of 100 frames with 7 holes and a bounded-low size of 30 frames
splits into 30 and 70 frames; with a bounded-low size of 100 nothing changes. -/
theorem arm_adjust_dma_zone_sizes_witness :
    (arm_adjust_dma_zone ⟨true, true⟩ (store (fun _ => 0) 0 100) (store (fun _ => 0) 0 7)
      30).1 ZONE_DMA = 30 ∧
    (arm_adjust_dma_zone ⟨true, true⟩ (store (fun _ => 0) 0 100) (store (fun _ => 0) 0 7)
      30).1 (ZONE_NORMAL ⟨true, true⟩) = 70 ∧
    (arm_adjust_dma_zone ⟨true, true⟩ (store (fun _ => 0) 0 100) (store (fun _ => 0) 0 7)
        100 =
      (store (fun _ => 0) 0 100, store (fun _ => 0) 0 7)) :=
  ⟨by decide, by decide,
   (arm_adjust_dma_zone_sizes ⟨true, true⟩ (store (fun _ => 0) 0 100)
      (store (fun _ => 0) 0 7) 100 rfl (by decide)).2 (by decide)⟩

/-! ## The index read by `find_limits` -/

theorem find_limits_scan_le (bank : List membank) :
    ∀ i, i ≤ find_limits_scan bank i ∧ find_limits_scan bank i ≤ i + bank.length := by
  induction bank with
  | nil => intro i; simp [find_limits_scan]
  | cons b rest ih =>
    intro i
    simp only [find_limits_scan, List.length_cons]
    split_ifs
    · omega
    · have := ih (i + 1); omega

theorem find_limits_scan_pos_iff (bank : List membank) :
    1 ≤ find_limits_scan bank 0 ↔ ∃ first, bank.head? = some first ∧ first.highmem = false := by
  cases bank with
  | nil => simp [find_limits_scan]
  | cons b rest =>
    simp only [find_limits_scan, List.head?_cons, Option.some.injEq, exists_eq_left']
    cases hb : b.highmem
    · have := (find_limits_scan_le rest 1).1
      simp
      omega
    · simp

/-- C18: the index `i - 1` at which `find_limits` looks up the bank preceding
the first high-memory bank lies within the bank table if and only if the table
is non-empty and `bank[0]` is not high memory; and exactly then `find_limits`
returns its three boundaries instead of reading out of bounds. -/
theorem find_limits_index_in_bounds (bank : List membank) :
    ((0 ≤ find_limits_low_index bank ∧ find_limits_low_index bank < (bank.length : Int)) ↔
      ∃ first, bank.head? = some first ∧ first.highmem = false) ∧
    ((find_limits bank).isSome = true ↔
      ∃ first, bank.head? = some first ∧ first.highmem = false) := by
  have hle := (find_limits_scan_le bank 0).2
  have hpos := find_limits_scan_pos_iff bank
  constructor
  · unfold find_limits_low_index
    rw [← hpos]
    constructor
    · rintro ⟨h1, _⟩; omega
    · intro h; constructor <;> omega
  · constructor
    · intro hsome
      rw [← hpos]
      by_contra hzero
      have hz : find_limits_scan bank 0 = 0 := by omega
      unfold find_limits at hsome
      cases hb : bank[0]? with
      | none => simp [hb] at hsome
      | some b => simp [hb, hz] at hsome
    · rintro ⟨first, hfirst, hlow⟩
      obtain ⟨_, b, _, last, _, _, _, _, _, hres⟩ := find_limits_decomp bank first hfirst hlow
      rw [hres]
      rfl

/-- A table that starts with a high-memory bank: the scan leaves `i = 0`, the
index `i - 1 = -1` is out of bounds and `find_limits` has no result; with a low
first bank the index is 0 and the result exists. -/
theorem find_limits_index_in_bounds_witness :
    find_limits_low_index [⟨0, 50, true⟩] = -1 ∧
    find_limits [⟨0, 50, true⟩] = none ∧
    find_limits_low_index [⟨0, 50, false⟩, ⟨50, 120, true⟩] = 0 ∧
    (find_limits [⟨0, 50, false⟩, ⟨50, 120, true⟩]).isSome = true :=
  ⟨by decide, by decide, by decide,
   (find_limits_index_in_bounds [⟨0, 50, false⟩, ⟨50, 120, true⟩]).2.mpr
     ⟨⟨0, 50, false⟩, rfl, rfl⟩⟩

/-! ## No frame is released twice by `free_highpages` -/

theorem mem_framesOf (calls : List (Nat × Nat)) (f : Nat) :
    f ∈ framesOf calls ↔ inCalls calls f := by
  unfold framesOf inCalls
  simp only [List.mem_flatMap, mem_free_area_high]

theorem framesOf_append (a b : List (Nat × Nat)) :
    framesOf (a ++ b) = framesOf a ++ framesOf b := by
  unfold framesOf
  exact List.flatMap_append a b _

theorem framesOf_nil : framesOf [] = [] := rfl

theorem framesOf_single (a b : Nat) : framesOf [(a, b)] = free_area_high a b := by
  simp [framesOf]

theorem pairwise_lt_free_area_high (a b : Nat) :
    List.Pairwise (fun x y => x < y) (free_area_high a b) := by
  unfold free_area_high
  exact List.pairwise_lt_range' a (b - a)

theorem framesOf_gap_sorted (start x : Nat) :
    List.Pairwise (fun a b => a < b) (framesOf (if x ≠ start then [(start, x)] else [])) := by
  split_ifs
  · rw [framesOf_single]; exact pairwise_lt_free_area_high _ _
  · exact List.Pairwise.nil

/-- The frames released by the reserved loop come in strictly ascending order
and lie between the entry cursor and the exit cursor. -/
theorem free_highpages_reserved_sorted (end_pfn : Nat) (reserved : List Interval) :
    ∀ start, start ≤ end_pfn → wellFormed reserved →
      List.Pairwise (fun a b => a < b)
        (framesOf (free_highpages_reserved end_pfn reserved start).1) ∧
      (∀ f ∈ framesOf (free_highpages_reserved end_pfn reserved start).1,
        start ≤ f ∧ f < (free_highpages_reserved end_pfn reserved start).2) ∧
      start ≤ (free_highpages_reserved end_pfn reserved start).2 ∧
      (free_highpages_reserved end_pfn reserved start).2 ≤ end_pfn := by
  induction reserved with
  | nil =>
    intro start hs _
    simp only [free_highpages_reserved, framesOf_nil]
    exact ⟨List.Pairwise.nil, fun f hf => by simp at hf, le_refl _, hs⟩
  | cons r rest ih =>
    intro start hs hwf
    have hwf_r : r.start_pfn ≤ r.end_pfn := hwf r (List.mem_cons_self _ _)
    have hwf_rest : wellFormed rest := fun x hx => hwf x (List.mem_cons_of_mem _ hx)
    simp only [free_highpages_reserved, res_start_clamp, res_end_clamp]
    by_cases h1 : r.end_pfn < start
    · rw [if_pos h1]
      exact ih start hs hwf_rest
    · rw [if_neg h1]
      have hge : start ≤ min (max r.start_pfn start) end_pfn := by omega
      have hgap : ∀ f, f ∈ framesOf (if min (max r.start_pfn start) end_pfn ≠ start then
            [(start, min (max r.start_pfn start) end_pfn)] else []) ↔
          start ≤ f ∧ f < min (max r.start_pfn start) end_pfn := by
        intro f
        rw [mem_framesOf]
        exact inCalls_gap start _ f hge
      have hsorted := framesOf_gap_sorted start (min (max r.start_pfn start) end_pfn)
      by_cases h2 : min r.end_pfn end_pfn = end_pfn
      · rw [if_pos h2]
        refine ⟨hsorted, fun f hf => ?_, by omega, by omega⟩
        have := (hgap f).mp hf
        simp only []
        omega
      · rw [if_neg h2]
        obtain ⟨i1, i2, i3, i4⟩ := ih (min r.end_pfn end_pfn) (by omega) hwf_rest
        simp only [] at i1 i2 i3 i4 ⊢
        rw [framesOf_append]
        refine ⟨?_, fun f hf => ?_, by omega, i4⟩
        · rw [List.pairwise_append]
          refine ⟨hsorted, i1, fun a ha b hb => ?_⟩
          have := (hgap a).mp ha
          have := i2 b hb
          omega
        · rcases List.mem_append.mp hf with hf | hf
          · have := (hgap f).mp hf
            omega
          · have := i2 f hf
            omega

/-- The frames released for one memory region come in strictly ascending
order. -/
theorem free_highpages_region_sorted (max_low : Nat) (reserved : List Interval)
    (mem : Interval) (hwf : wellFormed reserved) :
    List.Pairwise (fun a b => a < b)
      (framesOf (free_highpages_region max_low reserved mem)) := by
  unfold free_highpages_region
  simp only [res_start_clamp]
  by_cases h0 : mem.end_pfn ≤ max_low
  · rw [if_pos h0]; exact List.Pairwise.nil
  · rw [if_neg h0, framesOf_append]
    by_cases hs : max mem.start_pfn max_low ≤ mem.end_pfn
    · obtain ⟨i1, i2, _, _⟩ := free_highpages_reserved_sorted mem.end_pfn reserved
        (max mem.start_pfn max_low) hs hwf
      rw [List.pairwise_append]
      refine ⟨i1, ?_, fun a ha b hb => ?_⟩
      · split_ifs
        · rw [framesOf_single]; exact pairwise_lt_free_area_high _ _
        · exact List.Pairwise.nil
      · have h1 := i2 a ha
        split_ifs at hb
        · rw [framesOf_single, mem_free_area_high] at hb
          omega
        · simp [framesOf_nil] at hb
    · have hs : mem.end_pfn < max mem.start_pfn max_low := by omega
      obtain ⟨hle, hno⟩ := free_highpages_reserved_inverted mem.end_pfn reserved
        (max mem.start_pfn max_low) hs
      have hempty : framesOf (free_highpages_reserved mem.end_pfn reserved
          (max mem.start_pfn max_low)).1 = [] := by
        apply List.eq_nil_iff_forall_not_mem.mpr
        intro f hf
        exact hno f ((mem_framesOf _ f).mp hf)
      rw [hempty, if_neg (by omega)]
      exact List.Pairwise.nil

theorem free_highpages_eq_flatMap (max_low : Nat) (memory reserved : List Interval) :
    free_highpages max_low memory reserved =
      memory.flatMap (fun m => framesOf (free_highpages_region max_low reserved m)) := by
  unfold free_highpages free_highpages_calls framesOf
  exact List.flatMap_assoc _ _ _

/-- C19: for every table of pairwise disjoint present-memory intervals and
every well-formed reserved table in ascending non-overlapping order,
`free_highpages` passes no frame to `free_highmem_page` twice, and the frames
released for one memory interval come in strictly ascending order. -/
theorem free_highpages_no_double_free (max_low : Nat) (memory reserved : List Interval)
    (hdis : pairwiseDisjoint memory) (hwf : wellFormed reserved)
    (hasc : ascending reserved) :
    (free_highpages max_low memory reserved).Nodup ∧
    ∀ m ∈ memory, List.Pairwise (fun a b => a < b)
      (framesOf (free_highpages_region max_low reserved m)) := by
  refine ⟨?_, fun m _ => free_highpages_region_sorted max_low reserved m hwf⟩
  rw [free_highpages_eq_flatMap, List.nodup_flatMap]
  constructor
  · intro m _
    exact (free_highpages_region_sorted max_low reserved m hwf).imp (fun h => Nat.ne_of_lt h)
  · refine List.Pairwise.imp ?_ hdis
    intro a b hab f hfa hfb
    have ha := ((free_highpages_region_spec max_low reserved a hwf hasc f).mp
      ((mem_framesOf _ f).mp hfa)).1.1
    have hb := ((free_highpages_region_spec max_low reserved b hwf hasc f).mp
      ((mem_framesOf _ f).mp hfb)).1.1
    exact (Interval.disjoint_iff a b).mp hab f ⟨ha, hb⟩

/-- Memory 40..60 and 60..120 with `max_low = 50` and reserved 70..80: the
frames 50..59, 60..69 and 80..119 are released, each once. -/
theorem free_highpages_no_double_free_witness :
    free_highpages 50 [⟨40, 60⟩, ⟨60, 120⟩] [⟨70, 80⟩] =
      List.range' 50 10 ++ (List.range' 60 10 ++ List.range' 80 40) ∧
    ((free_highpages 50 [⟨40, 60⟩, ⟨60, 120⟩] [⟨70, 80⟩]).Nodup ∧
    ∀ m ∈ [(⟨40, 60⟩ : Interval), ⟨60, 120⟩], List.Pairwise (fun a b => a < b)
      (framesOf (free_highpages_region 50 [⟨70, 80⟩] m))) :=
  ⟨by decide,
   free_highpages_no_double_free 50 [⟨40, 60⟩, ⟨60, 120⟩] [⟨70, 80⟩]
     (by decide) (by decide) (by decide)⟩

/-! ## `poison_init_mem` -/

theorem wordAddresses_succ (p n : Nat) (hp : p < ULONG_SIZE) :
    wordAddresses p (n + 1) = p :: wordAddresses (uadd p 4) n := by
  unfold wordAddresses
  rw [List.range_succ_eq_map, List.map_cons, List.map_map]
  have h0 : uadd p (4 * 0) = p := by
    unfold uadd; unfold ULONG_SIZE at *; omega
  rw [h0]
  congr 1
  apply List.map_congr_left
  intro k _
  simp only [Function.comp, uadd]
  unfold ULONG_SIZE
  omega

theorem wordAddresses_length (p n : Nat) : (wordAddresses p n).length = n := by
  simp [wordAddresses]

/-- With enough fuel the loop entered with `count = 4 * n` ends after `n`
stores, to the `n` consecutive words from the cursor on, and changes no other
word. -/
theorem poison_init_mem_loop_spec (n : Nat) :
    ∀ (fuel : Nat) (mem : Nat → Nat) (p : Nat) (stores : List Nat),
      p < ULONG_SIZE → 4 * n < ULONG_SIZE → n ≤ fuel →
      ∃ mem', poison_init_mem_loop fuel mem p (4 * n) stores =
          some (mem', stores ++ wordAddresses p n) ∧
        ∀ a, mem' a = if a ∈ wordAddresses p n then POISON else mem a := by
  induction n with
  | zero =>
    intro fuel mem p stores _ _ _
    refine ⟨mem, ?_, fun a => by simp [wordAddresses]⟩
    cases fuel <;> simp [poison_init_mem_loop, wordAddresses]
  | succ n ih =>
    intro fuel mem p stores hp hn hfuel
    cases fuel with
    | zero => omega
    | succ fuel =>
      have hcount : usub (4 * (n + 1)) 4 = 4 * n := by
        rw [usub_eq_sub _ _ (by omega) hn]; omega
      have hp4 : uadd p 4 < ULONG_SIZE := by
        unfold uadd
        exact Nat.mod_lt _ (by unfold ULONG_SIZE; omega)
      obtain ⟨mem', hrun, hmem⟩ := ih fuel (store mem p POISON) (uadd p 4) (stores ++ [p])
        hp4 (by omega) (by omega)
      refine ⟨mem', ?_, fun a => ?_⟩
      · simp only [poison_init_mem_loop]
        rw [if_neg (by omega), hcount, hrun, wordAddresses_succ p n hp]
        simp
      · rw [hmem a, wordAddresses_succ p n hp]
        simp only [store, List.mem_cons]
        by_cases h1 : a ∈ wordAddresses (uadd p 4) n
        · simp [h1]
        · by_cases h2 : a = p
          · simp [h2]
          · simp [h1, h2]

/-- C20: for every `count` that is a multiple of 4, `poison_init_mem(s, count)`
ends (given fuel for `count / 4` iterations) after exactly `count / 4`
iterations, one store each, having written the word `0xe7fddef0` to each of the
`count / 4` consecutive 32-bit words starting at `s` and to nothing else;
`count = 0` stores nothing. -/
theorem poison_init_mem_spec (fuel : Nat) (mem : Nat → Nat) (s count : Nat)
    (hs : s < ULONG_SIZE) (hcount : count < ULONG_SIZE) (h4 : count % 4 = 0)
    (hfuel : count / 4 ≤ fuel) :
    ∃ mem', poison_init_mem fuel mem s count = some (mem', wordAddresses s (count / 4)) ∧
      (wordAddresses s (count / 4)).length = count / 4 ∧
      (∀ a, mem' a = if a ∈ wordAddresses s (count / 4) then 0xe7fddef0 else mem a) ∧
      (count = 0 → wordAddresses s (count / 4) = []) := by
  have hc : count = 4 * (count / 4) := by omega
  obtain ⟨mem', hrun, hmem⟩ := poison_init_mem_loop_spec (count / 4) fuel mem s [] hs
    (by omega) hfuel
  refine ⟨mem', ?_, wordAddresses_length _ _, hmem, fun h0 => ?_⟩
  · unfold poison_init_mem
    rw [← hc] at hrun
    rw [hrun, List.nil_append]
  · rw [h0]; rfl

/-- Poisoning 12 bytes at `0x1000` takes three iterations and stores to
`0x1000`, `0x1004` and `0x1008`; a count of 10, not a multiple of 4, has not
ended after 100 iterations. -/
theorem poison_init_mem_spec_witness :
    (poison_init_mem 3 (fun _ => 0) 0x1000 12).map (fun r => r.2) =
      some [0x1000, 0x1004, 0x1008] ∧
    (poison_init_mem 100 (fun _ => 0) 0x1000 10).isNone = true ∧
    ∃ mem', poison_init_mem 3 (fun _ => 0) 0x1000 12 =
        some (mem', wordAddresses 0x1000 (12 / 4)) ∧
      (wordAddresses 0x1000 (12 / 4)).length = 12 / 4 ∧
      (∀ a, mem' a = if a ∈ wordAddresses 0x1000 (12 / 4) then 0xe7fddef0
        else (fun _ => 0) a) ∧
      (12 = 0 → wordAddresses 0x1000 (12 / 4) = []) :=
  ⟨by decide, by decide,
   poison_init_mem_spec 3 (fun _ => 0) 0x1000 12 (by decide) (by decide) (by decide)
     (by decide)⟩

/-! ## The low/high boundary across the handoff -/

/-- Subtracting and adding back the same offset on `unsigned long` gives the
value back, whether or not the subtraction wrapped. -/
theorem uadd_usub_cancel (a b : Nat) (ha : a < ULONG_SIZE) : uadd (usub a b) b = a := by
  unfold uadd usub
  unfold ULONG_SIZE at *
  omega

/-- The limits `find_limits` returns are frame numbers of the bank table. -/
theorem find_limits_fit_word (bank : List membank) (min_pfn max_low max_high : Nat)
    (hword : banksFitWord bank)
    (hlimits : find_limits bank = some (min_pfn, max_low, max_high)) :
    min_pfn < ULONG_SIZE ∧ max_low < ULONG_SIZE ∧ max_high < ULONG_SIZE := by
  unfold find_limits at hlimits
  split at hlimits
  · simp at hlimits
  · rename_i first hfirst
    simp only at hlimits
    split_ifs at hlimits with hi
    split at hlimits
    · rename_i low last hlow hlast
      simp only [Option.some.injEq, Prod.mk.injEq] at hlimits
      obtain ⟨h1, h2, h3⟩ := hlimits
      subst h1 h2 h3
      exact ⟨(hword first (List.getElem?_mem hfirst)).1,
        (hword low (List.getElem?_mem hlow)).2,
        (hword last (List.getElem?_mem hlast)).2⟩
    · simp at hlimits

/-- A call other than `bootmem_init` leaves `max_low_pfn` and `max_pfn` as they
are, however it ends. -/
theorem exec_keeps_max_pfn {σ : Type} (ops : MemblockOps σ) (pf : Platform σ)
    (st : InitGlobals σ) (c : Call σ) (h : Call.is_bootmem_init c = false) :
    (exec ops pf st c).state.max_low_pfn = st.max_low_pfn ∧
    (exec ops pf st c).state.max_pfn = st.max_pfn := by
  cases c with
  | early_initrd start comma size =>
    simp only [exec, Outcome.state, early_initrd]
    split_ifs <;> exact ⟨rfl, rfl⟩
  | parse_tag_initrd a b => exact ⟨rfl, rfl⟩
  | parse_tag_initrd2 a b => exact ⟨rfl, rfl⟩
  | early_init_dt_setup_initrd_arch a b => exact ⟨rfl, rfl⟩
  | show_mem f => exact ⟨rfl, rfl⟩
  | setup_dma_zone mdesc =>
    simp only [exec, Outcome.state, setup_dma_zone]
    split_ifs <;> exact ⟨rfl, rfl⟩
  | pfn_valid p => exact ⟨rfl, rfl⟩
  | arm_memblock_steal size align =>
    simp only [exec, arm_memblock_steal]
    split_ifs
    · exact ⟨rfl, rfl⟩
    · cases ops.memblock_alloc_base st.memblock size align pf.MEMBLOCK_ALLOC_ANYWHERE with
      | none => exact ⟨rfl, rfl⟩
      | some r => exact ⟨rfl, rfl⟩
  | arm_memblock_init mi mdesc =>
    simp only [exec, Outcome.state, arm_memblock_init, arm_memblock_init_banks,
      arm_memblock_init_initrd]
    split_ifs <;> exact ⟨rfl, rfl⟩
  | bootmem_init meminfo => simp [Call.is_bootmem_init] at h
  | mem_init meminfo => exact ⟨rfl, rfl⟩
  | free_initmem => exact ⟨rfl, rfl⟩
  | free_initrd_mem a b => exact ⟨rfl, rfl⟩
  | keepinitrd_setup => exact ⟨rfl, rfl⟩

/-- A sequence of calls without `bootmem_init` leaves `max_low_pfn` and
`max_pfn` as they are, wherever it ends. -/
theorem run_keeps_max_pfn {σ : Type} (ops : MemblockOps σ) (pf : Platform σ)
    (calls : List (Call σ)) (hcalls : ∀ c ∈ calls, Call.is_bootmem_init c = false) :
    ∀ st : InitGlobals σ,
      (run ops pf st calls).state.max_low_pfn = st.max_low_pfn ∧
      (run ops pf st calls).state.max_pfn = st.max_pfn := by
  induction calls with
  | nil => intro st; exact ⟨rfl, rfl⟩
  | cons c rest ih =>
    intro st
    have hc := exec_keeps_max_pfn ops pf st c (hcalls c (List.mem_cons_self _ _))
    have hrest := ih (fun x hx => hcalls x (List.mem_cons_of_mem _ hx))
    simp only [run]
    cases he : exec ops pf st c with
    | ok r st1 =>
      rw [he] at hc
      obtain ⟨h1, h2⟩ := hrest st1
      exact ⟨h1.trans hc.1, h2.trans hc.2⟩
    | bug st1 => rw [he] at hc; exact hc
    | fatal st1 => rw [he] at hc; exact hc
    | undefined st1 => rw [he] at hc; exact hc

/-- C21: the low/high boundary survives the handoff.  When `find_limits` yields
`(min, max_low, max_high)` on a bank table of `unsigned long` frame numbers and
the bitmap pages can be allocated, `bootmem_init` returns, having sized the
bitmap and the zones with `max_low` and `max_high`, and for every
`PHYS_PFN_OFFSET`, also when `max_low - PHYS_PFN_OFFSET` wraps, the stored
`max_low_pfn` and `max_pfn` give `max_low_pfn + PHYS_PFN_OFFSET = max_low` and
`max_pfn + PHYS_PFN_OFFSET = max_high`.  After any further calls other than
`bootmem_init`, `mem_init` takes the descriptor of frame `max_high` for
`max_mapnr` and its `free_highpages` releases exactly what `free_highpages`
releases with the boundary `max_low`. -/
theorem bootmem_init_boundary_handoff {σ : Type} (ops : MemblockOps σ) (pf : Platform σ)
    (st : InitGlobals σ) (meminfo : List membank) (min_pfn max_low max_high phys : Nat)
    (mb : σ) (hword : banksFitWord meminfo)
    (hlimits : find_limits meminfo = some (min_pfn, max_low, max_high))
    (halloc : ops.memblock_alloc_base st.memblock
      ((pf.bootmem_bootmap_pages (usub max_low min_pfn) * PAGE_SIZE) % ULONG_SIZE)
      pf.L1_CACHE_BYTES (pfn_to_phys max_low) = some (phys, mb)) :
    ∃ st1, bootmem_init ops pf st meminfo = Outcome.ok () st1 ∧
      st1.bootmem = some (pf.sparse_init
        (arm_bootmem_init min_pfn max_low (ops.memory_regions mb) (ops.reserved_regions mb))) ∧
      st1.zones = some (arm_bootmem_free pf.zone st.arm_dma_zone_size min_pfn max_low max_high
        (ops.memory_regions mb)) ∧
      st1.max_low_pfn = usub max_low pf.PHYS_PFN_OFFSET ∧
      st1.max_pfn = usub max_high pf.PHYS_PFN_OFFSET ∧
      uadd st1.max_low_pfn pf.PHYS_PFN_OFFSET = max_low ∧
      uadd st1.max_pfn pf.PHYS_PFN_OFFSET = max_high ∧
      ∀ (calls : List (Call σ)) (meminfo2 : List membank),
        (∀ c ∈ calls, Call.is_bootmem_init c = false) →
        mem_init_max_mapnr_pfn pf (run ops pf st1 calls).state = max_high ∧
        (mem_init ops pf (run ops pf st1 calls).state meminfo2).freed_highpages =
          (run ops pf st1 calls).state.freed_highpages ++
            (if pf.zone.CONFIG_HIGHMEM then
              free_highpages max_low
                (ops.memory_regions (run ops pf st1 calls).state.memblock)
                (ops.reserved_regions (run ops pf st1 calls).state.memblock)
            else []) := by
  obtain ⟨_, hlow, hhigh⟩ := find_limits_fit_word meminfo min_pfn max_low max_high hword hlimits
  have e1 := uadd_usub_cancel max_low pf.PHYS_PFN_OFFSET hlow
  have e2 := uadd_usub_cancel max_high pf.PHYS_PFN_OFFSET hhigh
  refine ⟨{ st with memblock := mb,
                      bootmem := some (pf.sparse_init (arm_bootmem_init min_pfn max_low
                        (ops.memory_regions mb) (ops.reserved_regions mb))),
                      zones := some (arm_bootmem_free pf.zone st.arm_dma_zone_size min_pfn
                        max_low max_high (ops.memory_regions mb)),
                      max_low_pfn := usub max_low pf.PHYS_PFN_OFFSET,
                      max_pfn := usub max_high pf.PHYS_PFN_OFFSET },
    ?_, rfl, rfl, rfl, rfl, e1, e2, ?_⟩
  · unfold bootmem_init
    simp only [hlimits, halloc]
  · intro calls meminfo2 hcalls
    obtain ⟨k1, k2⟩ := run_keeps_max_pfn ops pf calls hcalls
      { st with memblock := mb,
                bootmem := some (pf.sparse_init (arm_bootmem_init min_pfn max_low
                  (ops.memory_regions mb) (ops.reserved_regions mb))),
                zones := some (arm_bootmem_free pf.zone st.arm_dma_zone_size min_pfn max_low
                  max_high (ops.memory_regions mb)),
                max_low_pfn := usub max_low pf.PHYS_PFN_OFFSET,
                max_pfn := usub max_high pf.PHYS_PFN_OFFSET }
    refine ⟨?_, ?_⟩
    · unfold mem_init_max_mapnr_pfn
      rw [k2]; exact e2
    · simp only [mem_init]
      rw [k1, e1]

/-- With RAM at `0x80000000`, a low bank of frames `0x80000..0x80100` and a
high bank `0x80100..0x80180`, `bootmem_init` stores `max_low_pfn = 0x100` and
`max_pfn = 0x180` and the handoff gives back `0x80100` and `0x80180`.  With the
same offset and banks at frames `0..0x100` and `0x100..0x180` the subtraction
wraps, `max_low_pfn` is `0xfff80100`, and the sum is again `0x100`. -/
theorem bootmem_init_boundary_handoff_witness :
    (bootmem_init specMemblockOps examplePlatformHighRam
      (InitGlobals.boot (⟨[⟨0x80000000, 0x180000⟩], []⟩ : memblock))
      [⟨0x80000, 0x80100, false⟩, ⟨0x80100, 0x80180, true⟩]).state.max_low_pfn = 0x100 ∧
    (bootmem_init specMemblockOps examplePlatformHighRam
      (InitGlobals.boot (⟨[⟨0, 0x180000⟩], []⟩ : memblock))
      [⟨0, 0x100, false⟩, ⟨0x100, 0x180, true⟩]).state.max_low_pfn = 0xfff80100 ∧
    uadd (bootmem_init specMemblockOps examplePlatformHighRam
      (InitGlobals.boot (⟨[⟨0, 0x180000⟩], []⟩ : memblock))
      [⟨0, 0x100, false⟩, ⟨0x100, 0x180, true⟩]).state.max_low_pfn 0x80000 = 0x100 ∧
    ∃ st1, bootmem_init specMemblockOps examplePlatformHighRam
        (InitGlobals.boot (⟨[⟨0x80000000, 0x180000⟩], []⟩ : memblock))
        [⟨0x80000, 0x80100, false⟩, ⟨0x80100, 0x80180, true⟩] = Outcome.ok () st1 ∧
      st1.bootmem = some (examplePlatformHighRam.sparse_init
        (arm_bootmem_init 0x80000 0x80100
          (specMemblockOps.memory_regions
            (⟨[⟨0x80000000, 0x180000⟩], [⟨0x80000000, 4096⟩]⟩ : memblock))
          (specMemblockOps.reserved_regions
            (⟨[⟨0x80000000, 0x180000⟩], [⟨0x80000000, 4096⟩]⟩ : memblock)))) ∧
      st1.zones = some (arm_bootmem_free examplePlatformHighRam.zone
        (InitGlobals.boot (⟨[⟨0x80000000, 0x180000⟩], []⟩ : memblock)).arm_dma_zone_size
        0x80000 0x80100 0x80180
        (specMemblockOps.memory_regions
          (⟨[⟨0x80000000, 0x180000⟩], [⟨0x80000000, 4096⟩]⟩ : memblock))) ∧
      st1.max_low_pfn = usub 0x80100 examplePlatformHighRam.PHYS_PFN_OFFSET ∧
      st1.max_pfn = usub 0x80180 examplePlatformHighRam.PHYS_PFN_OFFSET ∧
      uadd st1.max_low_pfn examplePlatformHighRam.PHYS_PFN_OFFSET = 0x80100 ∧
      uadd st1.max_pfn examplePlatformHighRam.PHYS_PFN_OFFSET = 0x80180 ∧
      ∀ (calls : List (Call memblock)) (meminfo2 : List membank),
        (∀ c ∈ calls, Call.is_bootmem_init c = false) →
        mem_init_max_mapnr_pfn examplePlatformHighRam
          (run specMemblockOps examplePlatformHighRam st1 calls).state = 0x80180 ∧
        (mem_init specMemblockOps examplePlatformHighRam
          (run specMemblockOps examplePlatformHighRam st1 calls).state
          meminfo2).freed_highpages =
          (run specMemblockOps examplePlatformHighRam st1 calls).state.freed_highpages ++
            (if examplePlatformHighRam.zone.CONFIG_HIGHMEM then
              free_highpages 0x80100
                (specMemblockOps.memory_regions
                  (run specMemblockOps examplePlatformHighRam st1 calls).state.memblock)
                (specMemblockOps.reserved_regions
                  (run specMemblockOps examplePlatformHighRam st1 calls).state.memblock)
            else []) :=
  ⟨by decide, by decide, by decide,
   bootmem_init_boundary_handoff specMemblockOps examplePlatformHighRam
     (InitGlobals.boot (⟨[⟨0x80000000, 0x180000⟩], []⟩ : memblock))
     [⟨0x80000, 0x80100, false⟩, ⟨0x80100, 0x80180, true⟩] 0x80000 0x80100 0x80180
     0x80000000 (⟨[⟨0x80000000, 0x180000⟩], [⟨0x80000000, 4096⟩]⟩ : memblock)
     (by decide) (by decide) (by decide)⟩

end ArmInit
